import Mathlib

/-! # softipbus: word ring, framing, stream state machine, dispatcher, packet processor,
memory handlers

A shallow embedding of `circular_buffer.c`, `serialization.c`,
`transactionhandler.c`, `packethandler.c`, `dummyhandlers.c`, `handlers.c`,
`bytebuffer.c` and the drive step of `serve-tcp.c` and `serve-serial.c`.

Conventions of the embedding:

* a `uint32_t` is a `Nat`; operations that can wrap carry an explicit
  `% 4294967296`;
* the ring storage (`uint32_t* data`, `IO_BUFFER_SIZE` words) is a function from
  the storage index to the word held there;
* a C function that mutates its arguments returns the new values next to its
  C return value;
* the byte order of the host is a parameter `le` (`true` on a little-endian
  host, where `htonl`/`ntohl` reverse the bytes, `false` on a big-endian one,
  where they are the identity);
* the link-time choice of the `handle_IPBUS_*` functions is a parameter
  `Handlers σ`, with `σ` the state the handlers own;
* the memory behind `membase` is a function from the byte offset to the byte
  held there; a `uint32_t` access reads or writes four bytes in the byte order
  of the host, and no bound is put on the mapped region;
* an `int`, `size_t` or `ssize_t` is an `Int`, with the conversions of C made
  explicit (`to_int`, `to_size_t`, `to_ssize_t`); the width of `size_t` is a
  parameter `lp64`;
* a call of `read` or `write` is represented by its outcome, given as an
  argument.
-/

namespace SoftIPbus

/-! ## endiantools.h -/

/-- Reverse the four bytes of a 32-bit word (`__bswap_32`). -/
def bswap32 (x : Nat) : Nat :=
  (x % 256) * 16777216 + (x / 256 % 256) * 65536 + (x / 65536 % 256) * 256
    + (x / 16777216 % 256)

/-- The macro `network_to_host(x)`, that is `ntohl(x)`. -/
def network_to_host (le : Bool) (x : Nat) : Nat :=
  if le then bswap32 x else x

/-- The macro `host_to_network(x)`, that is `htonl(x)`. -/
def host_to_network (le : Bool) (x : Nat) : Nat :=
  if le then bswap32 x else x

/-! ## circular_buffer.h / circular_buffer.c -/

/-- Number of words of ring storage (`#define IO_BUFFER_SIZE 256`). -/
def IO_BUFFER_SIZE : Nat := 256

/-- The struct `CircularBuffer`: storage, write cursor `tail`, read cursor `pos`. -/
structure CircularBuffer where
  data : Nat → Nat
  tail : Nat
  pos : Nat

/-- The function `cbuffer_new`: zeroed storage (`calloc`), both cursors at 0. -/
def cbuffer_new : CircularBuffer :=
  { data := fun _ => 0, tail := 0, pos := 0 }

/-- The function `cbuffer_copy`. -/
def cbuffer_copy (src : CircularBuffer) : CircularBuffer :=
  { data := src.data, tail := src.tail, pos := src.pos }

/-- The function `cbuffer_size`. -/
def cbuffer_size (buffer : CircularBuffer) : Nat :=
  if buffer.pos ≤ buffer.tail then buffer.tail - buffer.pos
  else buffer.tail + IO_BUFFER_SIZE - buffer.pos

/-- The function `cbuffer_contiguous_data_size`. -/
def cbuffer_contiguous_data_size (buffer : CircularBuffer) : Nat :=
  if buffer.pos ≤ buffer.tail then buffer.tail - buffer.pos
  else IO_BUFFER_SIZE - buffer.pos

/-- The function `cbuffer_value_at`. -/
def cbuffer_value_at (buf : CircularBuffer) (idx : Nat) : Nat :=
  let actual_idx := (buf.pos + idx) % IO_BUFFER_SIZE
  buf.data actual_idx

/-- The function `cbuffer_value_at_net`. -/
def cbuffer_value_at_net (le : Bool) (buf : CircularBuffer) (idx : Nat) : Nat :=
  network_to_host le (cbuffer_value_at buf idx)

/-- The function `cbuffer_freespace`. -/
def cbuffer_freespace (buf : CircularBuffer) : Nat :=
  IO_BUFFER_SIZE - cbuffer_size buf - 1

/-- The effect of `memcpy(&dst[at], src, n * sizeof(uint32_t))` on word storage
`dst`: the `n` slots from `at` on receive the first `n` words of `src`; the
result is the word held at storage index `i` afterwards. -/
def memcpy_words (dst : Nat → Nat) (at_ : Nat) (src : List Nat) (n : Nat) (i : Nat) : Nat :=
  if at_ ≤ i ∧ i < at_ + n then src.getD (i - at_) 0 else dst i

/-- The function `cbuffer_append`: the C return value and the ring afterwards.
`data` holds the words the pointer argument points to. -/
def cbuffer_append (buffer : CircularBuffer) (data : List Nat) (nwords : Nat) :
    Int × CircularBuffer :=
  let freespace := cbuffer_freespace buffer
  if freespace < nwords then (-1, buffer)
  else
    let tail_length := IO_BUFFER_SIZE - buffer.tail
    let d1 := memcpy_words buffer.data buffer.tail data (min nwords tail_length)
    let d2 :=
      if tail_length < nwords then
        memcpy_words d1 0 (data.drop tail_length) (nwords - tail_length)
      else d1
    (0, { data := d2, tail := (buffer.tail + nwords) % IO_BUFFER_SIZE, pos := buffer.pos })

/-- The function `cbuffer_push_back`. -/
def cbuffer_push_back (buffer : CircularBuffer) (data : Nat) : Int × CircularBuffer :=
  let freespace := cbuffer_freespace buffer
  if freespace < 1 then (-1, buffer)
  else
    (0, { data := fun i => if i = buffer.tail then data else buffer.data i,
          tail := (buffer.tail + 1) % IO_BUFFER_SIZE,
          pos := buffer.pos })

/-- The function `cbuffer_push_back_net`. -/
def cbuffer_push_back_net (le : Bool) (buffer : CircularBuffer) (data : Nat) :
    Int × CircularBuffer :=
  cbuffer_push_back buffer (host_to_network le data)

/-- The function `cbuffer_read`: the count returned and the words written to
`output[0 .. count)`, first the span from `pos` to the end of storage, then the
wrapped remainder from the start of storage. -/
def cbuffer_read (buffer : CircularBuffer) (nwords : Nat) : Nat × List Nat :=
  let words_to_read := min nwords (cbuffer_size buffer)
  let tail_words_to_read := min words_to_read (cbuffer_contiguous_data_size buffer)
  let span1 := (List.range tail_words_to_read).map (fun i => buffer.data (buffer.pos + i))
  let remaining_words_at_head := words_to_read - tail_words_to_read
  let span2 :=
    if remaining_words_at_head ≠ 0 then
      (List.range remaining_words_at_head).map (fun i => buffer.data i)
    else []
  (words_to_read, span1 ++ span2)

/-- The function `cbuffer_deletefront`: the count returned and the ring afterwards. -/
def cbuffer_deletefront (buffer : CircularBuffer) (nwords : Nat) : Nat × CircularBuffer :=
  let words_to_delete := min nwords (cbuffer_size buffer)
  (words_to_delete,
    { data := buffer.data, tail := buffer.tail,
      pos := (buffer.pos + words_to_delete) % IO_BUFFER_SIZE })

/-- The function `cbuffer_pop`: the linear buffer returned and the ring afterwards. -/
def cbuffer_pop (buffer : CircularBuffer) (nwords : Nat) : List Nat × CircularBuffer :=
  let r := cbuffer_read buffer nwords
  (r.2.take r.1, (cbuffer_deletefront buffer nwords).2)

/-- The function `cbuffer_pop_front`. -/
def cbuffer_pop_front (buffer : CircularBuffer) : Nat × CircularBuffer :=
  if cbuffer_size buffer = 0 then (0xDEADBEEF, buffer)
  else (cbuffer_value_at buffer 0, (cbuffer_deletefront buffer 1).2)

/-- The function `cbuffer_transfer_data` on two distinct non-null rings: the
count returned, the source afterwards and the destination afterwards. -/
def cbuffer_transfer_data (source destination : CircularBuffer) :
    Nat × CircularBuffer × CircularBuffer :=
  let source_data_size := cbuffer_size source
  let dest_free_space := cbuffer_freespace destination
  let words2transfer := min source_data_size dest_free_space
  let p := cbuffer_pop source words2transfer
  (words2transfer, p.2, (cbuffer_append destination p.1 words2transfer).2)

/-! ## protocol.h -/

def IPBUS_INFO_SUCCESS : Nat := 0x0
def IPBUS_INFO_REQUEST : Nat := 0xf

def IPBUS_READ : Nat := 0x0
def IPBUS_NIREAD : Nat := 0x2
def IPBUS_WRITE : Nat := 0x1
def IPBUS_NIWRITE : Nat := 0x3
def IPBUS_RMW : Nat := 0x4
def IPBUS_RMWSUM : Nat := 0x5

def IPBUS_ISTREAM_EMPTY : Nat := 0x0
def IPBUS_ISTREAM_PACKET : Nat := 0x1
def IPBUS_ISTREAM_PACKET_SWP_ORD : Nat := 0x2
def IPBUS_ISTREAM_PARTIAL_TRANS : Nat := 0x3
def IPBUS_ISTREAM_FULL_TRANS : Nat := 0x4
def IPBUS_ISTREAM_ERR : Nat := 0xF

/-- The struct `ipbus_payload_t`: `size` is an `unsigned char`; `words` is the
block the pointer refers to, `none` for `NULL`. -/
structure ipbus_payload_t where
  size : Nat
  words : Option (List Nat)

/-- The struct `ipbus_transaction_t`. -/
structure ipbus_transaction_t where
  id : Nat
  words : Nat
  type : Nat
  info : Nat
  data : ipbus_payload_t

/-- The C expression `p.words[i]`. A read outside the allocated block is
undefined in C; the embedding returns 0 there. -/
def ipbus_payload_t.at (p : ipbus_payload_t) (i : Nat) : Nat :=
  (p.words.getD []).getD i 0

/-! ## serialization.c -/

/-- The function `ipbus_transaction_payload_size`. -/
def ipbus_transaction_payload_size (words type info_code : Nat) : Nat :=
  if info_code ≠ IPBUS_INFO_REQUEST ∧ info_code ≠ IPBUS_INFO_SUCCESS then 0
  else
    let is_response : Bool := (info_code == IPBUS_INFO_SUCCESS)
    if type = IPBUS_READ ∨ type = IPBUS_NIREAD then
      (if is_response then words else 1)
    else if type = IPBUS_WRITE ∨ type = IPBUS_NIWRITE then
      (if is_response then 0 else words + 1)
    else if type = IPBUS_RMW then
      (if is_response then 1 else 3)
    else if type = IPBUS_RMWSUM then
      (if is_response then 1 else 2)
    else 0

/-- The function `ipbus_detect_packet_header`. -/
def ipbus_detect_packet_header (headerword : Nat) : Nat :=
  let msnibble := headerword &&& 0xf0000000
  let lsnibble := headerword &&& 0xf0
  if lsnibble = 0x20 ∧ msnibble = 0xf0000000 then 2
  else if lsnibble ≠ 0xf0 ∨ msnibble ≠ 0x20000000 then 0
  else 1

/-- The function `ipbus_decode_transaction_header`. The payload size is stored
into the `unsigned char` field `data.size`, hence the `% 256`. -/
def ipbus_decode_transaction_header (le : Bool) (buf : CircularBuffer) (swapbytes : Int) :
    ipbus_transaction_t :=
  let headerword := cbuffer_value_at_net le buf 0
  let headerword := if swapbytes ≠ 0 then bswap32 headerword else headerword
  let info := headerword &&& 0x0f
  let type := (headerword &&& 0xf0) >>> 4
  let words := (headerword &&& 0xff00) >>> 8
  let id := (headerword &&& 0x0fff0000) >>> 16
  { id := id, words := words, type := type, info := info,
    data := { size := ipbus_transaction_payload_size words type info % 256,
              words := none } }

/-- The function `ipbus_stream_state`, called with a non-null `swapbytes`
pointer: the flag returned and the value `*swapbytes` holds afterwards. -/
def ipbus_stream_state (le : Bool) (input_buffer : CircularBuffer) (swapbytes : Int) :
    Nat × Int :=
  if cbuffer_size input_buffer = 0 then (IPBUS_ISTREAM_EMPTY, swapbytes)
  else
    let firstword := cbuffer_value_at_net le input_buffer 0
    let is_pkt := ipbus_detect_packet_header firstword
    if is_pkt ≠ 0 then
      let s1 := if is_pkt = IPBUS_ISTREAM_PACKET then 0 else swapbytes
      let s2 := if is_pkt = IPBUS_ISTREAM_PACKET_SWP_ORD then 1 else s1
      (is_pkt, s2)
    else
      let transaction := ipbus_decode_transaction_header le input_buffer swapbytes
      if cbuffer_size input_buffer ≥ transaction.data.size + 1 then
        (IPBUS_ISTREAM_FULL_TRANS, swapbytes)
      else (IPBUS_ISTREAM_PARTIAL_TRANS, swapbytes)

/-- The function `ipbus_decode_transaction`. -/
def ipbus_decode_transaction (le : Bool) (buf : CircularBuffer) (swapbytes : Int) :
    ipbus_transaction_t :=
  let output := ipbus_decode_transaction_header le buf swapbytes
  let words := (List.range output.data.size).map (fun i =>
    let dataword := network_to_host le (cbuffer_value_at buf (1 + i))
    if swapbytes ≠ 0 then bswap32 dataword else dataword)
  { output with data := { size := output.data.size, words := some words } }

/-- The function `ipbus_transaction_endocded_size`. -/
def ipbus_transaction_endocded_size (trans : ipbus_transaction_t) : Nat :=
  1 + ipbus_transaction_payload_size trans.words trans.type trans.info

/-- The function `ipbus_transaction_header`, on `uint32_t` arguments. -/
def ipbus_transaction_header (protocol transaction_id words type_id info_code : Nat) : Nat :=
  (((protocol <<< 28) % 4294967296) |||
    ((transaction_id &&& 0xfff) <<< 16) |||
    ((words &&& 0xff) <<< 8) |||
    ((type_id &&& 0xf) <<< 4) |||
    (info_code &&& 0x0f))

/-- The function `ipbus_encode_transaction`: the ring afterwards. The return
values of `cbuffer_push_back_net` are dropped, as in the source. -/
def ipbus_encode_transaction (le : Bool) (into : CircularBuffer)
    (transaction : ipbus_transaction_t) (swapbytes : Int) : CircularBuffer :=
  let headerword := ipbus_transaction_header 2 transaction.id transaction.words
    transaction.type transaction.info
  let headerword := if swapbytes ≠ 0 then bswap32 headerword else headerword
  let into := (cbuffer_push_back_net le into headerword).2
  (List.range transaction.data.size).foldl (fun b i =>
    let datum := transaction.data.at i
    let datum := if swapbytes ≠ 0 then bswap32 datum else datum
    (cbuffer_push_back_net le b datum).2) into

/-- The function `ipbus_packet_header`. -/
def ipbus_packet_header (packet_id type : Nat) : Nat :=
  0x200000f0 ||| ((0xffff &&& packet_id) <<< 8) ||| (0xf &&& type)

/-! ## handlers.h, transactionhandler.c -/

/-- The six `handle_IPBUS_*` functions of `handlers.h`, with the state `σ` they
own made explicit. -/
structure Handlers (σ : Type) where
  READ : Nat → Nat → σ → ipbus_payload_t × σ
  NIREAD : Nat → Nat → σ → ipbus_payload_t × σ
  WRITE : Nat → ipbus_payload_t → σ → Int × σ
  NIWRITE : Nat → ipbus_payload_t → σ → Int × σ
  RMW : Nat → Nat → Nat → σ → Nat × σ
  RMWSUM : Nat → Nat → σ → Nat × σ

/-- The function `ipbus_process_transaction`. -/
def ipbus_process_transaction {σ : Type} (H : Handlers σ) (input : ipbus_transaction_t)
    (s : σ) : ipbus_transaction_t × σ :=
  let output : ipbus_transaction_t :=
    { id := input.id, type := input.type, info := IPBUS_INFO_SUCCESS, words := input.words,
      data := { size := 0, words := none } }
  if output.type = IPBUS_READ then
    let r := H.READ input.words (input.data.at 0) s
    ({ output with data := r.1 }, r.2)
  else if output.type = IPBUS_NIREAD then
    let r := H.NIREAD input.words (input.data.at 0) s
    ({ output with data := r.1 }, r.2)
  else if output.type = IPBUS_WRITE then
    (output, (H.WRITE input.words input.data s).2)
  else if output.type = IPBUS_NIWRITE then
    (output, (H.NIWRITE input.words input.data s).2)
  else if output.type = IPBUS_RMW then
    let r := H.RMW (input.data.at 0) (input.data.at 1) (input.data.at 2) s
    ({ output with data := { size := 1, words := some [r.1] } }, r.2)
  else if output.type = IPBUS_RMWSUM then
    let r := H.RMWSUM (input.data.at 0) (input.data.at 1) s
    ({ output with data := { size := 1, words := some [r.1] } }, r.2)
  else (output, s)

/-- The function `handle_transaction_stream`: the value returned, the input ring
afterwards, the output ring afterwards and the handler state afterwards. -/
def handle_transaction_stream {σ : Type} (H : Handlers σ) (le : Bool)
    (input : CircularBuffer) (swapbytes : Int) (output : CircularBuffer) (s : σ) :
    Nat × CircularBuffer × CircularBuffer × σ :=
  let trans_req := ipbus_decode_transaction le input swapbytes
  let wordsprocessed := ipbus_transaction_endocded_size trans_req
  let input := (cbuffer_deletefront input wordsprocessed).2
  let r := ipbus_process_transaction H trans_req s
  let output := ipbus_encode_transaction le output r.1 swapbytes
  (wordsprocessed, input, output, r.2)

/-! ## client.h, packethandler.c -/

/-- The struct `Client`, restricted to the fields the packet processor touches. -/
structure Client where
  inputstream : CircularBuffer
  outputstream : CircularBuffer
  swapbytes : Int

/-- The body of `ipbus_process_input_stream` up to its `return`: whether the
activation goes on to the recursive call (`false` for the `return 0` of the
`EMPTY`/`PARTIAL_TRANS` case), the value of `data_processed`, and the client and
handler state at that point. A stream state outside the five `case` labels
falls through the `switch` to the recursive call. -/
def process_step {σ : Type} (H : Handlers σ) (le : Bool) (client : Client) (s : σ) :
    Bool × Nat × Client × σ :=
  let st := ipbus_stream_state le client.inputstream client.swapbytes
  let stream_state := st.1
  let client := { client with swapbytes := st.2 }
  if stream_state = IPBUS_ISTREAM_FULL_TRANS then
    let r := handle_transaction_stream H le client.inputstream client.swapbytes
      client.outputstream s
    (true, r.1, { client with inputstream := r.2.1, outputstream := r.2.2.1 }, r.2.2.2)
  else if stream_state = IPBUS_ISTREAM_PACKET ∨ stream_state = IPBUS_ISTREAM_PACKET_SWP_ORD then
    let headerword := cbuffer_value_at_net le client.inputstream 0
    let input := (cbuffer_deletefront client.inputstream 1).2
    let output := (cbuffer_push_back_net le client.outputstream headerword).2
    (true, 1, { client with inputstream := input, outputstream := output }, s)
  else if stream_state = IPBUS_ISTREAM_EMPTY ∨ stream_state = IPBUS_ISTREAM_PARTIAL_TRANS then
    (false, 0, client, s)
  else (true, 0, client, s)

/-- The recursion of `ipbus_process_input_stream`, cut off after `fuel`
activations: `none` when the cut-off is reached before the function returns. -/
def ipbus_process_input_stream_fuel {σ : Type} (H : Handlers σ) (le : Bool) :
    Nat → Client → σ → Option (Nat × Client × σ)
  | 0, _, _ => none
  | fuel + 1, client, s =>
    let r := process_step H le client s
    if r.1 = false then some (0, r.2.2.1, r.2.2.2)
    else
      match ipbus_process_input_stream_fuel H le fuel r.2.2.1 r.2.2.2 with
      | none => none
      | some (rest, client2, s2) => some (r.2.1 + rest, client2, s2)

/-- The function `ipbus_process_input_stream`: the value returned, the client
afterwards and the handler state afterwards. An activation that recurses has
removed a word from the input ring, so `cbuffer_size + 1` activations are
allowed for. -/
def ipbus_process_input_stream {σ : Type} (H : Handlers σ) (le : Bool) (client : Client)
    (s : σ) : Option (Nat × Client × σ) :=
  ipbus_process_input_stream_fuel H le (cbuffer_size client.inputstream + 1) client s

/-! ## dummyhandlers.c -/

/-- The function `handle_IPBUS_READ` of `dummyhandlers.c`. -/
def dummy_handle_IPBUS_READ (nwords _base_address : Nat) : ipbus_payload_t :=
  { size := nwords, words := some ((List.range nwords).map (fun i => i + 1)) }

/-- The function `handle_IPBUS_NIREAD` of `dummyhandlers.c`. -/
def dummy_handle_IPBUS_NIREAD (nwords _base_address : Nat) : ipbus_payload_t :=
  { size := nwords, words := some ((List.range nwords).map (fun i => i + 1)) }

/-- The function `handle_IPBUS_WRITE` of `dummyhandlers.c`. -/
def dummy_handle_IPBUS_WRITE (_writesize : Nat) (_data : ipbus_payload_t) : Int := 0

/-- The function `handle_IPBUS_NIWRITE` of `dummyhandlers.c`. -/
def dummy_handle_IPBUS_NIWRITE (_writesize : Nat) (_data : ipbus_payload_t) : Int := 0

/-- The function `handle_IPBUS_RMW` of `dummyhandlers.c`. -/
def dummy_handle_IPBUS_RMW (base_address andterm orterm : Nat) : Nat :=
  (base_address &&& andterm) ||| orterm

/-- The function `handle_IPBUS_RMWSUM` of `dummyhandlers.c`. -/
def dummy_handle_IPBUS_RMWSUM (base_address addend : Nat) : Nat :=
  (base_address + addend) % 4294967296

/-- The handlers of `dummyhandlers.c`; they own no state. -/
def dummyHandlers : Handlers Unit where
  READ := fun n b s => (dummy_handle_IPBUS_READ n b, s)
  NIREAD := fun n b s => (dummy_handle_IPBUS_NIREAD n b, s)
  WRITE := fun n d s => (dummy_handle_IPBUS_WRITE n d, s)
  NIWRITE := fun n d s => (dummy_handle_IPBUS_NIWRITE n d, s)
  RMW := fun a b c s => (dummy_handle_IPBUS_RMW a b c, s)
  RMWSUM := fun a b s => (dummy_handle_IPBUS_RMWSUM a b, s)

/-! ## membase.h, handlers.c -/

/-- The memory `membase` points to (`unsigned char* membase`): the byte held at
each offset from `membase`. -/
abbrev Memory := Nat → Fin 256

/-- Byte `k` of a 32-bit word, byte 0 being the least significant. -/
def word_byte (v k : Nat) : Fin 256 :=
  ⟨v / 256 ^ k % 256, Nat.mod_lt _ (by decide)⟩

/-- The significance of the byte a host keeps at offset `k` of a `uint32_t`
object: `k` on a little-endian host, `3 - k` on a big-endian one. -/
def byte_index (le : Bool) (k : Nat) : Nat :=
  if le then k else 3 - k

/-- The C expression `*(uint32_t*)(membase + addr)`, read: the four bytes from
offset `addr` on, assembled in the byte order of the host. -/
def mem_load32 (le : Bool) (mem : Memory) (addr : Nat) : Nat :=
  (mem addr).val * 256 ^ byte_index le 0 + (mem (addr + 1)).val * 256 ^ byte_index le 1
    + (mem (addr + 2)).val * 256 ^ byte_index le 2
    + (mem (addr + 3)).val * 256 ^ byte_index le 3

/-- The assignment `*(uint32_t*)(membase + addr) = v`: the four bytes from
offset `addr` on receive the bytes of `v` in the byte order of the host. -/
def mem_store32 (le : Bool) (mem : Memory) (addr v : Nat) : Memory :=
  fun a => if addr ≤ a ∧ a < addr + 4 then word_byte v (byte_index le (a - addr)) else mem a

/-- The function `handle_IPBUS_READ` of `handlers.c`: `memcpy` of `nwords` words
from `membase + base_address` into a fresh block. `nwords` is a `uint8_t`. -/
def handle_IPBUS_READ (le : Bool) (nwords base_address : Nat) (mem : Memory) :
    ipbus_payload_t :=
  { size := nwords,
    words := some ((List.range nwords).map (fun i => mem_load32 le mem (base_address + 4 * i))) }

/-- The function `handle_IPBUS_NIREAD` of `handlers.c`: the word at
`membase + base_address`, read `nwords` times. -/
def handle_IPBUS_NIREAD (le : Bool) (nwords base_address : Nat) (mem : Memory) :
    ipbus_payload_t :=
  { size := nwords,
    words := some ((List.range nwords).map (fun _ => mem_load32 le mem base_address)) }

/-- The function `handle_IPBUS_WRITE` of `handlers.c`: the C return value and
the memory afterwards. `memcpy(membase + data->words[0], data->words + 1,
writesize * sizeof(uint32_t))` gives byte `j` of the block the byte at offset
`j % 4` of the word `data->words[1 + j / 4]`. -/
def handle_IPBUS_WRITE (le : Bool) (writesize : Nat) (data : ipbus_payload_t) (mem : Memory) :
    Int × Memory :=
  (0, fun a =>
    if data.at 0 ≤ a ∧ a < data.at 0 + writesize * 4 then
      word_byte (data.at (1 + (a - data.at 0) / 4)) (byte_index le ((a - data.at 0) % 4))
    else mem a)

/-- The function `handle_IPBUS_NIWRITE` of `handlers.c`: the words
`data->words[1 .. data->size)` stored one after the other at
`membase + data->words[0]`. -/
def handle_IPBUS_NIWRITE (le : Bool) (_writesize : Nat) (data : ipbus_payload_t)
    (mem : Memory) : Int × Memory :=
  (0, (List.range (data.size - 1)).foldl
    (fun m i => mem_store32 le m (data.at 0) (data.at (1 + i))) mem)

/-- The function `handle_IPBUS_RMW` of `handlers.c`: the value returned and the
memory afterwards. -/
def handle_IPBUS_RMW (le : Bool) (base_address andterm orterm : Nat) (mem : Memory) :
    Nat × Memory :=
  let current := mem_load32 le mem base_address
  (current, mem_store32 le mem base_address ((current &&& andterm) ||| orterm))

/-- The function `handle_IPBUS_RMWSUM` of `handlers.c`: the value returned and
the memory afterwards. The sum is a `uint32_t` and wraps. -/
def handle_IPBUS_RMWSUM (le : Bool) (base_address addend : Nat) (mem : Memory) :
    Nat × Memory :=
  let current := mem_load32 le mem base_address
  (current, mem_store32 le mem base_address ((current + addend) % 4294967296))

/-- The handlers of `handlers.c`; the state they own is the memory behind
`membase`. -/
def memHandlers (le : Bool) : Handlers Memory where
  READ := fun n b m => (handle_IPBUS_READ le n b m, m)
  NIREAD := fun n b m => (handle_IPBUS_NIREAD le n b m, m)
  WRITE := fun n d m => handle_IPBUS_WRITE le n d m
  NIWRITE := fun n d m => handle_IPBUS_NIWRITE le n d m
  RMW := fun a b c m => handle_IPBUS_RMW le a b c m
  RMWSUM := fun a b m => handle_IPBUS_RMWSUM le a b m

/-! ## C integer conversions -/

/-- Conversion to `int` (32 bits, two's complement): the cast `(int)n` and a
store into an `int` object keep the value modulo `2^32`. -/
def to_int (x : Int) : Int :=
  (x + 2147483648) % 4294967296 - 2147483648

/-- The number of values of `size_t` (`SIZE_MAX + 1`): `2^64` on an LP64 host
(`lp64 = true`), `2^32` on an ILP32 one. `ssize_t` has the same width. -/
def size_t_mod (lp64 : Bool) : Int :=
  if lp64 then 18446744073709551616 else 4294967296

/-- Conversion to `size_t`. -/
def to_size_t (lp64 : Bool) (x : Int) : Int :=
  x % size_t_mod lp64

/-- Conversion to `ssize_t`. -/
def to_ssize_t (lp64 : Bool) (x : Int) : Int :=
  (x + size_t_mod lp64 / 2) % size_t_mod lp64 - size_t_mod lp64 / 2

/-- The C expression `r / sizeof(uint32_t)` for `r` of type `ssize_t`, stored
into an `ssize_t`: `sizeof` has type `size_t`, so `r` is converted to `size_t`
and the division is unsigned. -/
def ssize_div_sizeof (lp64 : Bool) (r : Int) : Int :=
  to_ssize_t lp64 (to_size_t lp64 r / 4)

/-! ## bytebuffer.h, bytebuffer.c -/

/-- The struct `ByteBuffer`: `bufsize` is an `int`; `buf` is the block the
pointer refers to, `none` for `NULL`. -/
structure ByteBuffer where
  bufsize : Int
  buf : Option (List (Fin 256))

/-- The bytes of the block `buf` points to; none for `NULL`. -/
def ByteBuffer.bytes (b : ByteBuffer) : List (Fin 256) :=
  b.buf.getD []

/-- The block `realloc(p, size)` returns: the first `min(old size, size)` bytes
are kept; bytes past the old size are indeterminate in C and 0 here. -/
def realloc_bytes (p : Option (List (Fin 256))) (size : Nat) : Option (List (Fin 256)) :=
  some ((p.getD [] ++ List.replicate size 0).take size)

/-- The effect of `memcpy(p + at, src, n)` on the block `p`. -/
def memcpy_bytes (p : List (Fin 256)) (at_ : Nat) (src : List (Fin 256)) (n : Nat) :
    List (Fin 256) :=
  (List.range p.length).map (fun i =>
    if at_ ≤ i ∧ i < at_ + n then src.getD (i - at_) 0 else p.getD i 0)

/-- The function `bytebuffer_ctor`; `data` is `none` for `NULL`. -/
def bytebuffer_ctor (data : Option (List (Fin 256))) (n : Nat) : ByteBuffer :=
  { bufsize := to_int n,
    buf :=
      if n ≠ 0 then
        match data with
        | some d => some (memcpy_bytes (List.replicate n 0) 0 d n)
        | none => some (List.replicate n 0)
      else none }

/-- The function `bytebuffer_free`. -/
def bytebuffer_free (_buffer : ByteBuffer) : ByteBuffer :=
  { bufsize := 0, buf := none }

/-- The function `bytebuffer_reserve_back`. -/
def bytebuffer_reserve_back (buffer : ByteBuffer) (n : Nat) : ByteBuffer :=
  { buf := realloc_bytes buffer.buf (buffer.bufsize + n).toNat,
    bufsize := to_int (buffer.bufsize + n) }

/-- The function `bytebuffer_append`; `data` is `none` for `NULL`. -/
def bytebuffer_append (buffer : ByteBuffer) (data : Option (List (Fin 256))) (n : Nat) :
    ByteBuffer :=
  let original_size := buffer.bufsize.toNat
  let buffer := bytebuffer_reserve_back buffer n
  match data with
  | some d => { buffer with buf := some (memcpy_bytes buffer.bytes original_size d n) }
  | none =>
    { buffer with buf := some (memcpy_bytes buffer.bytes original_size (List.replicate n 0) n) }

/-- The function `bytebuffer_del_back`. -/
def bytebuffer_del_back (buffer : ByteBuffer) (n : Nat) : ByteBuffer :=
  if to_int n ≥ buffer.bufsize then bytebuffer_free buffer
  else
    { bufsize := to_int (buffer.bufsize - n),
      buf := realloc_bytes buffer.buf (to_int (buffer.bufsize - n)).toNat }

/-- The function `bytebuffer_del_front`, for `n` that passes the test
`(int)n >= bufsize` or is at most `bufsize`. The `memmove` brings the
`bufsize - n` bytes from offset `n` on to the front of the block. (For a larger
`n` that fails the test, the count `bufsize - n` wraps as a `size_t` and the
`memmove` is undefined in C; no call embedded here passes such an `n`.) -/
def bytebuffer_del_front (buffer : ByteBuffer) (n : Nat) : ByteBuffer :=
  if to_int n ≥ buffer.bufsize then bytebuffer_free buffer
  else
    let moved := memcpy_bytes buffer.bytes 0 (buffer.bytes.drop n) (buffer.bufsize - n).toNat
    bytebuffer_del_back { buffer with buf := some moved } n

/-- The function `bytebuffer_pop`: the buffer returned and `*buffer` afterwards.
The result is `none` when the `memcpy` of the second branch is asked for more
bytes than the block of `buffer` holds: that call is undefined in C and the
function does not return. -/
def bytebuffer_pop (buffer : ByteBuffer) (n : Nat) : Option (ByteBuffer × ByteBuffer) :=
  if to_int n ≥ buffer.bufsize then
    some ({ bufsize := buffer.bufsize, buf := some (buffer.bytes.take buffer.bufsize.toNat) },
      bytebuffer_free buffer)
  else if buffer.bytes.length < n then none
  else
    some ({ buf := some (buffer.bytes.take n), bufsize := to_int n },
      bytebuffer_del_front buffer n)

/-- What a call `read(fd, p, count)` did: the value it returned and the bytes it
stored from `p` on. -/
structure ReadOutcome where
  ret : Int
  data : List (Fin 256)

/-- The function `bytebuffer_read_fd`, for a given outcome of its `read`: the
value returned and `*buffer` afterwards. -/
def bytebuffer_read_fd (buffer : ByteBuffer) (r : ReadOutcome) (n : Nat) : Int × ByteBuffer :=
  let original_size := buffer.bufsize.toNat
  let buffer := bytebuffer_reserve_back buffer n
  let bytes_read := r.ret
  let buffer := { buffer with
    buf := some (memcpy_bytes buffer.bytes original_size r.data r.data.length) }
  let deallocate := if bytes_read > 0 then n - bytes_read.toNat else n
  (bytes_read, bytebuffer_del_back buffer deallocate)

/-! ## circular_buffer.c: file descriptor I/O -/

/-- The words of the storage after `count` bytes `bytes` have been stored from
the address of slot `at_` on (as `read(fd, &data[at_], count)` does): a slot
reached by the bytes is reassembled, in the byte order of the host, from the new
bytes and those of its own bytes that were not reached. -/
def storage_write_bytes (le : Bool) (data : Nat → Nat) (at_ : Nat) (bytes : List (Fin 256))
    (i : Nat) : Nat :=
  if at_ ≤ i ∧ 4 * (i - at_) < bytes.length then
    mem_load32 le (fun a =>
      if 4 * at_ ≤ a ∧ a < 4 * at_ + bytes.length then bytes.getD (a - 4 * at_) 0
      else word_byte (data (a / 4)) (byte_index le (a % 4))) (4 * i)
  else data i

/-- The function `cbuffer_read_fd`, for the outcomes of its successive `read`
calls (`none` when the function asks for more reads than outcomes are given):
the value returned and the ring afterwards. `nwords` is a `size_t` value. A
`read` stores at most the `words_to_read * sizeof(uint32_t)` bytes asked for. -/
def cbuffer_read_fd (lp64 le : Bool) :
    List ReadOutcome → CircularBuffer → Int → Option (Int × CircularBuffer)
  | [], buffer, nwords => if nwords = 0 then some (0, buffer) else none
  | r :: rest, buffer, nwords =>
    if nwords = 0 then some (0, buffer)
    else
      let freespace : Int := cbuffer_freespace buffer
      let words_to_read := min nwords freespace
      let words_to_read :=
        min (((IO_BUFFER_SIZE : Int) - buffer.tail) % 4294967296) words_to_read
      let stored := r.data.take (words_to_read * 4).toNat
      let words_read := ssize_div_sizeof lp64 r.ret
      let buffer : CircularBuffer :=
        { data := storage_write_bytes le buffer.data buffer.tail stored,
          tail := ((buffer.tail + words_read) % IO_BUFFER_SIZE).toNat,
          pos := buffer.pos }
      if words_read = 0 then some (0, buffer)
      else
        match cbuffer_read_fd lp64 le rest buffer (to_size_t lp64 (nwords - words_read)) with
        | none => none
        | some (n, b) => some (to_ssize_t lp64 (words_read + n), b)

/-- The function `cbuffer_write_fd`, for the outcomes of its successive `write`
calls, each the value `write` returns for the byte count it is asked for
(`none` when the function asks for more writes than outcomes are given): the
value returned and the ring afterwards. `nwords` is a `size_t` value;
`cbuffer_deletefront` takes a `uint32_t`. -/
def cbuffer_write_fd (lp64 : Bool) :
    List (Int → Int) → CircularBuffer → Int → Option (Int × CircularBuffer)
  | [], buffer, nwords => if nwords = 0 then some (0, buffer) else none
  | w :: rest, buffer, nwords =>
    if nwords = 0 then some (0, buffer)
    else
      let words_to_write : Int := min nwords (cbuffer_size buffer)
      let tail_words_to_read : Int := min words_to_write (cbuffer_contiguous_data_size buffer)
      let written := ssize_div_sizeof lp64 (w (tail_words_to_read * 4))
      let buffer := (cbuffer_deletefront buffer (written % 4294967296).toNat).2
      if written = 0 then some (0, buffer)
      else
        match cbuffer_write_fd lp64 rest buffer (to_size_t lp64 (nwords - written)) with
        | none => none
        | some (n, b) => some (to_ssize_t lp64 (written + n), b)

/-! ## serve-tcp.c, serve-serial.c -/

/-- The words `cbuffer_append(clibuf, byte2word->buf, nwords)` reads through its
`void* data` argument: word `i` is made of the bytes `4i .. 4i + 3` of the
block, in the byte order of the host. -/
def bytes_as_words (le : Bool) (bytes : List (Fin 256)) (nwords : Nat) : List Nat :=
  (List.range nwords).map (fun i => mem_load32 le (fun a => bytes.getD a 0) (4 * i))

/-- The lines of `main` in `serve-tcp.c` and `serve-serial.c` that move the
whole words of the shim `byte2word` to the input ring: `nwords = bufsize /
sizeof(uint32_t)`, `cbuffer_append`, and `bytebuffer_del_front` when the append
returned 0. The result is `append_status`, the ring and the shim. -/
def main_promote_byte2word (le : Bool) (clibuf : CircularBuffer) (byte2word : ByteBuffer) :
    Int × CircularBuffer × ByteBuffer :=
  let nwords := (byte2word.bufsize / 4).toNat
  let r := cbuffer_append clibuf (bytes_as_words le byte2word.bytes nwords) nwords
  let append_status := r.1
  if append_status = 0 then
    (append_status, r.2, bytebuffer_del_front byte2word (nwords * 4))
  else (append_status, r.2, byte2word)

/-! ## Specification vocabulary -/

/-- Both cursors index the storage. -/
def cbuffer_wf (b : CircularBuffer) : Prop :=
  b.pos < IO_BUFFER_SIZE ∧ b.tail < IO_BUFFER_SIZE

instance cbuffer_wf_decidable (b : CircularBuffer) : Decidable (cbuffer_wf b) :=
  inferInstanceAs (Decidable (b.pos < IO_BUFFER_SIZE ∧ b.tail < IO_BUFFER_SIZE))

/-- The words a ring exposes, head first. -/
def cbuffer_contents (b : CircularBuffer) : List Nat :=
  (List.range (cbuffer_size b)).map (cbuffer_value_at b)

/-- A call of the word-ring interface: `cbuffer_append(buf, data, data.length)`,
`cbuffer_deletefront(buf, nwords)` or `cbuffer_read(buf, dest, nwords)`. -/
inductive RingOp where
  | append (data : List Nat)
  | deletefront (nwords : Nat)
  | read (nwords : Nat)

/-- The ring after one call. -/
def RingOp.apply (b : CircularBuffer) : RingOp → CircularBuffer
  | .append data => (cbuffer_append b data data.length).2
  | .deletefront nwords => (cbuffer_deletefront b nwords).2
  | .read _ => b

/-- The ring after a sequence of calls. -/
def run_ops (b : CircularBuffer) : List RingOp → CircularBuffer
  | [] => b
  | op :: rest => run_ops (op.apply b) rest

/-- Every `append` of the sequence is given at most `cbuffer_freespace` words. -/
def ops_respect_freespace (b : CircularBuffer) : List RingOp → Bool
  | [] => true
  | .append data :: rest =>
    decide (data.length ≤ cbuffer_freespace b) &&
      ops_respect_freespace ((RingOp.append data).apply b) rest
  | op :: rest => ops_respect_freespace (op.apply b) rest

/-- All appended words of the sequence, in order. -/
def ops_appended : List RingOp → List Nat
  | [] => []
  | .append data :: rest => data ++ ops_appended rest
  | _ :: rest => ops_appended rest

/-- The total of the counts the `cbuffer_deletefront` calls of the sequence return. -/
def ops_deleted (b : CircularBuffer) : List RingOp → Nat
  | [] => 0
  | .deletefront nwords :: rest =>
    (cbuffer_deletefront b nwords).1 + ops_deleted ((RingOp.deletefront nwords).apply b) rest
  | op :: rest => ops_deleted (op.apply b) rest

/-- The ring a test of the repository builds: `cbuffer_new()` followed by one
`cbuffer_push_back_net` per word. -/
def cbuffer_of_net (le : Bool) (ws : List Nat) : CircularBuffer :=
  ws.foldl (fun b w => (cbuffer_push_back_net le b w).2) cbuffer_new

/-- The logical word at index `i` of the input ring as the decoder sees it:
`cbuffer_value_at_net`, byte-swapped when `swapbytes` is set. -/
def request_word (le : Bool) (input : CircularBuffer) (swapbytes : Int) (i : Nat) : Nat :=
  if swapbytes ≠ 0 then bswap32 (cbuffer_value_at_net le input i)
  else cbuffer_value_at_net le input i

/-- The raw ring word that carries the logical word `w` to a client with the
given `swapbytes`: the optional `__bswap_32` of the encoder followed by the
`host_to_network` of `cbuffer_push_back_net`. -/
def wire_word (le : Bool) (swapbytes : Int) (w : Nat) : Nat :=
  host_to_network le (if swapbytes ≠ 0 then bswap32 w else w)

/-- The response payload by transaction type, in the words of the dispatcher
description: READ/NIREAD attach what the handler returns for
`(words, base = payload[0])`; WRITE/NIWRITE attach nothing; RMW attaches the
single word `handler(payload[0], payload[1], payload[2])`; RMWSUM the single word
`handler(payload[0], payload[1])`. `payload i` is the request payload word `i`. -/
def spec_response_payload {σ : Type} (H : Handlers σ) (type words : Nat)
    (payload : Nat → Nat) (s : σ) : List Nat :=
  if type = IPBUS_READ then ((H.READ words (payload 0) s).1.words).getD []
  else if type = IPBUS_NIREAD then ((H.NIREAD words (payload 0) s).1.words).getD []
  else if type = IPBUS_RMW then [(H.RMW (payload 0) (payload 1) (payload 2) s).1]
  else if type = IPBUS_RMWSUM then [(H.RMWSUM (payload 0) (payload 1) s).1]
  else []

/-- The read handlers return a block of exactly `nwords` words and say so in
`size`, for `nwords` an `uint8_t`. -/
def reads_return_nwords {σ : Type} (H : Handlers σ) : Prop :=
  ∀ (nwords base : Nat) (s : σ), nwords < 256 →
    ((H.READ nwords base s).1.size = nwords ∧
      ∃ l, (H.READ nwords base s).1.words = some l ∧ l.length = nwords) ∧
    ((H.NIREAD nwords base s).1.size = nwords ∧
      ∃ l, (H.NIREAD nwords base s).1.words = some l ∧ l.length = nwords)

/-- The fields `ipbus_decode_transaction_header` extracts from the header word
once the byte order is settled. -/
def decode_header_word (headerword : Nat) : ipbus_transaction_t :=
  let info := headerword &&& 0x0f
  let type := (headerword &&& 0xf0) >>> 4
  let words := (headerword &&& 0xff00) >>> 8
  let id := (headerword &&& 0x0fff0000) >>> 16
  { id := id, words := words, type := type, info := info,
    data := { size := ipbus_transaction_payload_size words type info % 256,
              words := none } }

/-- A request transaction as a client states it: the header fields and the
payload words, before encoding. -/
structure Request where
  id : Nat
  words : Nat
  type : Nat
  payload : List Nat

/-- The fields fit their header bits, the type is one of the six defined ones,
and the payload is the `payload_size(words, type, REQUEST)` 32-bit words the
type calls for. -/
def Request.wellformed (r : Request) : Prop :=
  r.id < 4096 ∧ r.words < 256 ∧
  (r.type = IPBUS_READ ∨ r.type = IPBUS_NIREAD ∨ r.type = IPBUS_WRITE ∨
    r.type = IPBUS_NIWRITE ∨ r.type = IPBUS_RMW ∨ r.type = IPBUS_RMWSUM) ∧
  r.payload.length = ipbus_transaction_payload_size r.words r.type IPBUS_INFO_REQUEST ∧
  ∀ w ∈ r.payload, w < 4294967296

instance Request.wellformed_decidable (r : Request) : Decidable r.wellformed :=
  inferInstanceAs (Decidable (r.id < 4096 ∧ r.words < 256 ∧
    (r.type = IPBUS_READ ∨ r.type = IPBUS_NIREAD ∨ r.type = IPBUS_WRITE ∨
      r.type = IPBUS_NIWRITE ∨ r.type = IPBUS_RMW ∨ r.type = IPBUS_RMWSUM) ∧
    r.payload.length = ipbus_transaction_payload_size r.words r.type IPBUS_INFO_REQUEST ∧
    ∀ w ∈ r.payload, w < 4294967296))

/-- The words of a request in transmission order: header, then payload. -/
def Request.encode (r : Request) : List Nat :=
  ipbus_transaction_header 2 r.id r.words r.type IPBUS_INFO_REQUEST :: r.payload

/-- The request as the `ipbus_transaction_t` the decoder builds for it. -/
def Request.toTransaction (r : Request) : ipbus_transaction_t :=
  { id := r.id, words := r.words, type := r.type, info := IPBUS_INFO_REQUEST,
    data := { size := r.payload.length, words := some r.payload } }

/-- The words of the response to a request, in transmission order: the header
with info `SUCCESS`, then the payload the handlers return in state `s`. -/
def response_words {σ : Type} (H : Handlers σ) (r : Request) (s : σ) : List Nat :=
  ipbus_transaction_header 2 r.id r.words r.type IPBUS_INFO_SUCCESS ::
    spec_response_payload H r.type r.words (fun i => r.payload.getD i 0) s

/-- The handler state after a request is served, in the words of the dispatcher
description: READ/NIREAD call the handler with `(words, base = payload[0])`;
WRITE/NIWRITE call the handler with `(words, &payload)`, `payload[0]` being the
base address and `payload[1..]` the data; RMW calls
`handler(payload[0], payload[1], payload[2])`; RMWSUM calls
`handler(payload[0], payload[1])`. The state is the one that single call
leaves. -/
def spec_handler_state {σ : Type} (H : Handlers σ) (type words : Nat) (payload : List Nat)
    (s : σ) : σ :=
  if type = IPBUS_READ then (H.READ words (payload.getD 0 0) s).2
  else if type = IPBUS_NIREAD then (H.NIREAD words (payload.getD 0 0) s).2
  else if type = IPBUS_WRITE then
    (H.WRITE words { size := payload.length, words := some payload } s).2
  else if type = IPBUS_NIWRITE then
    (H.NIWRITE words { size := payload.length, words := some payload } s).2
  else if type = IPBUS_RMW then
    (H.RMW (payload.getD 0 0) (payload.getD 1 0) (payload.getD 2 0) s).2
  else if type = IPBUS_RMWSUM then (H.RMWSUM (payload.getD 0 0) (payload.getD 1 0) s).2
  else s

/-- The responses to a sequence of requests served in order, and the handler
state after the last one: each request is answered in the state the handler
call of the request before it left. -/
def responses {σ : Type} (H : Handlers σ) : List Request → σ → List Nat × σ
  | [], s => ([], s)
  | r :: rest, s =>
    let q := responses H rest (spec_handler_state H r.type r.words r.payload s)
    (response_words H r s ++ q.1, q.2)

/-- The byte order `ipbus_stream_state` settles on for a packet header whose
network-order view is `w`: 0 for a native-order header, 1 otherwise. -/
def packet_swapbytes (w : Nat) : Int :=
  if ipbus_detect_packet_header w = IPBUS_ISTREAM_PACKET then 0 else 1

/-- The words of a sequence of requests, back to back in arrival order. -/
def encode_requests : List Request → List Nat
  | [] => []
  | r :: rest => r.encode ++ encode_requests rest

/-- The rings a program can hold: the one `cbuffer_new()` returns, and the ring
left by a call of `cbuffer_append`, `cbuffer_push_back`, `cbuffer_push_back_net`,
`cbuffer_deletefront`, `cbuffer_pop`, `cbuffer_pop_front` or, as source or as
destination, `cbuffer_transfer_data` on rings it can hold. -/
inductive cbuffer_reachable : CircularBuffer → Prop
  | new : cbuffer_reachable cbuffer_new
  | append (b : CircularBuffer) (data : List Nat) (nwords : Nat) :
      cbuffer_reachable b → cbuffer_reachable (cbuffer_append b data nwords).2
  | push_back (b : CircularBuffer) (w : Nat) :
      cbuffer_reachable b → cbuffer_reachable (cbuffer_push_back b w).2
  | push_back_net (le : Bool) (b : CircularBuffer) (w : Nat) :
      cbuffer_reachable b → cbuffer_reachable (cbuffer_push_back_net le b w).2
  | deletefront (b : CircularBuffer) (nwords : Nat) :
      cbuffer_reachable b → cbuffer_reachable (cbuffer_deletefront b nwords).2
  | pop (b : CircularBuffer) (nwords : Nat) :
      cbuffer_reachable b → cbuffer_reachable (cbuffer_pop b nwords).2
  | pop_front (b : CircularBuffer) :
      cbuffer_reachable b → cbuffer_reachable (cbuffer_pop_front b).2
  | transfer_source (src dst : CircularBuffer) :
      cbuffer_reachable src → cbuffer_reachable dst →
      cbuffer_reachable (cbuffer_transfer_data src dst).2.1
  | transfer_destination (src dst : CircularBuffer) :
      cbuffer_reachable src → cbuffer_reachable dst →
      cbuffer_reachable (cbuffer_transfer_data src dst).2.2

/-- The values `k` successive calls of `cbuffer_pop_front` return, in call
order, and the ring after the last call. -/
def cbuffer_pop_front_n : Nat → CircularBuffer → List Nat × CircularBuffer
  | 0, b => ([], b)
  | k + 1, b =>
    let r := cbuffer_pop_front b
    let rest := cbuffer_pop_front_n k r.2
    (r.1 :: rest.1, rest.2)

/-- The invariant of a `ByteBuffer`: `bufsize` is a non-negative `int` and is
the number of bytes of the block. -/
def bytebuffer_wf (b : ByteBuffer) : Prop :=
  0 ≤ b.bufsize ∧ b.bufsize < 2147483648 ∧ (b.bytes.length : Int) = b.bufsize

instance bytebuffer_wf_decidable (b : ByteBuffer) : Decidable (bytebuffer_wf b) :=
  inferInstanceAs (Decidable
    (0 ≤ b.bufsize ∧ b.bufsize < 2147483648 ∧ (b.bytes.length : Int) = b.bufsize))

/-- An outcome `read(fd, p, count)` can have: at most `count` bytes are stored,
and the value returned is -1 (error) or the number of bytes stored (0 at end of
file, fewer than `count` on a short read). -/
def ReadOutcome.valid (r : ReadOutcome) (count : Nat) : Prop :=
  r.data.length ≤ count ∧ (r.ret = -1 ∨ r.ret = (r.data.length : Int))

instance ReadOutcome.valid_decidable (r : ReadOutcome) (count : Nat) :
    Decidable (r.valid count) :=
  inferInstanceAs (Decidable
    (r.data.length ≤ count ∧ (r.ret = -1 ∨ r.ret = (r.data.length : Int))))

/-- The bytes an outcome of `read` delivers: those stored when the call returned
a positive count, none on end of file or error. -/
def ReadOutcome.delivered (r : ReadOutcome) : List (Fin 256) :=
  if 0 < r.ret then r.data else []

/-- The payload indices `i` at which `ipbus_process_transaction` and the handler
of `handlers.c` it calls evaluate `input->data.words[i]`: `words[0]` for READ
and NIREAD; `words[0]` and the `writesize = input->words` words from `words + 1`
on for WRITE; `words[0]` and `words[i]` for `1 <= i < data.size` for NIWRITE;
`words[0 .. 2]` for RMW; `words[0 .. 1]` for RMWSUM. -/
def ipbus_process_transaction_reads (input : ipbus_transaction_t) : List Nat :=
  if input.type = IPBUS_READ ∨ input.type = IPBUS_NIREAD then [0]
  else if input.type = IPBUS_WRITE then List.range (1 + input.words)
  else if input.type = IPBUS_NIWRITE then
    (if 1 < input.data.size then List.range input.data.size else [])
  else if input.type = IPBUS_RMW then [0, 1, 2]
  else if input.type = IPBUS_RMWSUM then [0, 1]
  else []


/-! # Theorems -/

/-! ## Byte order -/

theorem bswap32_lt (x : Nat) : bswap32 x < 4294967296 := by
  unfold bswap32; omega

theorem bswap32_bytes (a b c d : Nat) (ha : a < 256) (hb : b < 256) (hc : c < 256)
    (hd : d < 256) :
    bswap32 (a + 256 * b + 65536 * c + 16777216 * d)
      = d + 256 * c + 65536 * b + 16777216 * a := by
  unfold bswap32; omega

theorem exists_bytes (x : Nat) (h : x < 4294967296) :
    ∃ a b c d, a < 256 ∧ b < 256 ∧ c < 256 ∧ d < 256 ∧
      x = a + 256 * b + 65536 * c + 16777216 * d :=
  ⟨x % 256, x / 256 % 256, x / 65536 % 256, x / 16777216 % 256,
    by omega, by omega, by omega, by omega, by omega⟩

theorem bswap32_bswap32 (x : Nat) (h : x < 4294967296) : bswap32 (bswap32 x) = x := by
  obtain ⟨a, b, c, d, ha, hb, hc, hd, rfl⟩ := exists_bytes x h
  rw [bswap32_bytes a b c d ha hb hc hd, bswap32_bytes d c b a hd hc hb ha]


set_option linter.unnecessarySeqFocus false in
theorem cbuffer_read_eq (b : CircularBuffer) (n : Nat) (h : cbuffer_wf b) :
    cbuffer_read b n = (min n (cbuffer_size b), (cbuffer_contents b).take n) := by
  obtain ⟨hp, ht⟩ := h
  simp only [IO_BUFFER_SIZE] at hp ht
  simp only [cbuffer_read, Prod.mk.injEq, true_and]
  by_cases hc : b.pos ≤ b.tail
  · simp only [cbuffer_contents, cbuffer_size, cbuffer_contiguous_data_size, if_pos hc]
    have h0 : min n (b.tail - b.pos) - min (min n (b.tail - b.pos)) (b.tail - b.pos) = 0 := by
      omega
    simp only [h0, ne_eq, not_true_eq_false, if_false, List.append_nil]
    apply List.ext_getElem
    · simp
    · intro i h1 h2
      simp only [List.length_map, List.length_range] at h1
      simp only [List.getElem_map, List.getElem_range, List.getElem_take, cbuffer_value_at,
        IO_BUFFER_SIZE]
      congr 1; omega
  · simp only [cbuffer_contents, cbuffer_size, cbuffer_contiguous_data_size, if_neg hc,
      IO_BUFFER_SIZE]
    apply List.ext_getElem
    · simp; split <;> simp <;> omega
    · intro i h1 h2
      simp only [List.length_take, List.length_map, List.length_range] at h2
      simp only [List.getElem_append, List.getElem_map, List.getElem_range, List.getElem_take,
        cbuffer_value_at, IO_BUFFER_SIZE, List.length_map, List.length_range]
      split
      · congr 1; omega
      · rename_i hlt
        have hne : min n (b.tail + 256 - b.pos)
            - min (min n (b.tail + 256 - b.pos)) (256 - b.pos) ≠ 0 := by omega
        simp only [hne, ne_eq, not_false_eq_true, if_true, List.getElem_map, List.getElem_range]
        congr 1; omega


theorem cbuffer_contents_length (b : CircularBuffer) :
    (cbuffer_contents b).length = cbuffer_size b := by
  simp [cbuffer_contents]

theorem cbuffer_size_lt (b : CircularBuffer) (h : cbuffer_wf b) :
    cbuffer_size b < IO_BUFFER_SIZE := by
  obtain ⟨hp, ht⟩ := h
  simp only [cbuffer_size, IO_BUFFER_SIZE] at *
  split <;> omega

theorem cbuffer_deletefront_wf (b : CircularBuffer) (n : Nat) :
    cbuffer_wf (cbuffer_deletefront b n).2 ↔ b.tail < IO_BUFFER_SIZE := by
  simp only [cbuffer_wf, cbuffer_deletefront, IO_BUFFER_SIZE]
  constructor
  · intro h; exact h.2
  · intro h; exact ⟨Nat.mod_lt _ (by decide), h⟩

theorem cbuffer_deletefront_size (b : CircularBuffer) (n : Nat) (h : cbuffer_wf b) :
    cbuffer_size (cbuffer_deletefront b n).2 = cbuffer_size b - min n (cbuffer_size b) := by
  obtain ⟨hp, ht⟩ := h
  simp only [cbuffer_size, cbuffer_deletefront, IO_BUFFER_SIZE] at *
  split <;> split <;> omega

theorem cbuffer_deletefront_contents (b : CircularBuffer) (n : Nat) (h : cbuffer_wf b) :
    cbuffer_contents (cbuffer_deletefront b n).2 = (cbuffer_contents b).drop n := by
  have hs := cbuffer_deletefront_size b n h
  have hlt := cbuffer_size_lt b h
  obtain ⟨hp, ht⟩ := h
  apply List.ext_getElem
  · simp only [cbuffer_contents_length, List.length_drop, hs]; omega
  · intro i h1 h2
    simp only [cbuffer_contents, List.getElem_map, List.getElem_range, List.getElem_drop,
      cbuffer_value_at]
    simp only [cbuffer_contents_length, hs] at h1
    simp only [cbuffer_deletefront, IO_BUFFER_SIZE] at *
    congr 1
    omega

theorem cbuffer_append_data (b : CircularBuffer) (data : List Nat) (n : Nat)
    (h : cbuffer_wf b) (hn : n ≤ cbuffer_freespace b) (j : Nat) (hj : j < IO_BUFFER_SIZE) :
    (cbuffer_append b data n).2.data j =
      if (j + IO_BUFFER_SIZE - b.tail) % IO_BUFFER_SIZE < n then
        data.getD ((j + IO_BUFFER_SIZE - b.tail) % IO_BUFFER_SIZE) 0
      else b.data j := by
  have hlt := cbuffer_size_lt b h
  obtain ⟨hp, ht⟩ := h
  have hn2 : ¬ cbuffer_freespace b < n := by omega
  simp only [cbuffer_append, if_neg hn2]
  simp only [cbuffer_freespace, IO_BUFFER_SIZE] at *
  by_cases h1 : 256 - b.tail < n
  · simp only [if_pos h1, memcpy_words, Nat.zero_le, true_and, Nat.zero_add, Nat.sub_zero]
    by_cases h2 : j < n - (256 - b.tail)
    · have h3 : (j + 256 - b.tail) % 256 < n := by omega
      simp only [if_pos h2, if_pos h3, List.getD_eq_getElem?_getD, List.getElem?_drop]
      congr 2; omega
    · simp only [if_neg h2]
      by_cases h4 : b.tail ≤ j ∧ j < b.tail + min n (256 - b.tail)
      · have h3 : (j + 256 - b.tail) % 256 < n := by omega
        simp only [if_pos h4, if_pos h3]
        congr 1; omega
      · have h3 : ¬ (j + 256 - b.tail) % 256 < n := by omega
        simp only [if_neg h4, if_neg h3]
  · simp only [if_neg h1, memcpy_words]
    by_cases h4 : b.tail ≤ j ∧ j < b.tail + min n (256 - b.tail)
    · have h3 : (j + 256 - b.tail) % 256 < n := by omega
      simp only [if_pos h4, if_pos h3]
      congr 1; omega
    · have h3 : ¬ (j + 256 - b.tail) % 256 < n := by omega
      simp only [if_neg h4, if_neg h3]

theorem cbuffer_append_ok (b : CircularBuffer) (data : List Nat) (n : Nat)
    (h : cbuffer_wf b) (hn : n ≤ cbuffer_freespace b) :
    (cbuffer_append b data n).1 = 0 ∧ cbuffer_wf (cbuffer_append b data n).2 ∧
      cbuffer_size (cbuffer_append b data n).2 = cbuffer_size b + n := by
  have hlt := cbuffer_size_lt b h
  obtain ⟨hp, ht⟩ := h
  have hn2 : ¬ cbuffer_freespace b < n := by omega
  simp only [cbuffer_append, if_neg hn2, cbuffer_wf, true_and]
  simp only [cbuffer_freespace, cbuffer_size, IO_BUFFER_SIZE] at *
  refine ⟨⟨hp, Nat.mod_lt _ (by decide)⟩, ?_⟩
  split at hn <;> split <;> omega

theorem cbuffer_append_contents (b : CircularBuffer) (data : List Nat) (n : Nat)
    (h : cbuffer_wf b) (hn : n ≤ cbuffer_freespace b) (hl : data.length = n) :
    cbuffer_contents (cbuffer_append b data n).2 = cbuffer_contents b ++ data := by
  obtain ⟨_, hwf, hs⟩ := cbuffer_append_ok b data n h hn
  have hlt := cbuffer_size_lt b h
  have hlt2 := cbuffer_size_lt _ hwf
  apply List.ext_getElem
  · simp only [cbuffer_contents_length, List.length_append, hs, hl]
  · intro i h1 h2
    simp only [cbuffer_contents_length, hs] at h1
    simp only [cbuffer_contents, List.getElem_map, List.getElem_range, cbuffer_value_at,
      List.getElem_append, List.length_map, List.length_range]
    have hpos : (cbuffer_append b data n).2.pos = b.pos := by
      have hn2 : ¬ cbuffer_freespace b < n := by omega
      simp only [cbuffer_append, if_neg hn2]
    rw [hpos, cbuffer_append_data b data n h hn _ (Nat.mod_lt _ (by decide))]
    obtain ⟨hp, ht⟩ := h
    simp only [cbuffer_freespace, IO_BUFFER_SIZE] at *
    have hsz : cbuffer_size b = (b.tail + 256 - b.pos) % 256 := by
      simp only [cbuffer_size, IO_BUFFER_SIZE]; split <;> omega
    by_cases h3 : i < cbuffer_size b
    · have h4 : ¬ ((b.pos + i) % 256 + 256 - b.tail) % 256 < n := by omega
      simp only [if_neg h4, dif_pos h3]
    · have h4 : ((b.pos + i) % 256 + 256 - b.tail) % 256 < n := by omega
      have h5 : ((b.pos + i) % 256 + 256 - b.tail) % 256 = i - cbuffer_size b := by omega
      rw [h5] at h4
      simp only [h5, if_pos h4, dif_neg h3, List.getD_eq_getElem?_getD]
      rw [List.getElem?_eq_getElem (by omega)]
      rfl

theorem cbuffer_new_wf : cbuffer_wf cbuffer_new := by
  simp [cbuffer_wf, cbuffer_new, IO_BUFFER_SIZE]

theorem cbuffer_new_contents : cbuffer_contents cbuffer_new = [] := by
  simp [cbuffer_contents, cbuffer_new, cbuffer_size]

theorem run_ops_contents (ops : List RingOp) :
    ∀ b : CircularBuffer, cbuffer_wf b → ops_respect_freespace b ops = true →
      cbuffer_wf (run_ops b ops) ∧
      cbuffer_contents (run_ops b ops)
        = (cbuffer_contents b ++ ops_appended ops).drop (ops_deleted b ops) := by
  induction ops with
  | nil => intro b hwf _; simp [run_ops, ops_appended, ops_deleted, hwf]
  | cons op rest ih =>
    intro b hwf h
    cases op with
    | append data =>
      simp only [ops_respect_freespace, Bool.and_eq_true, decide_eq_true_eq] at h
      obtain ⟨hfree, hrest⟩ := h
      obtain ⟨_, hwf2, _⟩ := cbuffer_append_ok b data data.length hwf hfree
      obtain ⟨h1, h2⟩ := ih _ hwf2 hrest
      refine ⟨h1, ?_⟩
      simp only [run_ops, ops_appended, ops_deleted, RingOp.apply]
      rw [h2]
      simp only [cbuffer_append_contents b data data.length hwf hfree rfl,
        List.append_assoc]
    | deletefront n =>
      simp only [ops_respect_freespace] at h
      have hwf2 : cbuffer_wf (cbuffer_deletefront b n).2 :=
        (cbuffer_deletefront_wf b n).2 hwf.2
      obtain ⟨h1, h2⟩ := ih _ hwf2 h
      refine ⟨h1, ?_⟩
      simp only [run_ops, ops_appended, ops_deleted, RingOp.apply]
      rw [h2]
      simp only [cbuffer_deletefront_contents b n hwf]
      have hk : (cbuffer_deletefront b n).1 = min n (cbuffer_size b) := rfl
      rw [hk]
      have hlen := cbuffer_contents_length b
      by_cases hn : n ≤ cbuffer_size b
      · have e : List.drop n (cbuffer_contents b ++ ops_appended rest)
            = List.drop n (cbuffer_contents b) ++ ops_appended rest :=
          List.drop_append_of_le_length (by omega)
        rw [Nat.min_eq_left hn, ← e, List.drop_drop]
      · have hn2 : cbuffer_size b ≤ n := by omega
        have e1 : List.drop n (cbuffer_contents b) = [] := List.drop_of_length_le (by omega)
        have e2 : List.drop (cbuffer_size b) (cbuffer_contents b ++ ops_appended rest)
            = ops_appended rest := by
          rw [← hlen]; exact List.drop_left _ _
        rw [Nat.min_eq_right hn2, e1, List.nil_append]
        conv_lhs => rw [← e2]
        rw [List.drop_drop]
    | read n =>
      simp only [ops_respect_freespace] at h
      exact ih _ hwf h

/-- C1. FIFO: starting from `cbuffer_new()`, after any sequence of
`cbuffer_append`, `cbuffer_deletefront` and `cbuffer_read` calls in which every
append is given at most `cbuffer_freespace` words, `cbuffer_read` of
`cbuffer_size` words returns that count and exactly the concatenation of all
appended words, in order, without its first `d` words, `d` being the total the
delete calls returned. Nothing is assumed about where the stored region lies, so
the wrapped case is included. -/
theorem cbuffer_fifo (ops : List RingOp)
    (h : ops_respect_freespace cbuffer_new ops = true) :
    cbuffer_read (run_ops cbuffer_new ops) (cbuffer_size (run_ops cbuffer_new ops))
      = (cbuffer_size (run_ops cbuffer_new ops),
          (ops_appended ops).drop (ops_deleted cbuffer_new ops)) := by
  obtain ⟨hwf, hc⟩ := run_ops_contents ops cbuffer_new cbuffer_new_wf h
  rw [cbuffer_read_eq _ _ hwf, hc, cbuffer_new_contents, List.nil_append, Nat.min_self]
  congr 1
  apply List.take_of_length_le
  rw [← List.nil_append (ops_appended ops), ← cbuffer_new_contents, ← hc,
    cbuffer_contents_length]

set_option maxRecDepth 100000 in
/-- Witness for C1: 200 words appended, 150 deleted, 100 more appended (the
stored region now wraps past the end of storage), a read, 3 more deleted. -/
theorem cbuffer_fifo_witness :
    ops_respect_freespace cbuffer_new
        [.append (List.range 200), .deletefront 150, .append (List.range 100), .read 10,
          .deletefront 3] = true ∧
      cbuffer_read
          (run_ops cbuffer_new
            [.append (List.range 200), .deletefront 150, .append (List.range 100), .read 10,
              .deletefront 3])
          (cbuffer_size (run_ops cbuffer_new
            [.append (List.range 200), .deletefront 150, .append (List.range 100), .read 10,
              .deletefront 3]))
        = (cbuffer_size (run_ops cbuffer_new
            [.append (List.range 200), .deletefront 150, .append (List.range 100), .read 10,
              .deletefront 3]),
          (ops_appended
            [.append (List.range 200), .deletefront 150, .append (List.range 100), .read 10,
              .deletefront 3]).drop
            (ops_deleted cbuffer_new
              [.append (List.range 200), .deletefront 150, .append (List.range 100), .read 10,
                .deletefront 3])) :=
  ⟨by decide, cbuffer_fifo _ (by decide)⟩

/-- C2. `cbuffer_append(buf, data, n)` returns -1 exactly when
`n > cbuffer_freespace(buf)`, and then the ring (storage, `pos`, `tail`) is the
ring it was given; in every other case it returns 0. -/
theorem cbuffer_append_return (buf : CircularBuffer) (data : List Nat) (n : Nat) :
    ((cbuffer_append buf data n).1 = -1 ↔ n > cbuffer_freespace buf) ∧
    ((cbuffer_append buf data n).1 = 0 ↔ ¬ n > cbuffer_freespace buf) ∧
    (((cbuffer_append buf data n).1 = -1 ∧ (cbuffer_append buf data n).2 = buf) ∨
      (cbuffer_append buf data n).1 = 0) := by
  by_cases h : cbuffer_freespace buf < n
  · simp [cbuffer_append, h]
  · simp [cbuffer_append, h]

/-! ## Bit fields -/

theorem and_shifted_mask (x k n : Nat) :
    x &&& ((2 ^ n - 1) <<< k) = (x / 2 ^ k % 2 ^ n) * 2 ^ k := by
  rw [← Nat.shiftLeft_eq, ← Nat.shiftRight_eq_div_pow]
  apply Nat.eq_of_testBit_eq
  intro i
  simp only [Nat.testBit_and, Nat.testBit_shiftLeft, Nat.testBit_two_pow_sub_one,
    Nat.testBit_mod_two_pow, Nat.testBit_shiftRight]
  by_cases h : i ≥ k
  · have : k + (i - k) = i := by omega
    simp [h, this, Bool.and_comm]
  · simp [h]

theorem and_0xf0 (x : Nat) : x &&& 0xf0 = (x / 16 % 16) * 16 :=
  and_shifted_mask x 4 4

theorem and_0xf0000000 (x : Nat) : x &&& 0xf0000000 = (x / 268435456 % 16) * 268435456 :=
  and_shifted_mask x 28 4

theorem and_0xff00 (x : Nat) : x &&& 0xff00 = (x / 256 % 256) * 256 :=
  and_shifted_mask x 8 8

theorem and_0x0fff0000 (x : Nat) : x &&& 0x0fff0000 = (x / 65536 % 4096) * 65536 :=
  and_shifted_mask x 16 12

theorem and_0x0f (x : Nat) : x &&& 0x0f = x % 16 :=
  Nat.and_pow_two_sub_one_eq_mod x 4

theorem ipbus_detect_packet_header_eq (w : Nat) :
    ipbus_detect_packet_header w =
      if w / 16 % 16 = 2 ∧ w / 268435456 % 16 = 15 then 2
      else if w / 16 % 16 ≠ 15 ∨ w / 268435456 % 16 ≠ 2 then 0
      else 1 := by
  simp only [ipbus_detect_packet_header, and_0xf0, and_0xf0000000]
  have e1 : (w / 16 % 16 * 16 = 0x20) = (w / 16 % 16 = 2) := by
    apply propext; omega
  have e2 : (w / 268435456 % 16 * 268435456 = 0xf0000000) = (w / 268435456 % 16 = 15) := by
    apply propext; omega
  have e3 : (w / 16 % 16 * 16 = 0xf0) = (w / 16 % 16 = 15) := by
    apply propext; omega
  have e4 : (w / 268435456 % 16 * 268435456 = 0x20000000) = (w / 268435456 % 16 = 2) := by
    apply propext; omega
  simp only [ne_eq, e1, e2, e3, e4]

theorem or_eq_add_of_lt (a b i : Nat) (ha : a % 2 ^ i = 0) (hb : b < 2 ^ i) :
    a ||| b = a + b := by
  have e : a = 2 ^ i * (a / 2 ^ i) := by
    have := Nat.div_add_mod a (2 ^ i)
    omega
  rw [e]
  exact (Nat.mul_add_lt_is_or hb _).symm

theorem ipbus_transaction_header_eq (protocol id words type info : Nat) :
    ipbus_transaction_header protocol id words type info =
      (protocol % 16) * 268435456 + (id % 4096) * 65536 + (words % 256) * 256
        + (type % 16) * 16 + info % 16 := by
  unfold ipbus_transaction_header
  have e1 : id &&& 0xfff = id % 4096 := Nat.and_pow_two_sub_one_eq_mod id 12
  have e2 : words &&& 0xff = words % 256 := Nat.and_pow_two_sub_one_eq_mod words 8
  have e3 : type &&& 0xf = type % 16 := Nat.and_pow_two_sub_one_eq_mod type 4
  have e4 : info &&& 0x0f = info % 16 := Nat.and_pow_two_sub_one_eq_mod info 4
  rw [e1, e2, e3, e4]
  simp only [Nat.shiftLeft_eq]
  rw [or_eq_add_of_lt (protocol * 2 ^ 28 % 4294967296) (id % 4096 * 2 ^ 16) 28
      (by omega) (by omega),
    or_eq_add_of_lt _ (words % 256 * 2 ^ 8) 16 (by omega) (by omega),
    or_eq_add_of_lt _ (type % 16 * 2 ^ 4) 8 (by omega) (by omega),
    or_eq_add_of_lt _ (info % 16) 4 (by omega) (by omega)]
  omega

/-! ## Stream state machine -/

/-- C3, as stated, fails: the ring holds the two words `2BAD0500` (a READ header
for 5 words whose info nibble is `SUCCESS`) and `BEEFCAFE`. Its size, 2, reaches
`payload_size(5, READ, REQUEST) + 1 = 2`, yet `ipbus_stream_state` answers
`PARTIAL_TRANS`: it sizes the payload with the info nibble of the head word. -/
theorem ipbus_stream_state_request_size_counterexample :
    cbuffer_size (cbuffer_of_net true [0x2BAD0500, 0xBEEFCAFE]) = 2 ∧
    ipbus_detect_packet_header
      (cbuffer_value_at_net true (cbuffer_of_net true [0x2BAD0500, 0xBEEFCAFE]) 0) = 0 ∧
    (ipbus_decode_transaction_header true
      (cbuffer_of_net true [0x2BAD0500, 0xBEEFCAFE]) 0).words = 5 ∧
    (ipbus_decode_transaction_header true
      (cbuffer_of_net true [0x2BAD0500, 0xBEEFCAFE]) 0).type = IPBUS_READ ∧
    ipbus_transaction_payload_size 5 IPBUS_READ IPBUS_INFO_REQUEST + 1 = 2 ∧
    (ipbus_stream_state true (cbuffer_of_net true [0x2BAD0500, 0xBEEFCAFE]) 0).1
      = IPBUS_ISTREAM_PARTIAL_TRANS := by
  decide

/-- C3, amended. For an empty ring `ipbus_stream_state` returns `EMPTY`. For a
non-empty ring whose head word is not a packet header, and whose header plus
payload is at most 256 words (so that the payload size fits the 8-bit field it
is stored in), it returns `FULL_TRANS` when
`cbuffer_size >= payload_size(words, type, info) + 1` and `PARTIAL_TRANS`
otherwise, where `words`, `type` and `info` are all decoded from the head word
under the current `swapbytes`. -/
theorem ipbus_stream_state_transaction (le : Bool) (buf : CircularBuffer) (swapbytes : Int)
    (h : cbuffer_size buf ≠ 0 →
      ipbus_detect_packet_header (cbuffer_value_at_net le buf 0) = 0 ∧
      ipbus_transaction_endocded_size (ipbus_decode_transaction_header le buf swapbytes)
        ≤ 256) :
    (ipbus_stream_state le buf swapbytes).1 =
      if cbuffer_size buf = 0 then IPBUS_ISTREAM_EMPTY
      else if cbuffer_size buf ≥
          ipbus_transaction_payload_size
            (ipbus_decode_transaction_header le buf swapbytes).words
            (ipbus_decode_transaction_header le buf swapbytes).type
            (ipbus_decode_transaction_header le buf swapbytes).info + 1
        then IPBUS_ISTREAM_FULL_TRANS
      else IPBUS_ISTREAM_PARTIAL_TRANS := by
  by_cases h0 : cbuffer_size buf = 0
  · simp [ipbus_stream_state, h0]
  · obtain ⟨hd, hs⟩ := h h0
    have hsz : (ipbus_decode_transaction_header le buf swapbytes).data.size =
        ipbus_transaction_payload_size
          (ipbus_decode_transaction_header le buf swapbytes).words
          (ipbus_decode_transaction_header le buf swapbytes).type
          (ipbus_decode_transaction_header le buf swapbytes).info := by
      simp only [ipbus_transaction_endocded_size] at hs
      simp only [ipbus_decode_transaction_header] at hs ⊢
      omega
    simp only [ipbus_stream_state, if_neg h0, hd, ne_eq, not_true_eq_false, if_false, hsz]
    split <;> rfl

/-- Witness for C3 (amended): the READ header with info nibble `SUCCESS`,
followed by one word. -/
theorem ipbus_stream_state_transaction_witness :
    (ipbus_stream_state true (cbuffer_of_net true [0x2BAD0500, 0xBEEFCAFE]) 0).1 =
      if cbuffer_size (cbuffer_of_net true [0x2BAD0500, 0xBEEFCAFE]) = 0 then
        IPBUS_ISTREAM_EMPTY
      else if cbuffer_size (cbuffer_of_net true [0x2BAD0500, 0xBEEFCAFE]) ≥
          ipbus_transaction_payload_size
            (ipbus_decode_transaction_header true
              (cbuffer_of_net true [0x2BAD0500, 0xBEEFCAFE]) 0).words
            (ipbus_decode_transaction_header true
              (cbuffer_of_net true [0x2BAD0500, 0xBEEFCAFE]) 0).type
            (ipbus_decode_transaction_header true
              (cbuffer_of_net true [0x2BAD0500, 0xBEEFCAFE]) 0).info + 1
        then IPBUS_ISTREAM_FULL_TRANS
      else IPBUS_ISTREAM_PARTIAL_TRANS :=
  ipbus_stream_state_transaction true _ 0 (by decide)

/-- C4 fails on the code: a ring holding only the header of a WRITE request for
255 words (`2000FF1F`). The payload size 256 is stored into the `unsigned char`
field `data.size` as 0, so `ipbus_stream_state` answers `FULL_TRANS` with one
word buffered, while `ipbus_transaction_endocded_size` of the decoded header is
257, the count `handle_transaction_stream` then asks `cbuffer_deletefront` for. -/
theorem ipbus_stream_state_full_trans_truncated :
    cbuffer_size (cbuffer_of_net true [0x2000FF1F]) = 1 ∧
    (ipbus_stream_state true (cbuffer_of_net true [0x2000FF1F]) 0).1
      = IPBUS_ISTREAM_FULL_TRANS ∧
    (ipbus_decode_transaction_header true (cbuffer_of_net true [0x2000FF1F]) 0).data.size
      = 0 ∧
    ipbus_transaction_endocded_size
      (ipbus_decode_transaction_header true (cbuffer_of_net true [0x2000FF1F]) 0) = 257 := by
  decide

/-- C10 fails on the code: on the ring holding only the header of a WRITE
request for 255 words, `ipbus_process_input_stream` returns 257 although the
input ring held one word before the call and none after it. -/
theorem ipbus_process_input_stream_return_truncated :
    cbuffer_size (cbuffer_of_net true [0x2000FF1F]) = 1 ∧
    (ipbus_process_input_stream dummyHandlers true
      { inputstream := cbuffer_of_net true [0x2000FF1F], outputstream := cbuffer_new,
        swapbytes := 0 } ()).map (fun r => (r.1, cbuffer_size r.2.1.inputstream))
      = some (257, 0) := by
  decide

/-! ## Ring: single-word append -/

theorem cbuffer_push_back_ok (b : CircularBuffer) (w : Nat) (h : cbuffer_wf b)
    (hf : 1 ≤ cbuffer_freespace b) :
    cbuffer_wf (cbuffer_push_back b w).2 ∧
      cbuffer_size (cbuffer_push_back b w).2 = cbuffer_size b + 1 ∧
      cbuffer_contents (cbuffer_push_back b w).2 = cbuffer_contents b ++ [w] := by
  have hlt := cbuffer_size_lt b h
  obtain ⟨hp, ht⟩ := h
  have hn2 : ¬ cbuffer_freespace b < 1 := by omega
  have hwf : cbuffer_wf (cbuffer_push_back b w).2 := by
    simp only [cbuffer_push_back, if_neg hn2, cbuffer_wf]
    exact ⟨hp, Nat.mod_lt _ (by decide)⟩
  have hs : cbuffer_size (cbuffer_push_back b w).2 = cbuffer_size b + 1 := by
    simp only [cbuffer_push_back, if_neg hn2]
    simp only [cbuffer_freespace, cbuffer_size, IO_BUFFER_SIZE] at *
    split at hf <;> split <;> omega
  refine ⟨hwf, hs, ?_⟩
  apply List.ext_getElem
  · simp only [cbuffer_contents_length, List.length_append, hs, List.length_singleton]
  · intro i h1 h2
    simp only [cbuffer_contents_length, hs] at h1
    simp only [cbuffer_contents, List.getElem_map, List.getElem_range, cbuffer_value_at,
      List.getElem_append, List.length_map, List.length_range]
    simp only [cbuffer_push_back, if_neg hn2]
    have hsz : cbuffer_size b = (b.tail + 256 - b.pos) % 256 := by
      simp only [cbuffer_size, IO_BUFFER_SIZE] at *; split <;> omega
    simp only [cbuffer_freespace, IO_BUFFER_SIZE] at *
    by_cases h3 : i < cbuffer_size b
    · have h4 : ¬ (b.pos + i) % 256 = b.tail := by omega
      simp only [if_neg h4, dif_pos h3]
    · have h4 : (b.pos + i) % 256 = b.tail := by omega
      simp only [if_pos h4, dif_neg h3, List.getElem_singleton]

theorem cbuffer_push_back_full (b : CircularBuffer) (w : Nat)
    (hf : cbuffer_freespace b < 1) : (cbuffer_push_back b w).2 = b := by
  simp only [cbuffer_push_back, if_pos hf]

theorem cbuffer_push_back_wf (b : CircularBuffer) (w : Nat) (h : cbuffer_wf b) :
    cbuffer_wf (cbuffer_push_back b w).2 := by
  by_cases hf : cbuffer_freespace b < 1
  · rw [cbuffer_push_back_full b w hf]; exact h
  · exact (cbuffer_push_back_ok b w h (by omega)).1

theorem cbuffer_freespace_eq (b : CircularBuffer) (h : cbuffer_wf b) :
    cbuffer_freespace b + cbuffer_size b = 255 := by
  have := cbuffer_size_lt b h
  simp only [cbuffer_freespace, IO_BUFFER_SIZE] at *
  omega

/-- Pushing a list of words, one `cbuffer_push_back` each, onto a ring with room
for all of them appends them to the exposed words. -/
theorem cbuffer_push_list (ws : List Nat) :
    ∀ b : CircularBuffer, cbuffer_wf b → ws.length ≤ cbuffer_freespace b →
      cbuffer_wf (ws.foldl (fun b w => (cbuffer_push_back b w).2) b) ∧
      cbuffer_contents (ws.foldl (fun b w => (cbuffer_push_back b w).2) b)
        = cbuffer_contents b ++ ws := by
  induction ws with
  | nil => intro b h _; simp [h]
  | cons w rest ih =>
    intro b h hl
    simp only [List.length_cons] at hl
    obtain ⟨h1, h2, h3⟩ := cbuffer_push_back_ok b w h (by omega)
    have hf := cbuffer_freespace_eq b h
    have hf2 := cbuffer_freespace_eq _ h1
    obtain ⟨i1, i2⟩ := ih _ h1 (by omega)
    simp only [List.foldl_cons]
    exact ⟨i1, by rw [i2, h3, List.append_assoc, List.singleton_append]⟩

theorem network_host_inverse (le : Bool) (x : Nat) (h : x < 4294967296) :
    host_to_network le (network_to_host le x) = x ∧
    network_to_host le (host_to_network le x) = x := by
  cases le <;> simp [host_to_network, network_to_host, bswap32_bswap32 x h]

theorem network_to_host_lt (le : Bool) (x : Nat) (h : x < 4294967296) :
    network_to_host le x < 4294967296 := by
  cases le <;> simp [network_to_host, h, bswap32_lt]

theorem ipbus_detect_packet_header_range (w : Nat) :
    ipbus_detect_packet_header w = 0 ∨ ipbus_detect_packet_header w = 1 ∨
      ipbus_detect_packet_header w = 2 := by
  rw [ipbus_detect_packet_header_eq]
  split
  · right; right; rfl
  · split
    · left; rfl
    · right; left; rfl

theorem ipbus_stream_state_range (le : Bool) (buf : CircularBuffer) (swapbytes : Int) :
    (ipbus_stream_state le buf swapbytes).1 = IPBUS_ISTREAM_EMPTY ∨
    (ipbus_stream_state le buf swapbytes).1 = IPBUS_ISTREAM_PACKET ∨
    (ipbus_stream_state le buf swapbytes).1 = IPBUS_ISTREAM_PACKET_SWP_ORD ∨
    (ipbus_stream_state le buf swapbytes).1 = IPBUS_ISTREAM_PARTIAL_TRANS ∨
    (ipbus_stream_state le buf swapbytes).1 = IPBUS_ISTREAM_FULL_TRANS := by
  simp only [ipbus_stream_state]
  split
  · left; rfl
  · split
    · rcases ipbus_detect_packet_header_range (cbuffer_value_at_net le buf 0) with h | h | h
      · rename_i hne; exact absurd h hne
      · right; left; exact h
      · right; right; left; exact h
    · split
      · right; right; right; right; rfl
      · right; right; right; left; rfl

theorem ipbus_stream_state_nonempty (le : Bool) (buf : CircularBuffer) (swapbytes : Int)
    (h : (ipbus_stream_state le buf swapbytes).1 ≠ IPBUS_ISTREAM_EMPTY) :
    cbuffer_size buf ≠ 0 := by
  intro h0
  apply h
  simp [ipbus_stream_state, h0]

theorem ipbus_stream_state_swapbytes_kept (le : Bool) (buf : CircularBuffer) (swapbytes : Int)
    (h : (ipbus_stream_state le buf swapbytes).1 ≠ IPBUS_ISTREAM_PACKET ∧
      (ipbus_stream_state le buf swapbytes).1 ≠ IPBUS_ISTREAM_PACKET_SWP_ORD) :
    (ipbus_stream_state le buf swapbytes).2 = swapbytes := by
  revert h
  simp only [ipbus_stream_state]
  split
  · intro _; rfl
  · split
    · rename_i hne
      intro h
      rcases ipbus_detect_packet_header_range (cbuffer_value_at_net le buf 0) with h1 | h1 | h1
      · exact absurd h1 hne
      · exact absurd h1 h.1
      · exact absurd h1 h.2
    · split <;> intro _ <;> rfl

/-! ## Packet processor: progress -/

theorem process_step_returns (σ : Type) (H : Handlers σ) (le : Bool) (c : Client) (s : σ)
    (h : (process_step H le c s).1 = false) :
    ((ipbus_stream_state le c.inputstream c.swapbytes).1 = IPBUS_ISTREAM_EMPTY ∨
      (ipbus_stream_state le c.inputstream c.swapbytes).1 = IPBUS_ISTREAM_PARTIAL_TRANS) ∧
    (process_step H le c s).2 = (0, c, s) := by
  have hk := ipbus_stream_state_swapbytes_kept le c.inputstream c.swapbytes
  revert h hk
  simp only [process_step]
  rcases ipbus_stream_state_range le c.inputstream c.swapbytes with h | h | h | h | h <;>
    rw [h] <;>
    simp [IPBUS_ISTREAM_EMPTY, IPBUS_ISTREAM_PACKET, IPBUS_ISTREAM_PACKET_SWP_ORD,
      IPBUS_ISTREAM_PARTIAL_TRANS, IPBUS_ISTREAM_FULL_TRANS] <;>
    intro hk <;> rw [hk]

theorem process_step_removes (σ : Type) (H : Handlers σ) (le : Bool) (c : Client) (s : σ)
    (hwf : cbuffer_wf c.inputstream) (h : (process_step H le c s).1 = true) :
    cbuffer_wf (process_step H le c s).2.2.1.inputstream ∧
    cbuffer_size (process_step H le c s).2.2.1.inputstream < cbuffer_size c.inputstream := by
  have hne := ipbus_stream_state_nonempty le c.inputstream c.swapbytes
  revert h hne
  simp only [process_step]
  rcases ipbus_stream_state_range le c.inputstream c.swapbytes with h | h | h | h | h <;>
    rw [h] <;>
    simp [IPBUS_ISTREAM_EMPTY, IPBUS_ISTREAM_PACKET, IPBUS_ISTREAM_PACKET_SWP_ORD,
      IPBUS_ISTREAM_PARTIAL_TRANS, IPBUS_ISTREAM_FULL_TRANS]
  all_goals
    intro hne
    try simp only [handle_transaction_stream, ipbus_transaction_endocded_size]
    refine ⟨(cbuffer_deletefront_wf _ _).2 hwf.2, ?_⟩
    rw [cbuffer_deletefront_size _ _ hwf]
    omega

theorem process_fuel_enough (σ : Type) (H : Handlers σ) (le : Bool) (fuel : Nat) :
    ∀ (c : Client) (s : σ), cbuffer_wf c.inputstream → cbuffer_size c.inputstream < fuel →
      ∃ r, ipbus_process_input_stream_fuel H le fuel c s = some r ∧
        ((ipbus_stream_state le r.2.1.inputstream r.2.1.swapbytes).1 = IPBUS_ISTREAM_EMPTY ∨
          (ipbus_stream_state le r.2.1.inputstream r.2.1.swapbytes).1
            = IPBUS_ISTREAM_PARTIAL_TRANS) := by
  induction fuel with
  | zero => intro c s _ h; omega
  | succ fuel ih =>
    intro c s hwf hsz
    by_cases hr : (process_step H le c s).1 = false
    · obtain ⟨hst, heq⟩ := process_step_returns σ H le c s hr
      refine ⟨(0, c, s), ?_, hst⟩
      simp only [ipbus_process_input_stream_fuel, hr, if_true]
      rw [heq]
    · have hr2 : (process_step H le c s).1 = true := by
        cases h : (process_step H le c s).1 <;> simp_all
      obtain ⟨hwf2, hlt⟩ := process_step_removes σ H le c s hwf hr2
      obtain ⟨r, h1, h2⟩ := ih (process_step H le c s).2.2.1 (process_step H le c s).2.2.2
        hwf2 (by omega)
      refine ⟨((process_step H le c s).2.1 + r.1, r.2.1, r.2.2), ?_, h2⟩
      simp only [ipbus_process_input_stream_fuel, hr, if_false, h1]
      rfl

theorem process_fuel_mono (σ : Type) (H : Handlers σ) (le : Bool) (fuel : Nat) :
    ∀ (c : Client) (s : σ) (r : Nat × Client × σ),
      ipbus_process_input_stream_fuel H le fuel c s = some r →
      ∀ fuel2, fuel ≤ fuel2 → ipbus_process_input_stream_fuel H le fuel2 c s = some r := by
  induction fuel with
  | zero => intro c s r h; simp [ipbus_process_input_stream_fuel] at h
  | succ fuel ih =>
    intro c s r h fuel2 hle
    obtain ⟨k, rfl⟩ : ∃ k, fuel2 = k + 1 := ⟨fuel2 - 1, by omega⟩
    simp only [ipbus_process_input_stream_fuel] at h ⊢
    by_cases hr : (process_step H le c s).1 = false
    · simp only [hr, if_true] at h ⊢
      exact h
    · simp only [hr, if_false] at h ⊢
      cases hrec : ipbus_process_input_stream_fuel H le fuel (process_step H le c s).2.2.1
          (process_step H le c s).2.2.2 with
      | none => simp [hrec] at h
      | some r1 =>
        rw [ih _ _ r1 hrec k (by omega)]
        rw [hrec] at h
        exact h

theorem ipbus_stream_state_packet (le : Bool) (buf : CircularBuffer) (swapbytes : Int)
    (hne : cbuffer_size buf ≠ 0)
    (hpkt : ipbus_detect_packet_header (cbuffer_value_at_net le buf 0) ≠ 0) :
    ipbus_stream_state le buf swapbytes =
      (ipbus_detect_packet_header (cbuffer_value_at_net le buf 0),
        if ipbus_detect_packet_header (cbuffer_value_at_net le buf 0) = IPBUS_ISTREAM_PACKET
        then 0 else 1) := by
  simp only [ipbus_stream_state, if_neg hne, hpkt, ne_eq, not_false_eq_true, if_true]
  rcases ipbus_detect_packet_header_range (cbuffer_value_at_net le buf 0) with h | h | h
  · exact absurd h hpkt
  · simp [h, IPBUS_ISTREAM_PACKET, IPBUS_ISTREAM_PACKET_SWP_ORD]
  · simp [h, IPBUS_ISTREAM_PACKET, IPBUS_ISTREAM_PACKET_SWP_ORD]

theorem process_step_packet (σ : Type) (H : Handlers σ) (le : Bool) (c : Client) (s : σ)
    (hne : cbuffer_size c.inputstream ≠ 0)
    (hpkt : ipbus_detect_packet_header (cbuffer_value_at_net le c.inputstream 0) ≠ 0) :
    process_step H le c s =
      (true, 1,
        { inputstream := (cbuffer_deletefront c.inputstream 1).2,
          outputstream :=
            (cbuffer_push_back_net le c.outputstream
              (cbuffer_value_at_net le c.inputstream 0)).2,
          swapbytes :=
            if ipbus_detect_packet_header (cbuffer_value_at_net le c.inputstream 0)
              = IPBUS_ISTREAM_PACKET then 0 else 1 }, s) := by
  simp only [process_step, ipbus_stream_state_packet le _ c.swapbytes hne hpkt]
  rcases ipbus_detect_packet_header_range (cbuffer_value_at_net le c.inputstream 0)
    with h | h | h
  · exact absurd h hpkt
  · simp [h, IPBUS_ISTREAM_PACKET, IPBUS_ISTREAM_PACKET_SWP_ORD, IPBUS_ISTREAM_FULL_TRANS]
  · simp [h, IPBUS_ISTREAM_PACKET, IPBUS_ISTREAM_PACKET_SWP_ORD, IPBUS_ISTREAM_FULL_TRANS]

theorem process_step_empty (σ : Type) (H : Handlers σ) (le : Bool) (c : Client) (s : σ)
    (he : cbuffer_size c.inputstream = 0) :
    process_step H le c s = (false, 0, c, s) := by
  simp [process_step, ipbus_stream_state, he, IPBUS_ISTREAM_EMPTY, IPBUS_ISTREAM_PACKET,
    IPBUS_ISTREAM_PACKET_SWP_ORD, IPBUS_ISTREAM_FULL_TRANS]

theorem cbuffer_contents_head (b : CircularBuffer) (w : Nat) (rest : List Nat)
    (h : cbuffer_contents b = w :: rest) :
    cbuffer_size b = rest.length + 1 ∧ cbuffer_value_at b 0 = w := by
  have hl := cbuffer_contents_length b
  rw [h] at hl
  simp only [List.length_cons] at hl
  refine ⟨hl.symm, ?_⟩
  have h0 : (cbuffer_contents b)[0]? = some w := by rw [h]; simp
  simp only [cbuffer_contents, List.getElem?_map, List.getElem?_range (by omega : 0 < cbuffer_size b),
    Option.map_some', Option.some.injEq] at h0
  exact h0

/-- C7. An input ring holding exactly one word `w`, a packet header in either
byte order, and an output ring with room for a word: `ipbus_process_input_stream`
returns 1, leaves the input ring empty, appends to the output ring the one raw
word `w`, and leaves `swapbytes = 0` when the header is in native order and
`swapbytes = 1` when it is byte-swapped. -/
theorem ipbus_process_input_stream_packet_header (σ : Type) (H : Handlers σ) (le : Bool)
    (w : Nat) (client : Client) (s : σ)
    (hw : w < 4294967296)
    (hin : cbuffer_wf client.inputstream) (hout : cbuffer_wf client.outputstream)
    (hone : cbuffer_contents client.inputstream = [w])
    (hpkt : ipbus_detect_packet_header (network_to_host le w) = IPBUS_ISTREAM_PACKET ∨
      ipbus_detect_packet_header (network_to_host le w) = IPBUS_ISTREAM_PACKET_SWP_ORD)
    (hfree : 1 ≤ cbuffer_freespace client.outputstream) :
    ∃ r, ipbus_process_input_stream H le client s = some r ∧
      r.1 = 1 ∧
      cbuffer_size r.2.1.inputstream = 0 ∧
      cbuffer_contents r.2.1.outputstream = cbuffer_contents client.outputstream ++ [w] ∧
      (ipbus_detect_packet_header (network_to_host le w) = IPBUS_ISTREAM_PACKET →
        r.2.1.swapbytes = 0) ∧
      (ipbus_detect_packet_header (network_to_host le w) = IPBUS_ISTREAM_PACKET_SWP_ORD →
        r.2.1.swapbytes = 1) := by
  obtain ⟨hsz, hv⟩ := cbuffer_contents_head _ _ _ hone
  simp only [List.length_nil, Nat.zero_add] at hsz
  have hvn : cbuffer_value_at_net le client.inputstream 0 = network_to_host le w := by
    simp only [cbuffer_value_at_net, hv]
  have hdet : ipbus_detect_packet_header (cbuffer_value_at_net le client.inputstream 0) ≠ 0 := by
    rw [hvn]
    rcases hpkt with h | h <;> rw [h] <;> decide
  have hstep := process_step_packet σ H le client s (by omega) hdet
  have hsz2 : cbuffer_size (cbuffer_deletefront client.inputstream 1).2 = 0 := by
    rw [cbuffer_deletefront_size _ _ hin, hsz]; rfl
  refine ⟨(1, (process_step H le client s).2.2.1, s), ?_, rfl, ?_, ?_, ?_, ?_⟩
  · simp only [ipbus_process_input_stream, hsz, ipbus_process_input_stream_fuel]
    rw [process_step_empty σ H le (process_step H le client s).2.2.1
      (process_step H le client s).2.2.2 (by rw [hstep]; exact hsz2)]
    simp [hstep]
  · rw [hstep]; exact hsz2
  · rw [hstep]
    simp only [cbuffer_push_back_net, hvn, (network_host_inverse le w hw).1]
    exact (cbuffer_push_back_ok _ w hout hfree).2.2
  · intro h
    rw [hstep]
    simp only [hvn, h, if_true]
  · intro h
    rw [hstep]
    simp only [hvn, h]
    rfl

/-- Witness for C7: the byte-swapped packet header `F0EFBE20` of the
repository's test, on a little-endian host. -/
theorem ipbus_process_input_stream_packet_header_witness :
    ∃ r, ipbus_process_input_stream dummyHandlers true
        { inputstream := cbuffer_of_net true [0xF0EFBE20], outputstream := cbuffer_new,
          swapbytes := 0 } () = some r ∧
      r.1 = 1 ∧
      cbuffer_size r.2.1.inputstream = 0 ∧
      cbuffer_contents r.2.1.outputstream = cbuffer_contents cbuffer_new ++ [0x20BEEFF0] ∧
      (ipbus_detect_packet_header (network_to_host true 0x20BEEFF0) = IPBUS_ISTREAM_PACKET →
        r.2.1.swapbytes = 0) ∧
      (ipbus_detect_packet_header (network_to_host true 0x20BEEFF0)
          = IPBUS_ISTREAM_PACKET_SWP_ORD →
        r.2.1.swapbytes = 1) :=
  ipbus_process_input_stream_packet_header Unit dummyHandlers true 0x20BEEFF0
    { inputstream := cbuffer_of_net true [0xF0EFBE20], outputstream := cbuffer_new,
      swapbytes := 0 } () (by decide) (by decide) (by decide) (by decide) (by decide)
    (by decide)

/-! ## Transaction dispatcher -/

theorem cbuffer_push_back_net_list (le : Bool) (n : Nat) (g : Nat → Nat) (b : CircularBuffer)
    (h : cbuffer_wf b) (hl : n ≤ cbuffer_freespace b) :
    cbuffer_wf ((List.range n).foldl (fun b i => (cbuffer_push_back_net le b (g i)).2) b) ∧
    cbuffer_contents ((List.range n).foldl (fun b i => (cbuffer_push_back_net le b (g i)).2) b)
      = cbuffer_contents b ++ (List.range n).map (fun i => host_to_network le (g i)) := by
  have e : (List.range n).foldl (fun b i => (cbuffer_push_back_net le b (g i)).2) b
      = ((List.range n).map (fun i => host_to_network le (g i))).foldl
          (fun b w => (cbuffer_push_back b w).2) b := by
    rw [List.foldl_map]; rfl
  rw [e]
  exact cbuffer_push_list _ b h (by simpa using hl)

theorem ipbus_encode_transaction_contents (le : Bool) (into : CircularBuffer)
    (t : ipbus_transaction_t) (swapbytes : Int)
    (h : cbuffer_wf into) (hl : 1 + t.data.size ≤ cbuffer_freespace into) :
    cbuffer_wf (ipbus_encode_transaction le into t swapbytes) ∧
    cbuffer_contents (ipbus_encode_transaction le into t swapbytes)
      = cbuffer_contents into ++
        (ipbus_transaction_header 2 t.id t.words t.type t.info ::
          (List.range t.data.size).map t.data.at).map (wire_word le swapbytes) := by
  obtain ⟨h1, h2, h3⟩ := cbuffer_push_back_ok into
    (host_to_network le (if swapbytes ≠ 0 then
      bswap32 (ipbus_transaction_header 2 t.id t.words t.type t.info)
      else ipbus_transaction_header 2 t.id t.words t.type t.info)) h (by omega)
  have hf := cbuffer_freespace_eq into h
  have hf2 := cbuffer_freespace_eq _ h1
  obtain ⟨k1, k2⟩ := cbuffer_push_back_net_list le t.data.size
    (fun i => if swapbytes ≠ 0 then bswap32 (t.data.at i) else t.data.at i) _ h1 (by omega)
  simp only [ipbus_encode_transaction, cbuffer_push_back_net]
  refine ⟨k1, ?_⟩
  simp only [cbuffer_push_back_net] at k2
  rw [k2, h3]
  simp only [wire_word, List.map_cons, List.map_map, List.append_assoc, List.singleton_append]
  rfl

theorem ipbus_decode_transaction_at (le : Bool) (buf : CircularBuffer) (swapbytes : Int)
    (i : Nat) (hi : i < (ipbus_decode_transaction_header le buf swapbytes).data.size) :
    (ipbus_decode_transaction le buf swapbytes).data.at i
      = request_word le buf swapbytes (1 + i) := by
  simp only [ipbus_decode_transaction, ipbus_payload_t.at, Option.getD_some,
    List.getD_eq_getElem?_getD]
  rw [List.getElem?_eq_getElem (by simpa using hi)]
  simp only [List.getElem_map, List.getElem_range, Option.getD_some, request_word,
    cbuffer_value_at_net]

theorem ipbus_decode_transaction_header_fields (le : Bool) (buf : CircularBuffer)
    (swapbytes : Int) :
    (ipbus_decode_transaction_header le buf swapbytes).info
      = request_word le buf swapbytes 0 % 16 ∧
    (ipbus_decode_transaction_header le buf swapbytes).type
      = request_word le buf swapbytes 0 / 16 % 16 ∧
    (ipbus_decode_transaction_header le buf swapbytes).words
      = request_word le buf swapbytes 0 / 256 % 256 ∧
    (ipbus_decode_transaction_header le buf swapbytes).id
      = request_word le buf swapbytes 0 / 65536 % 4096 := by
  refine ⟨?_, ?_, ?_, ?_⟩ <;>
    simp only [ipbus_decode_transaction_header, and_0x0f, and_0xf0, and_0xff00,
      and_0x0fff0000, Nat.shiftRight_eq_div_pow, request_word] <;>
    omega

theorem payload_list_eq (p : ipbus_payload_t) (l : List Nat) (n : Nat) (h : p.words = some l)
    (hs : n = l.length) : (List.range n).map p.at = l := by
  apply List.ext_getElem
  · simp [hs]
  · intro i h1 h2
    simp only [List.getElem_map, List.getElem_range, ipbus_payload_t.at, h, Option.getD_some,
      List.getD_eq_getElem?_getD]
    rw [List.getElem?_eq_getElem h2]
    rfl

theorem ipbus_transaction_payload_size_request (words type : Nat) :
    ipbus_transaction_payload_size words type IPBUS_INFO_REQUEST =
      if type = IPBUS_READ ∨ type = IPBUS_NIREAD then 1
      else if type = IPBUS_WRITE ∨ type = IPBUS_NIWRITE then words + 1
      else if type = IPBUS_RMW then 3
      else if type = IPBUS_RMWSUM then 2
      else 0 := by
  simp [ipbus_transaction_payload_size, IPBUS_INFO_REQUEST, IPBUS_INFO_SUCCESS]

theorem ipbus_transaction_payload_size_success (words type : Nat) :
    ipbus_transaction_payload_size words type IPBUS_INFO_SUCCESS =
      if type = IPBUS_READ ∨ type = IPBUS_NIREAD then words
      else if type = IPBUS_WRITE ∨ type = IPBUS_NIWRITE then 0
      else if type = IPBUS_RMW then 1
      else if type = IPBUS_RMWSUM then 1
      else 0 := by
  simp [ipbus_transaction_payload_size, IPBUS_INFO_REQUEST, IPBUS_INFO_SUCCESS]

theorem ipbus_process_transaction_request (σ : Type) (H : Handlers σ)
    (treq : ipbus_transaction_t) (pw : Nat → Nat) (s : σ)
    (hH : reads_return_nwords H) (hwords : treq.words < 256)
    (htype : treq.type = IPBUS_READ ∨ treq.type = IPBUS_NIREAD ∨ treq.type = IPBUS_WRITE ∨
      treq.type = IPBUS_NIWRITE ∨ treq.type = IPBUS_RMW ∨ treq.type = IPBUS_RMWSUM)
    (hat : ∀ i, i < ipbus_transaction_payload_size treq.words treq.type IPBUS_INFO_REQUEST →
      treq.data.at i = pw i) :
    (ipbus_process_transaction H treq s).1.id = treq.id ∧
    (ipbus_process_transaction H treq s).1.words = treq.words ∧
    (ipbus_process_transaction H treq s).1.type = treq.type ∧
    (ipbus_process_transaction H treq s).1.info = IPBUS_INFO_SUCCESS ∧
    (ipbus_process_transaction H treq s).1.data.size
      = ipbus_transaction_payload_size treq.words treq.type IPBUS_INFO_SUCCESS ∧
    (List.range (ipbus_process_transaction H treq s).1.data.size).map
        (ipbus_process_transaction H treq s).1.data.at
      = spec_response_payload H treq.type treq.words pw s := by
  rw [ipbus_transaction_payload_size_request] at hat
  rw [ipbus_transaction_payload_size_success]
  rcases htype with h | h | h | h | h | h
  · have h0 := hat 0 (by rw [h]; simp)
    obtain ⟨⟨e1, l, e2, e3⟩, _⟩ := hH treq.words (pw 0) s hwords
    simp only [ipbus_process_transaction, spec_response_payload, h, h0, if_true, e1, e2,
      Option.getD_some, true_or, true_and]
    exact payload_list_eq _ l _ e2 e3.symm
  · have h0 := hat 0 (by rw [h]; simp)
    obtain ⟨_, e1, l, e2, e3⟩ := hH treq.words (pw 0) s hwords
    have hne : ¬ IPBUS_NIREAD = IPBUS_READ := by decide
    simp only [ipbus_process_transaction, spec_response_payload, h, h0, if_true, e1, e2,
      Option.getD_some, or_true, true_and, hne, if_false]
    exact payload_list_eq _ l _ e2 e3.symm
  · simp [ipbus_process_transaction, spec_response_payload, h,
      IPBUS_READ, IPBUS_NIREAD, IPBUS_WRITE, IPBUS_NIWRITE, IPBUS_RMW, IPBUS_RMWSUM]
  · simp [ipbus_process_transaction, spec_response_payload, h,
      IPBUS_READ, IPBUS_NIREAD, IPBUS_WRITE, IPBUS_NIWRITE, IPBUS_RMW, IPBUS_RMWSUM]
  · have h0 := hat 0 (by rw [h]; simp [IPBUS_READ, IPBUS_NIREAD, IPBUS_WRITE, IPBUS_NIWRITE,
      IPBUS_RMW])
    have h1 := hat 1 (by rw [h]; simp [IPBUS_READ, IPBUS_NIREAD, IPBUS_WRITE, IPBUS_NIWRITE,
      IPBUS_RMW])
    have h2 := hat 2 (by rw [h]; simp [IPBUS_READ, IPBUS_NIREAD, IPBUS_WRITE, IPBUS_NIWRITE,
      IPBUS_RMW])
    simp only [ipbus_process_transaction, spec_response_payload, h, h0, h1, h2]
    simp [IPBUS_READ, IPBUS_NIREAD, IPBUS_WRITE, IPBUS_NIWRITE, IPBUS_RMW, IPBUS_RMWSUM]
    exact payload_list_eq _ _ 1 rfl rfl
  · have h0 := hat 0 (by rw [h]; simp [IPBUS_READ, IPBUS_NIREAD, IPBUS_WRITE, IPBUS_NIWRITE,
      IPBUS_RMW, IPBUS_RMWSUM])
    have h1 := hat 1 (by rw [h]; simp [IPBUS_READ, IPBUS_NIREAD, IPBUS_WRITE, IPBUS_NIWRITE,
      IPBUS_RMW, IPBUS_RMWSUM])
    simp only [ipbus_process_transaction, spec_response_payload, h, h0, h1]
    simp [IPBUS_READ, IPBUS_NIREAD, IPBUS_WRITE, IPBUS_NIWRITE, IPBUS_RMW, IPBUS_RMWSUM]
    exact payload_list_eq _ _ 1 rfl rfl

theorem dummy_reads_return_nwords : reads_return_nwords dummyHandlers := by
  intro n b s _
  simp [dummyHandlers, dummy_handle_IPBUS_READ, dummy_handle_IPBUS_NIREAD]

theorem handle_transaction_stream_request_aux (σ : Type) (H : Handlers σ) (le : Bool)
    (input : CircularBuffer) (swapbytes : Int) (output : CircularBuffer) (s : σ)
    (hin : cbuffer_wf input) (hout : cbuffer_wf output)
    (hH : reads_return_nwords H)
    (hinfo : (ipbus_decode_transaction_header le input swapbytes).info = IPBUS_INFO_REQUEST)
    (htype :
      (ipbus_decode_transaction_header le input swapbytes).type = IPBUS_READ ∨
      (ipbus_decode_transaction_header le input swapbytes).type = IPBUS_NIREAD ∨
      (ipbus_decode_transaction_header le input swapbytes).type = IPBUS_WRITE ∨
      (ipbus_decode_transaction_header le input swapbytes).type = IPBUS_NIWRITE ∨
      (ipbus_decode_transaction_header le input swapbytes).type = IPBUS_RMW ∨
      (ipbus_decode_transaction_header le input swapbytes).type = IPBUS_RMWSUM)
    (hcomplete :
      1 + ipbus_transaction_payload_size
          (ipbus_decode_transaction_header le input swapbytes).words
          (ipbus_decode_transaction_header le input swapbytes).type IPBUS_INFO_REQUEST
        ≤ cbuffer_size input)
    (hfree :
      1 + ipbus_transaction_payload_size
          (ipbus_decode_transaction_header le input swapbytes).words
          (ipbus_decode_transaction_header le input swapbytes).type IPBUS_INFO_SUCCESS
        ≤ cbuffer_freespace output) :
    (handle_transaction_stream H le input swapbytes output s).1
      = 1 + ipbus_transaction_payload_size
          (ipbus_decode_transaction_header le input swapbytes).words
          (ipbus_decode_transaction_header le input swapbytes).type IPBUS_INFO_REQUEST ∧
    cbuffer_size (handle_transaction_stream H le input swapbytes output s).2.1
        + (1 + ipbus_transaction_payload_size
          (ipbus_decode_transaction_header le input swapbytes).words
          (ipbus_decode_transaction_header le input swapbytes).type IPBUS_INFO_REQUEST)
      = cbuffer_size input ∧
    cbuffer_contents (handle_transaction_stream H le input swapbytes output s).2.1
      = (cbuffer_contents input).drop
        (1 + ipbus_transaction_payload_size
          (ipbus_decode_transaction_header le input swapbytes).words
          (ipbus_decode_transaction_header le input swapbytes).type IPBUS_INFO_REQUEST) ∧
    (spec_response_payload H (ipbus_decode_transaction_header le input swapbytes).type
        (ipbus_decode_transaction_header le input swapbytes).words
        (fun i => request_word le input swapbytes (1 + i)) s).length
      = ipbus_transaction_payload_size
          (ipbus_decode_transaction_header le input swapbytes).words
          (ipbus_decode_transaction_header le input swapbytes).type IPBUS_INFO_SUCCESS ∧
    cbuffer_contents (handle_transaction_stream H le input swapbytes output s).2.2.1
      = cbuffer_contents output ++
        (ipbus_transaction_header 2 (ipbus_decode_transaction_header le input swapbytes).id
            (ipbus_decode_transaction_header le input swapbytes).words
            (ipbus_decode_transaction_header le input swapbytes).type IPBUS_INFO_SUCCESS ::
          spec_response_payload H (ipbus_decode_transaction_header le input swapbytes).type
            (ipbus_decode_transaction_header le input swapbytes).words
            (fun i => request_word le input swapbytes (1 + i)) s).map
          (wire_word le swapbytes) ∧
    cbuffer_wf (handle_transaction_stream H le input swapbytes output s).2.1 ∧
    cbuffer_wf (handle_transaction_stream H le input swapbytes output s).2.2.1 := by
  have hsz := cbuffer_size_lt input hin
  simp only [IO_BUFFER_SIZE] at hsz
  have hwords : (ipbus_decode_transaction_header le input swapbytes).words < 256 := by
    rw [(ipbus_decode_transaction_header_fields le input swapbytes).2.2.1]
    omega
  -- the payload size fits the 8-bit field
  have hds : (ipbus_decode_transaction_header le input swapbytes).data.size
      = ipbus_transaction_payload_size
          (ipbus_decode_transaction_header le input swapbytes).words
          (ipbus_decode_transaction_header le input swapbytes).type IPBUS_INFO_REQUEST := by
    have e : (ipbus_decode_transaction_header le input swapbytes).data.size
        = ipbus_transaction_payload_size
          (ipbus_decode_transaction_header le input swapbytes).words
          (ipbus_decode_transaction_header le input swapbytes).type
          (ipbus_decode_transaction_header le input swapbytes).info % 256 := rfl
    rw [e, hinfo]
    omega
  have hproc := ipbus_process_transaction_request σ H
    (ipbus_decode_transaction le input swapbytes)
    (fun i => request_word le input swapbytes (1 + i)) s hH hwords htype
    (fun i hi => ipbus_decode_transaction_at le input swapbytes i (by rw [hds]; exact hi))
  obtain ⟨p1, p2, p3, p4, p5, p6⟩ := hproc
  have hw : (ipbus_decode_transaction le input swapbytes).words
      = (ipbus_decode_transaction_header le input swapbytes).words := rfl
  have ht : (ipbus_decode_transaction le input swapbytes).type
      = (ipbus_decode_transaction_header le input swapbytes).type := rfl
  have hi : (ipbus_decode_transaction le input swapbytes).id
      = (ipbus_decode_transaction_header le input swapbytes).id := rfl
  have hinf : (ipbus_decode_transaction le input swapbytes).info
      = (ipbus_decode_transaction_header le input swapbytes).info := rfl
  rw [hw, ht] at p5 p6
  rw [hw] at p2; rw [ht] at p3; rw [hi] at p1
  have hret : (handle_transaction_stream H le input swapbytes output s).1
      = 1 + ipbus_transaction_payload_size
          (ipbus_decode_transaction_header le input swapbytes).words
          (ipbus_decode_transaction_header le input swapbytes).type IPBUS_INFO_REQUEST := by
    simp only [handle_transaction_stream, ipbus_transaction_endocded_size, hw, ht, hinf, hinfo]
  have henc := ipbus_encode_transaction_contents le output
    (ipbus_process_transaction H (ipbus_decode_transaction le input swapbytes) s).1 swapbytes
    hout (by rw [p5]; exact hfree)
  refine ⟨hret, ?_, ?_, ?_, ?_, ?_, ?_⟩
  · simp only [handle_transaction_stream, ipbus_transaction_endocded_size, hw, ht, hinf, hinfo]
    rw [cbuffer_deletefront_size _ _ hin]
    omega
  · simp only [handle_transaction_stream, ipbus_transaction_endocded_size, hw, ht, hinf, hinfo]
    exact cbuffer_deletefront_contents _ _ hin
  · rw [← p6, List.length_map, List.length_range, p5]
  · simp only [handle_transaction_stream]
    rw [henc.2, p1, p2, p3, p4, p6]
  · simp only [handle_transaction_stream]
    exact (cbuffer_deletefront_wf _ _).2 hin.2
  · simp only [handle_transaction_stream]
    exact henc.1

/-- C5. A complete request transaction at the head of the input ring (decoded
info `REQUEST`, one of the six types, header and payload buffered), either
`swapbytes`, read handlers that return `nwords` words, and an output ring with
room for the response. `handle_transaction_stream` returns and removes exactly
`1 + payload_size(words, type, REQUEST)` words, and appends to the output ring
exactly `1 + payload_size(words, type, SUCCESS)` words: the header
`ipbus_transaction_header(2, id, words, type, SUCCESS)` with the request's id,
words and type, then the payload the handler of that type returns, each word
byte-swapped when `swapbytes` is set and then passed through `host_to_network`. -/
theorem handle_transaction_stream_request (σ : Type) (H : Handlers σ) (le : Bool)
    (input : CircularBuffer) (swapbytes : Int) (output : CircularBuffer) (s : σ)
    (hin : cbuffer_wf input) (hout : cbuffer_wf output)
    (hH : reads_return_nwords H)
    (hinfo : (ipbus_decode_transaction_header le input swapbytes).info = IPBUS_INFO_REQUEST)
    (htype :
      (ipbus_decode_transaction_header le input swapbytes).type = IPBUS_READ ∨
      (ipbus_decode_transaction_header le input swapbytes).type = IPBUS_NIREAD ∨
      (ipbus_decode_transaction_header le input swapbytes).type = IPBUS_WRITE ∨
      (ipbus_decode_transaction_header le input swapbytes).type = IPBUS_NIWRITE ∨
      (ipbus_decode_transaction_header le input swapbytes).type = IPBUS_RMW ∨
      (ipbus_decode_transaction_header le input swapbytes).type = IPBUS_RMWSUM)
    (hcomplete :
      1 + ipbus_transaction_payload_size
          (ipbus_decode_transaction_header le input swapbytes).words
          (ipbus_decode_transaction_header le input swapbytes).type IPBUS_INFO_REQUEST
        ≤ cbuffer_size input)
    (hfree :
      1 + ipbus_transaction_payload_size
          (ipbus_decode_transaction_header le input swapbytes).words
          (ipbus_decode_transaction_header le input swapbytes).type IPBUS_INFO_SUCCESS
        ≤ cbuffer_freespace output) :
    (handle_transaction_stream H le input swapbytes output s).1
      = 1 + ipbus_transaction_payload_size
          (ipbus_decode_transaction_header le input swapbytes).words
          (ipbus_decode_transaction_header le input swapbytes).type IPBUS_INFO_REQUEST ∧
    cbuffer_size (handle_transaction_stream H le input swapbytes output s).2.1
        + (1 + ipbus_transaction_payload_size
          (ipbus_decode_transaction_header le input swapbytes).words
          (ipbus_decode_transaction_header le input swapbytes).type IPBUS_INFO_REQUEST)
      = cbuffer_size input ∧
    cbuffer_contents (handle_transaction_stream H le input swapbytes output s).2.1
      = (cbuffer_contents input).drop
        (1 + ipbus_transaction_payload_size
          (ipbus_decode_transaction_header le input swapbytes).words
          (ipbus_decode_transaction_header le input swapbytes).type IPBUS_INFO_REQUEST) ∧
    (spec_response_payload H (ipbus_decode_transaction_header le input swapbytes).type
        (ipbus_decode_transaction_header le input swapbytes).words
        (fun i => request_word le input swapbytes (1 + i)) s).length
      = ipbus_transaction_payload_size
          (ipbus_decode_transaction_header le input swapbytes).words
          (ipbus_decode_transaction_header le input swapbytes).type IPBUS_INFO_SUCCESS ∧
    cbuffer_contents (handle_transaction_stream H le input swapbytes output s).2.2.1
      = cbuffer_contents output ++
        (ipbus_transaction_header 2 (ipbus_decode_transaction_header le input swapbytes).id
            (ipbus_decode_transaction_header le input swapbytes).words
            (ipbus_decode_transaction_header le input swapbytes).type IPBUS_INFO_SUCCESS ::
          spec_response_payload H (ipbus_decode_transaction_header le input swapbytes).type
            (ipbus_decode_transaction_header le input swapbytes).words
            (fun i => request_word le input swapbytes (1 + i)) s).map
          (wire_word le swapbytes) := by
  obtain ⟨h1, h2, h3, h4, h5, _⟩ := handle_transaction_stream_request_aux σ H le input
    swapbytes output s hin hout hH hinfo htype hcomplete hfree
  exact ⟨h1, h2, h3, h4, h5⟩

/-- Witness for C5: the RMW request of the repository's test packet at the head
of the input ring, little-endian host, `swapbytes = 0`, dummy handlers. -/
theorem handle_transaction_stream_request_witness :
    (handle_transaction_stream dummyHandlers true
        (cbuffer_of_net true [0x2CAB014F, 0xBEEFCAFE, 0xDEAFBEEF, 0xFACEBEEF]) 0
        cbuffer_new ()).1 = 4 ∧
    cbuffer_contents (handle_transaction_stream dummyHandlers true
        (cbuffer_of_net true [0x2CAB014F, 0xBEEFCAFE, 0xDEAFBEEF, 0xFACEBEEF]) 0
        cbuffer_new ()).2.2.1
      = [0x2CAB0140, 0xFEEFBEEF].map (wire_word true 0) := by
  have h := handle_transaction_stream_request Unit dummyHandlers true
    (cbuffer_of_net true [0x2CAB014F, 0xBEEFCAFE, 0xDEAFBEEF, 0xFACEBEEF]) 0 cbuffer_new ()
    (by decide) (by decide) dummy_reads_return_nwords (by decide) (by decide) (by decide)
    (by decide)
  exact ⟨h.1.trans (by decide), h.2.2.2.2.trans (by decide)⟩

/-! ## Packet headers and byte order -/

theorem ipbus_detect_packet_header_bswap32 (w : Nat) (h : w < 4294967296) :
    ipbus_detect_packet_header (bswap32 w) =
      if ipbus_detect_packet_header w = 1 then 2
      else if ipbus_detect_packet_header w = 2 then 1
      else 0 := by
  obtain ⟨a, b, c, d, ha, hb, hc, hd, rfl⟩ := exists_bytes w h
  rw [bswap32_bytes a b c d ha hb hc hd]
  simp only [ipbus_detect_packet_header_eq]
  have e1 : (d + 256 * c + 65536 * b + 16777216 * a) / 16 % 16 = d / 16 := by omega
  have e2 : (d + 256 * c + 65536 * b + 16777216 * a) / 268435456 % 16 = a / 16 := by
    have q : (d + 256 * c + 65536 * b + 16777216 * a) / 16777216 = a := by omega
    have q2 : (d + 256 * c + 65536 * b + 16777216 * a) / 268435456
        = (d + 256 * c + 65536 * b + 16777216 * a) / 16777216 / 16 := by
      rw [Nat.div_div_eq_div_mul]
    rw [q2, q]; omega
  have e3 : (a + 256 * b + 65536 * c + 16777216 * d) / 16 % 16 = a / 16 := by omega
  have e4 : (a + 256 * b + 65536 * c + 16777216 * d) / 268435456 % 16 = d / 16 := by
    have q : (a + 256 * b + 65536 * c + 16777216 * d) / 16777216 = d := by omega
    have q2 : (a + 256 * b + 65536 * c + 16777216 * d) / 268435456
        = (a + 256 * b + 65536 * c + 16777216 * d) / 16777216 / 16 := by
      rw [Nat.div_div_eq_div_mul]
    rw [q2, q]; omega
  rw [e1, e2, e3, e4]
  by_cases h1 : a / 16 = 2 <;> by_cases h2 : a / 16 = 15 <;> by_cases h3 : d / 16 = 2 <;>
    by_cases h4 : d / 16 = 15 <;> simp [h1, h2, h3, h4]

theorem ipbus_transaction_header_lt (protocol id words type info : Nat) :
    ipbus_transaction_header protocol id words type info < 4294967296 := by
  rw [ipbus_transaction_header_eq]; omega

theorem ipbus_detect_packet_header_transaction (id words type info : Nat) (ht : type ≤ 5) :
    ipbus_detect_packet_header (ipbus_transaction_header 2 id words type info) = 0 ∧
    ipbus_detect_packet_header (bswap32 (ipbus_transaction_header 2 id words type info))
      = 0 := by
  have h0 : ipbus_detect_packet_header (ipbus_transaction_header 2 id words type info) = 0 := by
    rw [ipbus_detect_packet_header_eq, ipbus_transaction_header_eq]
    have e1 : (2 % 16 * 268435456 + id % 4096 * 65536 + words % 256 * 256 + type % 16 * 16
        + info % 16) / 16 % 16 = type := by omega
    have e2 : (2 % 16 * 268435456 + id % 4096 * 65536 + words % 256 * 256 + type % 16 * 16
        + info % 16) / 268435456 % 16 = 2 := by omega
    rw [e1, e2]
    have : type ≠ 15 := by omega
    simp [this]
  refine ⟨h0, ?_⟩
  rw [ipbus_detect_packet_header_bswap32 _ (ipbus_transaction_header_lt _ _ _ _ _), h0]
  rfl

/-! ## Decoded transactions -/

theorem ipbus_decode_transaction_header_word (le : Bool) (buf : CircularBuffer)
    (swapbytes : Int) :
    ipbus_decode_transaction_header le buf swapbytes
      = decode_header_word (request_word le buf swapbytes 0) := rfl

theorem ipbus_decode_transaction_eq (le : Bool) (buf : CircularBuffer) (swapbytes : Int) :
    ipbus_decode_transaction le buf swapbytes =
      { ipbus_decode_transaction_header le buf swapbytes with
        data := { size := (ipbus_decode_transaction_header le buf swapbytes).data.size,
                  words := some ((List.range
                    (ipbus_decode_transaction_header le buf swapbytes).data.size).map
                    (fun i => request_word le buf swapbytes (1 + i))) } } := rfl

theorem getD_lt_of_forall (l : List Nat) (i : Nat) (h : ∀ w ∈ l, w < 4294967296) :
    l.getD i 0 < 4294967296 := by
  rw [List.getD_eq_getElem?_getD]
  by_cases hi : i < l.length
  · rw [List.getElem?_eq_getElem hi]
    exact h _ (List.getElem_mem _)
  · rw [List.getElem?_eq_none (by omega)]
    decide

theorem process_step_transaction (σ : Type) (H : Handlers σ) (le : Bool) (c : Client) (s : σ)
    (hne : cbuffer_size c.inputstream ≠ 0)
    (hpkt : ipbus_detect_packet_header (cbuffer_value_at_net le c.inputstream 0) = 0) :
    process_step H le c s =
      if cbuffer_size c.inputstream
          ≥ (ipbus_decode_transaction_header le c.inputstream c.swapbytes).data.size + 1 then
        (true, (handle_transaction_stream H le c.inputstream c.swapbytes c.outputstream s).1,
          { inputstream :=
              (handle_transaction_stream H le c.inputstream c.swapbytes c.outputstream s).2.1,
            outputstream :=
              (handle_transaction_stream H le c.inputstream c.swapbytes c.outputstream s).2.2.1,
            swapbytes := c.swapbytes },
          (handle_transaction_stream H le c.inputstream c.swapbytes c.outputstream s).2.2.2)
      else (false, 0, c, s) := by
  simp only [process_step, ipbus_stream_state, if_neg hne, hpkt, ne_eq, not_true_eq_false,
    if_false]
  split <;>
    simp [IPBUS_ISTREAM_EMPTY, IPBUS_ISTREAM_PACKET, IPBUS_ISTREAM_PACKET_SWP_ORD,
      IPBUS_ISTREAM_PARTIAL_TRANS, IPBUS_ISTREAM_FULL_TRANS]

/-! ## Endianness mirroring -/

/-- C8 fails on the code: the word sequence `200000F0` (a packet header),
`20000040` (an RMW header whose info nibble is `SUCCESS`), `BEEFCAFE`, and the
same sequence with every word byte-swapped, each loaded into the input ring of
a client with the dummy handlers. In both runs, once the packet header is
consumed, the head is classified `FULL_TRANS` with a payload of one word,
`ipbus_decode_transaction` allocates a block of that one word, and
`ipbus_process_transaction` passes `words[0]`, `words[1]` and `words[2]` to
`handle_IPBUS_RMW`: the response word `(words[0] & words[1]) | words[2]` is
computed from two entries outside the block, so the output of neither run is
fixed by the input sequence. -/
theorem ipbus_process_input_stream_mirror_out_of_block :
    ipbus_detect_packet_header 0x200000F0 = IPBUS_ISTREAM_PACKET ∧
    [0x200000F0, 0x20000040, 0xBEEFCAFE].map bswap32 = [0xF0000020, 0x40000020, 0xFECAEFBE] ∧
    (ipbus_stream_state true
      (process_step dummyHandlers true
        { inputstream := cbuffer_of_net true [0x200000F0, 0x20000040, 0xBEEFCAFE],
          outputstream := cbuffer_new, swapbytes := 0 } ()).2.2.1.inputstream
      (process_step dummyHandlers true
        { inputstream := cbuffer_of_net true [0x200000F0, 0x20000040, 0xBEEFCAFE],
          outputstream := cbuffer_new, swapbytes := 0 } ()).2.2.1.swapbytes).1
      = IPBUS_ISTREAM_FULL_TRANS ∧
    (ipbus_decode_transaction true
      (process_step dummyHandlers true
        { inputstream := cbuffer_of_net true [0x200000F0, 0x20000040, 0xBEEFCAFE],
          outputstream := cbuffer_new, swapbytes := 0 } ()).2.2.1.inputstream
      (process_step dummyHandlers true
        { inputstream := cbuffer_of_net true [0x200000F0, 0x20000040, 0xBEEFCAFE],
          outputstream := cbuffer_new, swapbytes := 0 } ()).2.2.1.swapbytes).data.words
      = some [0xBEEFCAFE] ∧
    ipbus_process_transaction_reads
      (ipbus_decode_transaction true
        (process_step dummyHandlers true
          { inputstream := cbuffer_of_net true [0x200000F0, 0x20000040, 0xBEEFCAFE],
            outputstream := cbuffer_new, swapbytes := 0 } ()).2.2.1.inputstream
        (process_step dummyHandlers true
          { inputstream := cbuffer_of_net true [0x200000F0, 0x20000040, 0xBEEFCAFE],
            outputstream := cbuffer_new, swapbytes := 0 } ()).2.2.1.swapbytes)
      = [0, 1, 2] ∧
    (ipbus_stream_state true
      (process_step dummyHandlers true
        { inputstream := cbuffer_of_net true [0xF0000020, 0x40000020, 0xFECAEFBE],
          outputstream := cbuffer_new, swapbytes := 0 } ()).2.2.1.inputstream
      (process_step dummyHandlers true
        { inputstream := cbuffer_of_net true [0xF0000020, 0x40000020, 0xFECAEFBE],
          outputstream := cbuffer_new, swapbytes := 0 } ()).2.2.1.swapbytes).1
      = IPBUS_ISTREAM_FULL_TRANS ∧
    (ipbus_decode_transaction true
      (process_step dummyHandlers true
        { inputstream := cbuffer_of_net true [0xF0000020, 0x40000020, 0xFECAEFBE],
          outputstream := cbuffer_new, swapbytes := 0 } ()).2.2.1.inputstream
      (process_step dummyHandlers true
        { inputstream := cbuffer_of_net true [0xF0000020, 0x40000020, 0xFECAEFBE],
          outputstream := cbuffer_new, swapbytes := 0 } ()).2.2.1.swapbytes).data.words
      = some [0xBEEFCAFE] ∧
    ipbus_process_transaction_reads
      (ipbus_decode_transaction true
        (process_step dummyHandlers true
          { inputstream := cbuffer_of_net true [0xF0000020, 0x40000020, 0xFECAEFBE],
            outputstream := cbuffer_new, swapbytes := 0 } ()).2.2.1.inputstream
        (process_step dummyHandlers true
          { inputstream := cbuffer_of_net true [0xF0000020, 0x40000020, 0xFECAEFBE],
            outputstream := cbuffer_new, swapbytes := 0 } ()).2.2.1.swapbytes)
      = [0, 1, 2] := by
  refine ⟨by decide, by decide, by decide, by decide, by decide, by decide, by decide,
    by decide⟩

/-! ## Packet processor: whole packets -/

theorem request_word_wire (le : Bool) (b : CircularBuffer) (sw : Int) (i x : Nat)
    (hx : x < 4294967296) (hv : cbuffer_value_at b i = wire_word le sw x) :
    request_word le b sw i = x ∧
    cbuffer_value_at_net le b i = (if sw ≠ 0 then bswap32 x else x) := by
  have hb := bswap32_lt x
  have e : cbuffer_value_at_net le b i = (if sw ≠ 0 then bswap32 x else x) := by
    simp only [cbuffer_value_at_net, hv, wire_word]
    split
    · exact (network_host_inverse le _ hb).2
    · exact (network_host_inverse le _ hx).2
  refine ⟨?_, e⟩
  simp only [request_word, e]
  split
  · exact bswap32_bswap32 x hx
  · rfl

theorem cbuffer_contents_getElem (b : CircularBuffer) (i : Nat) (l : List Nat)
    (h : cbuffer_contents b = l) (hi : i < l.length) :
    cbuffer_value_at b i = l[i] := by
  subst h
  simp [cbuffer_contents]

theorem decode_header_word_header (id words type info : Nat) (hid : id < 4096)
    (hwords : words < 256) (htype : type < 16) (hinfo : info < 16) :
    (decode_header_word (ipbus_transaction_header 2 id words type info)).id = id ∧
    (decode_header_word (ipbus_transaction_header 2 id words type info)).words = words ∧
    (decode_header_word (ipbus_transaction_header 2 id words type info)).type = type ∧
    (decode_header_word (ipbus_transaction_header 2 id words type info)).info = info := by
  simp only [decode_header_word, and_0x0f, and_0xf0, and_0xff00, and_0x0fff0000,
    Nat.shiftRight_eq_div_pow, ipbus_transaction_header_eq]
  refine ⟨?_, ?_, ?_, ?_⟩ <;> omega

theorem spec_response_payload_congr (σ : Type) (H : Handlers σ) (type words : Nat)
    (pw1 pw2 : Nat → Nat) (s : σ)
    (h : ∀ i, i < ipbus_transaction_payload_size words type IPBUS_INFO_REQUEST →
      pw1 i = pw2 i) :
    spec_response_payload H type words pw1 s = spec_response_payload H type words pw2 s := by
  rw [ipbus_transaction_payload_size_request] at h
  simp only [spec_response_payload]
  split
  · rename_i ht
    rw [h 0 (by simp [ht])]
  · split
    · rename_i ht
      rw [h 0 (by simp [ht])]
    · split
      · rename_i ht
        have e0 := h 0 (by simp [ht, IPBUS_READ, IPBUS_NIREAD, IPBUS_WRITE, IPBUS_NIWRITE,
          IPBUS_RMW])
        have e1 := h 1 (by simp [ht, IPBUS_READ, IPBUS_NIREAD, IPBUS_WRITE, IPBUS_NIWRITE,
          IPBUS_RMW])
        have e2 := h 2 (by simp [ht, IPBUS_READ, IPBUS_NIREAD, IPBUS_WRITE, IPBUS_NIWRITE,
          IPBUS_RMW])
        rw [e0, e1, e2]
      · split
        · rename_i ht
          have e0 := h 0 (by simp [ht, IPBUS_READ, IPBUS_NIREAD, IPBUS_WRITE, IPBUS_NIWRITE,
            IPBUS_RMW, IPBUS_RMWSUM])
          have e1 := h 1 (by simp [ht, IPBUS_READ, IPBUS_NIREAD, IPBUS_WRITE, IPBUS_NIWRITE,
            IPBUS_RMW, IPBUS_RMWSUM])
          rw [e0, e1]
        · rfl

theorem request_encode_lt (r : Request) (hr : r.wellformed) :
    ∀ w ∈ r.encode, w < 4294967296 := by
  intro w hw
  simp only [Request.encode, List.mem_cons] at hw
  rcases hw with h | h
  · rw [h]; exact ipbus_transaction_header_lt _ _ _ _ _
  · exact hr.2.2.2.2 w h

theorem request_type_le (r : Request) (hr : r.wellformed) : r.type ≤ 5 := by
  rcases hr.2.2.1 with h | h | h | h | h | h <;> rw [h] <;> decide

theorem request_words_in_ring (le : Bool) (b : CircularBuffer) (sw : Int) (r : Request)
    (tail : List Nat) (hr : r.wellformed)
    (hcont : cbuffer_contents b = r.encode.map (wire_word le sw) ++ tail)
    (i : Nat) (hi : i < r.encode.length) :
    request_word le b sw i = r.encode[i] ∧
    cbuffer_value_at_net le b i = (if sw ≠ 0 then bswap32 r.encode[i] else r.encode[i]) := by
  have hv := cbuffer_contents_getElem b i _ hcont
    (by simp only [List.length_append, List.length_map]; omega)
  rw [List.getElem_append_left (by simpa using hi), List.getElem_map] at hv
  exact request_word_wire le b sw i _ (request_encode_lt r hr _ (List.getElem_mem _)) hv

theorem request_decoded (le : Bool) (b : CircularBuffer) (sw : Int) (r : Request)
    (tail : List Nat) (hr : r.wellformed) (hwf : cbuffer_wf b)
    (hcont : cbuffer_contents b = r.encode.map (wire_word le sw) ++ tail) :
    cbuffer_size b = 1 + r.payload.length + tail.length ∧
    ipbus_detect_packet_header (cbuffer_value_at_net le b 0) = 0 ∧
    (ipbus_decode_transaction_header le b sw).id = r.id ∧
    (ipbus_decode_transaction_header le b sw).words = r.words ∧
    (ipbus_decode_transaction_header le b sw).type = r.type ∧
    (ipbus_decode_transaction_header le b sw).info = IPBUS_INFO_REQUEST ∧
    (ipbus_decode_transaction_header le b sw).data.size = r.payload.length ∧
    (∀ i, i < r.payload.length → request_word le b sw (1 + i) = r.payload.getD i 0) ∧
    ipbus_decode_transaction le b sw = r.toTransaction := by
  obtain ⟨hid, hwords, htype, hlen, h32⟩ := hr
  have hr : r.wellformed := ⟨hid, hwords, htype, hlen, h32⟩
  have hsize : cbuffer_size b = 1 + r.payload.length + tail.length := by
    rw [← cbuffer_contents_length, hcont]
    simp only [List.length_append, List.length_map, Request.encode, List.length_cons]
    omega
  have hlt := cbuffer_size_lt b hwf
  simp only [IO_BUFFER_SIZE] at hlt
  obtain ⟨h0, hv0⟩ := request_words_in_ring le b sw r tail hr hcont 0
    (by simp [Request.encode])
  simp only [Request.encode, List.getElem_cons_zero] at h0 hv0
  have hdet : ipbus_detect_packet_header (cbuffer_value_at_net le b 0) = 0 := by
    rw [hv0]
    obtain ⟨d1, d2⟩ := ipbus_detect_packet_header_transaction r.id r.words r.type
      IPBUS_INFO_REQUEST (request_type_le r hr)
    split
    · exact d2
    · exact d1
  have ht16 : r.type < 16 := by have := request_type_le r hr; omega
  obtain ⟨f1, f2, f3, f4⟩ := decode_header_word_header r.id r.words r.type IPBUS_INFO_REQUEST
    hid hwords ht16 (by decide)
  have hdec : ipbus_decode_transaction_header le b sw
      = decode_header_word (ipbus_transaction_header 2 r.id r.words r.type
          IPBUS_INFO_REQUEST) := by
    rw [ipbus_decode_transaction_header_word, h0]
  have hds : (ipbus_decode_transaction_header le b sw).data.size = r.payload.length := by
    have e : (ipbus_decode_transaction_header le b sw).data.size
        = ipbus_transaction_payload_size
          (ipbus_decode_transaction_header le b sw).words
          (ipbus_decode_transaction_header le b sw).type
          (ipbus_decode_transaction_header le b sw).info % 256 := rfl
    rw [e, hdec, f2, f3, f4, ← hlen]
    omega
  have hpw : ∀ i, i < r.payload.length →
      request_word le b sw (1 + i) = r.payload.getD i 0 := by
    intro i hi
    obtain ⟨e1, _⟩ := request_words_in_ring le b sw r tail hr hcont (1 + i)
      (by simp only [Request.encode, List.length_cons]; omega)
    rw [e1]
    simp only [Request.encode, List.getD_eq_getElem?_getD]
    rw [List.getElem?_eq_getElem hi]
    simp [Nat.add_comm 1 i]
  refine ⟨hsize, hdet, by rw [hdec, f1], by rw [hdec, f2], by rw [hdec, f3],
    by rw [hdec, f4], hds, hpw, ?_⟩
  rw [ipbus_decode_transaction_eq, hds]
  simp only [Request.toTransaction, hdec, f1, f2, f3, f4]
  congr 3
  apply List.ext_getElem
  · simp
  · intro i h1 h2
    simp only [List.getElem_map, List.getElem_range]
    rw [hpw i h2, List.getD_eq_getElem?_getD, List.getElem?_eq_getElem h2]
    rfl

theorem process_step_request (σ : Type) (H : Handlers σ) (le : Bool) (c : Client) (s : σ)
    (r : Request) (tail : List Nat)
    (hin : cbuffer_wf c.inputstream) (hout : cbuffer_wf c.outputstream)
    (hH : reads_return_nwords H) (hr : r.wellformed)
    (hcont : cbuffer_contents c.inputstream
      = r.encode.map (wire_word le c.swapbytes) ++ tail)
    (hroom : (response_words H r s).length ≤ cbuffer_freespace c.outputstream) :
    (process_step H le c s).1 = true ∧
    (process_step H le c s).2.1 = r.encode.length ∧
    cbuffer_wf (process_step H le c s).2.2.1.inputstream ∧
    cbuffer_wf (process_step H le c s).2.2.1.outputstream ∧
    cbuffer_contents (process_step H le c s).2.2.1.inputstream = tail ∧
    cbuffer_contents (process_step H le c s).2.2.1.outputstream
      = cbuffer_contents c.outputstream
        ++ (response_words H r s).map (wire_word le c.swapbytes) ∧
    (process_step H le c s).2.2.1.swapbytes = c.swapbytes ∧
    (process_step H le c s).2.2.2 = (ipbus_process_transaction H r.toTransaction s).2 := by
  obtain ⟨hsize, hdet, d1, d2, d3, d4, d5, hpw, hdt⟩ :=
    request_decoded le c.inputstream c.swapbytes r tail hr hin hcont
  have hcongr := spec_response_payload_congr σ H r.type r.words
    (fun i => request_word le c.inputstream c.swapbytes (1 + i))
    (fun i => r.payload.getD i 0) s
    (fun i hi => hpw i (by rw [hr.2.2.2.1]; exact hi))
  have hlen := hr.2.2.2.1
  have haux := handle_transaction_stream_request_aux σ H le c.inputstream c.swapbytes
    c.outputstream s hin hout hH d4 (by rw [d3]; exact hr.2.2.1)
    (by rw [d2, d3, ← hlen, hsize]; omega)
  rw [d1, d2, d3, hcongr] at haux
  have hrl : (response_words H r s).length
      = 1 + (spec_response_payload H r.type r.words (fun i => r.payload.getD i 0) s).length := by
    simp only [response_words, List.length_cons]; omega
  by_cases hfree : 1 + ipbus_transaction_payload_size r.words r.type IPBUS_INFO_SUCCESS
      ≤ cbuffer_freespace c.outputstream
  · obtain ⟨a1, a2, a3, a4, a5, a6, a7⟩ := haux hfree
    rw [process_step_transaction σ H le c s (by omega) hdet, d5,
      if_pos (by omega : cbuffer_size c.inputstream ≥ r.payload.length + 1)]
    refine ⟨rfl, ?_, a6, a7, ?_, ?_, rfl, ?_⟩
    · simp only [a1, Request.encode, List.length_cons, hlen]; omega
    · simp only [a3]
      rw [hcont, ← hlen]
      have : 1 + r.payload.length = (r.encode.map (wire_word le c.swapbytes)).length := by
        simp only [List.length_map, Request.encode, List.length_cons]; omega
      rw [this, List.drop_left]
    · simp only [a5, response_words]
    · simp only [handle_transaction_stream, hdt]
  · exfalso
    apply hfree
    -- the length of the response payload does not depend on the ring
    have hproc := ipbus_process_transaction_request σ H r.toTransaction
      (fun i => r.payload.getD i 0) s hH hr.2.1 hr.2.2.1
      (fun i _ => by simp [Request.toTransaction, ipbus_payload_t.at])
    obtain ⟨_, _, _, _, p5, p6⟩ := hproc
    simp only [Request.toTransaction] at p5 p6
    have : (spec_response_payload H r.type r.words (fun i => r.payload.getD i 0) s).length
        = ipbus_transaction_payload_size r.words r.type IPBUS_INFO_SUCCESS := by
      rw [← p6, List.length_map, List.length_range, p5]
    omega

theorem ipbus_process_transaction_state (σ : Type) (H : Handlers σ) (r : Request) (s : σ) :
    (ipbus_process_transaction H r.toTransaction s).2
      = spec_handler_state H r.type r.words r.payload s := by
  simp only [ipbus_process_transaction, spec_handler_state, Request.toTransaction,
    ipbus_payload_t.at, Option.getD_some]
  split_ifs <;> rfl

theorem process_fuel_requests (σ : Type) (H : Handlers σ) (le : Bool)
    (hH : reads_return_nwords H) (reqs : List Request) :
    ∀ (c : Client) (s : σ), cbuffer_wf c.inputstream → cbuffer_wf c.outputstream →
      (∀ r ∈ reqs, r.wellformed) →
      cbuffer_contents c.inputstream
        = (encode_requests reqs).map (wire_word le c.swapbytes) →
      (responses H reqs s).1.length ≤ cbuffer_freespace c.outputstream →
      ∀ fuel, cbuffer_size c.inputstream + 1 ≤ fuel →
        ∃ res, ipbus_process_input_stream_fuel H le fuel c s = some res ∧
          res.1 = cbuffer_size c.inputstream ∧
          cbuffer_size res.2.1.inputstream = 0 ∧
          cbuffer_contents res.2.1.outputstream
            = cbuffer_contents c.outputstream
              ++ (responses H reqs s).1.map (wire_word le c.swapbytes) ∧
          res.2.1.swapbytes = c.swapbytes ∧
          res.2.2 = (responses H reqs s).2 := by
  induction reqs with
  | nil =>
    intro c s hin hout _ hcont _ fuel hfuel
    have hsz : cbuffer_size c.inputstream = 0 := by
      rw [← cbuffer_contents_length, hcont]; rfl
    obtain ⟨k, rfl⟩ : ∃ k, fuel = k + 1 := ⟨fuel - 1, by omega⟩
    refine ⟨(0, c, s), ?_, hsz.symm, hsz, ?_, rfl, rfl⟩
    · simp only [ipbus_process_input_stream_fuel, process_step_empty σ H le c s hsz, if_true]
    · simp [responses]
  | cons r rest ih =>
    intro c s hin hout hwf hcont hroom fuel hfuel
    have hr := hwf r (List.mem_cons_self _ _)
    have hcont2 : cbuffer_contents c.inputstream
        = r.encode.map (wire_word le c.swapbytes)
          ++ (encode_requests rest).map (wire_word le c.swapbytes) := by
      rw [hcont, encode_requests, List.map_append]
    have hresp : (responses H (r :: rest) s).1
        = response_words H r s
          ++ (responses H rest (ipbus_process_transaction H r.toTransaction s).2).1 := by
      rw [ipbus_process_transaction_state]; rfl
    have hresp2 : (responses H (r :: rest) s).2
        = (responses H rest (ipbus_process_transaction H r.toTransaction s).2).2 := by
      rw [ipbus_process_transaction_state]; rfl
    rw [hresp, List.length_append] at hroom
    obtain ⟨t1, t2, t3, t4, t5, t6, t7, t8⟩ := process_step_request σ H le c s r _ hin hout hH hr
      hcont2 (by omega)
    have hsz : cbuffer_size c.inputstream
        = r.encode.length + cbuffer_size (process_step H le c s).2.2.1.inputstream := by
      rw [← cbuffer_contents_length, ← cbuffer_contents_length, hcont2, t5]
      simp only [List.length_append, List.length_map]
    have hf1 := cbuffer_freespace_eq _ hout
    have hf2 := cbuffer_freespace_eq _ t4
    have hs2 : cbuffer_size (process_step H le c s).2.2.1.outputstream
        = cbuffer_size c.outputstream + (response_words H r s).length := by
      rw [← cbuffer_contents_length, ← cbuffer_contents_length, t6]
      simp only [List.length_append, List.length_map]
    have hel : 1 ≤ r.encode.length := by simp [Request.encode]
    obtain ⟨k, rfl⟩ : ∃ k, fuel = k + 1 := ⟨fuel - 1, by omega⟩
    obtain ⟨res, i1, i2, i3, i4, i5, i6⟩ := ih (process_step H le c s).2.2.1
      (process_step H le c s).2.2.2 t3 t4 (fun q hq => hwf q (List.mem_cons_of_mem _ hq))
      (by rw [t5, t7]) (by rw [t8]; omega) k (by omega)
    refine ⟨((process_step H le c s).2.1 + res.1, res.2.1, res.2.2), ?_, ?_, i3, ?_, ?_, ?_⟩
    · simp only [ipbus_process_input_stream_fuel, t1, Bool.true_eq_false, if_false, i1]
    · simp only [t2, i2, hsz]
    · rw [i4, t6, t7, hresp, t8, List.map_append, List.append_assoc]
    · rw [i5, t7]
    · rw [i6, t8, hresp2]

theorem mem_reads_return_nwords (le : Bool) : reads_return_nwords (memHandlers le) := by
  intro n b s _
  simp [memHandlers, handle_IPBUS_READ, handle_IPBUS_NIREAD]

/-- C6. The input ring holds a packet header `pkt` (in either byte order)
followed by complete, well-formed request transactions `T1 .. Tk`, encoded in
the byte order the header announces, and nothing else; the output ring has room
for the reply. `ipbus_process_input_stream` returns, empties the input ring and
appends to the output ring the packet header word followed by the responses to
`T1, .., Tk` in arrival order, in the client's byte order (for an empty output
ring these are its whole contents); each response is the one the handlers give
in the state the handler calls for the requests before it left, and the handler
state at the end is the one the call for `Tk` left. With the dummy handlers the
response to a READ of `n` words is the response header followed by the words
`1, 2, .., n`. -/
theorem ipbus_process_input_stream_packet (σ : Type) (H : Handlers σ) (le : Bool)
    (pkt : Nat) (reqs : List Request) (client : Client) (s : σ)
    (hin : cbuffer_wf client.inputstream) (hout : cbuffer_wf client.outputstream)
    (hH : reads_return_nwords H)
    (hpkt32 : pkt < 4294967296)
    (hdet : ipbus_detect_packet_header (network_to_host le pkt) ≠ 0)
    (hreqs : ∀ r ∈ reqs, r.wellformed)
    (hcont : cbuffer_contents client.inputstream
      = pkt :: (encode_requests reqs).map
          (wire_word le (packet_swapbytes (network_to_host le pkt))))
    (hroom : 1 + (responses H reqs s).1.length ≤ cbuffer_freespace client.outputstream) :
    (∃ res, ipbus_process_input_stream H le client s = some res ∧
      cbuffer_size res.2.1.inputstream = 0 ∧
      cbuffer_contents res.2.1.outputstream
        = cbuffer_contents client.outputstream
          ++ pkt :: (responses H reqs s).1.map
              (wire_word le (packet_swapbytes (network_to_host le pkt))) ∧
      res.1 = cbuffer_size client.inputstream ∧
      res.2.2 = (responses H reqs s).2) ∧
    ∀ q : Request, q.type = IPBUS_READ →
      response_words dummyHandlers q ()
        = ipbus_transaction_header 2 q.id q.words IPBUS_READ IPBUS_INFO_SUCCESS
          :: (List.range q.words).map (fun i => i + 1) := by
  constructor
  · obtain ⟨hsz, hv⟩ := cbuffer_contents_head _ _ _ hcont
    have hvn : cbuffer_value_at_net le client.inputstream 0 = network_to_host le pkt := by
      simp only [cbuffer_value_at_net, hv]
    have hstep := process_step_packet σ H le client s (by omega) (by rw [hvn]; exact hdet)
    rw [hvn] at hstep
    have hpush : (cbuffer_push_back_net le client.outputstream (network_to_host le pkt)).2
        = (cbuffer_push_back client.outputstream pkt).2 := by
      simp only [cbuffer_push_back_net, (network_host_inverse le pkt hpkt32).1]
    rw [hpush] at hstep
    obtain ⟨o1, o2, o3⟩ := cbuffer_push_back_ok client.outputstream pkt hout (by omega)
    have hf1 := cbuffer_freespace_eq _ hout
    have hf2 := cbuffer_freespace_eq _ o1
    have hin2 : cbuffer_wf (cbuffer_deletefront client.inputstream 1).2 :=
      (cbuffer_deletefront_wf _ _).2 hin.2
    have hc2 : cbuffer_contents (cbuffer_deletefront client.inputstream 1).2
        = (encode_requests reqs).map
            (wire_word le (packet_swapbytes (network_to_host le pkt))) := by
      rw [cbuffer_deletefront_contents _ _ hin, hcont]; rfl
    have hs2 : cbuffer_size (cbuffer_deletefront client.inputstream 1).2 + 1
        = cbuffer_size client.inputstream := by
      rw [← cbuffer_contents_length, hc2, hsz]
    obtain ⟨res, i1, i2, i3, i4, _, i6⟩ := process_fuel_requests σ H le hH reqs
      { inputstream := (cbuffer_deletefront client.inputstream 1).2,
        outputstream := (cbuffer_push_back client.outputstream pkt).2,
        swapbytes := packet_swapbytes (network_to_host le pkt) } s hin2 o1 hreqs hc2
      (by simp only; omega) (cbuffer_size client.inputstream) (by simp only; omega)
    refine ⟨(1 + res.1, res.2.1, res.2.2), ?_, i3, ?_, ?_, i6⟩
    · simp only [ipbus_process_input_stream, ipbus_process_input_stream_fuel, hstep,
        Bool.true_eq_false, if_false]
      simp only [packet_swapbytes] at i1
      rw [i1]
    · rw [i4]
      simp only [o3, List.append_assoc, List.singleton_append]
    · simp only [i2]; omega
  · intro q hq
    simp [response_words, spec_response_payload, hq, dummyHandlers, dummy_handle_IPBUS_READ]

/-- Witness for C6: on a little-endian host with the handlers of `handlers.c`
and a memory holding `EF` everywhere, the packet header `200000F0` followed by
a WRITE of the word `CAFEF00D` at offset 8 and a READ of one word at offset 8;
the READ response carries the word just written. -/
theorem ipbus_process_input_stream_packet_witness :
    ∃ res, ipbus_process_input_stream (memHandlers true) true
        { inputstream := cbuffer_of_net true
            [0x200000F0, 0x2001011F, 8, 0xCAFEF00D, 0x2002010F, 8],
          outputstream := cbuffer_new, swapbytes := 0 } (fun _ => 0xEF) = some res ∧
      cbuffer_size res.2.1.inputstream = 0 ∧
      cbuffer_contents res.2.1.outputstream
        = [0x200000F0, 0x20010110, 0x20020100, 0xCAFEF00D].map (host_to_network true) ∧
      mem_load32 true res.2.2 8 = 0xCAFEF00D := by
  obtain ⟨res, h1, h2, h3, _, h5⟩ := (ipbus_process_input_stream_packet Memory
    (memHandlers true) true (host_to_network true 0x200000F0)
    [{ id := 1, words := 1, type := IPBUS_WRITE, payload := [8, 0xCAFEF00D] },
      { id := 2, words := 1, type := IPBUS_READ, payload := [8] }]
    { inputstream := cbuffer_of_net true
        [0x200000F0, 0x2001011F, 8, 0xCAFEF00D, 0x2002010F, 8],
      outputstream := cbuffer_new, swapbytes := 0 } (fun _ => 0xEF)
    (by decide) (by decide) (mem_reads_return_nwords true) (by decide) (by decide)
    (by decide) (by decide) (by decide)).1
  refine ⟨res, h1, h2, h3.trans (by decide), ?_⟩
  rw [h5]
  decide

/-! ## Waiting, idempotence and the byte-order flag -/

/-- C11. When `ipbus_stream_state` returns `EMPTY` or `PARTIAL_TRANS` for the
client's input ring, `ipbus_process_input_stream` returns 0 and the client
(input ring, output ring and `swapbytes`) and the handler state are what they
were before the call. -/
theorem ipbus_process_input_stream_waits (σ : Type) (H : Handlers σ) (le : Bool)
    (client : Client) (s : σ)
    (h : (ipbus_stream_state le client.inputstream client.swapbytes).1 = IPBUS_ISTREAM_EMPTY ∨
      (ipbus_stream_state le client.inputstream client.swapbytes).1
        = IPBUS_ISTREAM_PARTIAL_TRANS) :
    ipbus_process_input_stream H le client s = some (0, client, s) := by
  have hk := ipbus_stream_state_swapbytes_kept le client.inputstream client.swapbytes
    (by rcases h with h | h <;> rw [h] <;> exact ⟨by decide, by decide⟩)
  have hstep : process_step H le client s = (false, 0, client, s) := by
    simp only [process_step, hk]
    rcases h with h | h <;> rw [h] <;>
      simp [IPBUS_ISTREAM_EMPTY, IPBUS_ISTREAM_PACKET, IPBUS_ISTREAM_PACKET_SWP_ORD,
        IPBUS_ISTREAM_PARTIAL_TRANS, IPBUS_ISTREAM_FULL_TRANS]
  simp only [ipbus_process_input_stream, ipbus_process_input_stream_fuel, hstep, if_true]

/-- Witness for C11: the input ring holds only the header of a WRITE request for
8 words (`2EEF081F`), without its 9-word payload. -/
theorem ipbus_process_input_stream_waits_witness :
    (ipbus_stream_state true (cbuffer_of_net true [0x2EEF081F]) 0).1
      = IPBUS_ISTREAM_PARTIAL_TRANS ∧
    ipbus_process_input_stream dummyHandlers true
        { inputstream := cbuffer_of_net true [0x2EEF081F], outputstream := cbuffer_new,
          swapbytes := 0 } ()
      = some (0, { inputstream := cbuffer_of_net true [0x2EEF081F],
                   outputstream := cbuffer_new, swapbytes := 0 }, ()) :=
  ⟨by decide,
    ipbus_process_input_stream_waits Unit dummyHandlers true
      { inputstream := cbuffer_of_net true [0x2EEF081F], outputstream := cbuffer_new,
        swapbytes := 0 } () (Or.inr (by decide))⟩

/-- C12. `ipbus_stream_state` takes the ring as `const CircularBuffer*` and only
calls `cbuffer_size` and `cbuffer_value_at_net` on it, so the ring (storage,
`pos`, `tail`) is the same before and after a call; a second call on that ring,
started from the `swapbytes` value the first call left, returns the same flag
and leaves the same `swapbytes` value as the first, for every ring and every
initial `swapbytes`. -/
theorem ipbus_stream_state_twice (le : Bool) (input_buffer : CircularBuffer)
    (swapbytes : Int) :
    ipbus_stream_state le input_buffer (ipbus_stream_state le input_buffer swapbytes).2
      = ipbus_stream_state le input_buffer swapbytes := by
  simp only [ipbus_stream_state]
  split
  · rfl
  · split
    · simp only [ne_eq, not_false_eq_true, if_true]
      rcases ipbus_detect_packet_header_range (cbuffer_value_at_net le input_buffer 0)
        with h | h | h <;>
        simp [h, IPBUS_ISTREAM_PACKET, IPBUS_ISTREAM_PACKET_SWP_ORD]
    · split <;> simp_all

/-- C13. `ipbus_stream_state` returns one of the five flags; it leaves
`swapbytes = 0` when it returns `PACKET` and `swapbytes = 1` when it returns
`PACKET_SWP_ORD`, whatever the previous value, and leaves `swapbytes` unchanged
when it returns `EMPTY`, `PARTIAL_TRANS` or `FULL_TRANS`. -/
theorem ipbus_stream_state_swapbytes (le : Bool) (input_buffer : CircularBuffer)
    (swapbytes : Int) :
    ((ipbus_stream_state le input_buffer swapbytes).1 = IPBUS_ISTREAM_PACKET ∧
      (ipbus_stream_state le input_buffer swapbytes).2 = 0) ∨
    ((ipbus_stream_state le input_buffer swapbytes).1 = IPBUS_ISTREAM_PACKET_SWP_ORD ∧
      (ipbus_stream_state le input_buffer swapbytes).2 = 1) ∨
    (((ipbus_stream_state le input_buffer swapbytes).1 = IPBUS_ISTREAM_EMPTY ∨
        (ipbus_stream_state le input_buffer swapbytes).1 = IPBUS_ISTREAM_PARTIAL_TRANS ∨
        (ipbus_stream_state le input_buffer swapbytes).1 = IPBUS_ISTREAM_FULL_TRANS) ∧
      (ipbus_stream_state le input_buffer swapbytes).2 = swapbytes) := by
  simp only [ipbus_stream_state]
  split
  · right; right; exact ⟨Or.inl rfl, rfl⟩
  · split
    · rename_i hne
      rcases ipbus_detect_packet_header_range (cbuffer_value_at_net le input_buffer 0)
        with h | h | h
      · exact absurd h hne
      · left; simp [h, IPBUS_ISTREAM_PACKET, IPBUS_ISTREAM_PACKET_SWP_ORD]
      · right; left; simp [h, IPBUS_ISTREAM_PACKET, IPBUS_ISTREAM_PACKET_SWP_ORD]
    · right; right
      split
      · exact ⟨Or.inr (Or.inr rfl), rfl⟩
      · exact ⟨Or.inr (Or.inl rfl), rfl⟩

/-! ## Framing: detection, payload table, header layout -/

theorem nibbles_of_bytes (a b c d : Nat) (ha : a < 256) (hb : b < 256) (hc : c < 256)
    (hd : d < 256) :
    (a + 256 * b + 65536 * c + 16777216 * d) / 16 % 16 = a / 16 ∧
    (a + 256 * b + 65536 * c + 16777216 * d) / 268435456 = d / 16 ∧
    (a + 256 * b + 65536 * c + 16777216 * d) / 268435456 % 16 = d / 16 := by
  have q : (a + 256 * b + 65536 * c + 16777216 * d) / 16777216 = d := by omega
  have q2 : (a + 256 * b + 65536 * c + 16777216 * d) / 268435456
      = (a + 256 * b + 65536 * c + 16777216 * d) / 16777216 / 16 := by
    rw [Nat.div_div_eq_div_mul]
  refine ⟨by omega, by rw [q2, q], by rw [q2, q]; omega⟩

/-- C14. For every 32-bit word `w`: `ipbus_detect_packet_header(w)` is 1
(`PACKET`) exactly when the top nibble of `w` is `0x2` and bits 7..4 are `0xf`;
it is 2 (`PACKET_SWP_ORD`) exactly when `bswap32(w)` has that pattern; it is 0
exactly when neither holds; no word has both patterns; and the result for
`bswap32(w)` is the result for `w` with 1 and 2 exchanged. -/
theorem ipbus_detect_packet_header_spec (w : Nat) (hw : w < 4294967296) :
    (ipbus_detect_packet_header w = IPBUS_ISTREAM_PACKET ↔
      (w / 268435456 = 2 ∧ w / 16 % 16 = 15)) ∧
    (ipbus_detect_packet_header w = IPBUS_ISTREAM_PACKET_SWP_ORD ↔
      (bswap32 w / 268435456 = 2 ∧ bswap32 w / 16 % 16 = 15)) ∧
    (ipbus_detect_packet_header w = 0 ↔
      (¬ (w / 268435456 = 2 ∧ w / 16 % 16 = 15) ∧
        ¬ (bswap32 w / 268435456 = 2 ∧ bswap32 w / 16 % 16 = 15))) ∧
    ¬ ((w / 268435456 = 2 ∧ w / 16 % 16 = 15) ∧
      (bswap32 w / 268435456 = 2 ∧ bswap32 w / 16 % 16 = 15)) ∧
    ipbus_detect_packet_header (bswap32 w) =
      (if ipbus_detect_packet_header w = IPBUS_ISTREAM_PACKET then
        IPBUS_ISTREAM_PACKET_SWP_ORD
      else if ipbus_detect_packet_header w = IPBUS_ISTREAM_PACKET_SWP_ORD then
        IPBUS_ISTREAM_PACKET
      else 0) := by
  obtain ⟨a, b, c, d, ha, hb, hc, hd, rfl⟩ := exists_bytes w hw
  rw [bswap32_bytes a b c d ha hb hc hd]
  obtain ⟨n1, n2, n3⟩ := nibbles_of_bytes a b c d ha hb hc hd
  obtain ⟨m1, m2, m3⟩ := nibbles_of_bytes d c b a hd hc hb ha
  simp only [ipbus_detect_packet_header_eq]
  rw [n1, n3, n2, m1, m3, m2]
  generalize a / 16 = p
  generalize d / 16 = q
  simp only [IPBUS_ISTREAM_PACKET, IPBUS_ISTREAM_PACKET_SWP_ORD]
  by_cases h1 : p = 2 <;> by_cases h2 : p = 15 <;> by_cases h3 : q = 2 <;>
    by_cases h4 : q = 15 <;> simp [h1, h2, h3, h4]

/-- Witness for C14: the packet header `20BEEFF0`. -/
theorem ipbus_detect_packet_header_spec_witness :
    ipbus_detect_packet_header 0x20BEEFF0 = IPBUS_ISTREAM_PACKET ∧
    ipbus_detect_packet_header (bswap32 0x20BEEFF0) = IPBUS_ISTREAM_PACKET_SWP_ORD :=
  ⟨(ipbus_detect_packet_header_spec 0x20BEEFF0 (by decide)).1.2 (by decide),
    ((ipbus_detect_packet_header_spec 0x20BEEFF0 (by decide)).2.2.2.2).trans (by decide)⟩

/-- C15. `ipbus_transaction_payload_size` is the protocol table, for every
`words`: READ and NIREAD give 1 for `REQUEST` and `words` for `SUCCESS`; WRITE
and NIWRITE give `words + 1` and 0; RMW gives 3 and 1; RMWSUM gives 2 and 1; and
for an info code other than `REQUEST` and `SUCCESS` the result is 0 for every
type. -/
theorem ipbus_transaction_payload_size_table (words : Nat) :
    ipbus_transaction_payload_size words IPBUS_READ IPBUS_INFO_REQUEST = 1 ∧
    ipbus_transaction_payload_size words IPBUS_READ IPBUS_INFO_SUCCESS = words ∧
    ipbus_transaction_payload_size words IPBUS_NIREAD IPBUS_INFO_REQUEST = 1 ∧
    ipbus_transaction_payload_size words IPBUS_NIREAD IPBUS_INFO_SUCCESS = words ∧
    ipbus_transaction_payload_size words IPBUS_WRITE IPBUS_INFO_REQUEST = words + 1 ∧
    ipbus_transaction_payload_size words IPBUS_WRITE IPBUS_INFO_SUCCESS = 0 ∧
    ipbus_transaction_payload_size words IPBUS_NIWRITE IPBUS_INFO_REQUEST = words + 1 ∧
    ipbus_transaction_payload_size words IPBUS_NIWRITE IPBUS_INFO_SUCCESS = 0 ∧
    ipbus_transaction_payload_size words IPBUS_RMW IPBUS_INFO_REQUEST = 3 ∧
    ipbus_transaction_payload_size words IPBUS_RMW IPBUS_INFO_SUCCESS = 1 ∧
    ipbus_transaction_payload_size words IPBUS_RMWSUM IPBUS_INFO_REQUEST = 2 ∧
    ipbus_transaction_payload_size words IPBUS_RMWSUM IPBUS_INFO_SUCCESS = 1 ∧
    ∀ type info : Nat, info ≠ IPBUS_INFO_REQUEST → info ≠ IPBUS_INFO_SUCCESS →
      ipbus_transaction_payload_size words type info = 0 := by
  refine ⟨?_, ?_, ?_, ?_, ?_, ?_, ?_, ?_, ?_, ?_, ?_, ?_, ?_⟩
  all_goals first
    | (intro type info h1 h2; simp [ipbus_transaction_payload_size, h1, h2])
    | simp [ipbus_transaction_payload_size, IPBUS_READ, IPBUS_NIREAD, IPBUS_WRITE,
        IPBUS_NIWRITE, IPBUS_RMW, IPBUS_RMWSUM, IPBUS_INFO_REQUEST, IPBUS_INFO_SUCCESS]

/-- C16. For all argument values, `ipbus_transaction_header(protocol, id, words,
type, info)` is a 32-bit word whose bits 31..28 are the low 4 bits of
`protocol`, bits 27..16 the low 12 bits of `id`, bits 15..8 the low 8 bits of
`words`, bits 7..4 the low 4 bits of `type` and bits 3..0 the low 4 bits of
`info`; no field depends on another argument. -/
theorem ipbus_transaction_header_layout (protocol id words type info : Nat) :
    ipbus_transaction_header protocol id words type info < 4294967296 ∧
    ipbus_transaction_header protocol id words type info / 268435456 = protocol % 16 ∧
    ipbus_transaction_header protocol id words type info / 65536 % 4096 = id % 4096 ∧
    ipbus_transaction_header protocol id words type info / 256 % 256 = words % 256 ∧
    ipbus_transaction_header protocol id words type info / 16 % 16 = type % 16 ∧
    ipbus_transaction_header protocol id words type info % 16 = info % 16 := by
  rw [ipbus_transaction_header_eq]
  refine ⟨?_, ?_, ?_, ?_, ?_, ?_⟩ <;> omega

/-! ## Encode and decode round trips -/

/-- C17. Header round trip. For `id < 2^12`, `words < 2^8`, `type < 2^4`,
`info < 2^4` and any `swapbytes`: when the head slot of a ring holds
`ipbus_transaction_header(2, id, words, type, info)` as the encoder writes it
for that `swapbytes` (byte-swapped when `swapbytes` is set, then through
`host_to_network` as `cbuffer_push_back_net` does),
`ipbus_decode_transaction_header(ring, swapbytes)` returns those `id`, `words`,
`type` and `info` and a `NULL` payload pointer. -/
theorem ipbus_decode_transaction_header_roundtrip (le : Bool) (ring : CircularBuffer)
    (swapbytes : Int) (id words type info : Nat)
    (hid : id < 4096) (hwords : words < 256) (htype : type < 16) (hinfo : info < 16)
    (hhead : cbuffer_value_at ring 0 =
      host_to_network le
        (if swapbytes ≠ 0 then bswap32 (ipbus_transaction_header 2 id words type info)
         else ipbus_transaction_header 2 id words type info)) :
    (ipbus_decode_transaction_header le ring swapbytes).id = id ∧
    (ipbus_decode_transaction_header le ring swapbytes).words = words ∧
    (ipbus_decode_transaction_header le ring swapbytes).type = type ∧
    (ipbus_decode_transaction_header le ring swapbytes).info = info ∧
    (ipbus_decode_transaction_header le ring swapbytes).data.words = none := by
  have h0 := (request_word_wire le ring swapbytes 0 _
    (ipbus_transaction_header_lt 2 id words type info) hhead).1
  rw [ipbus_decode_transaction_header_word, h0]
  obtain ⟨f1, f2, f3, f4⟩ := decode_header_word_header id words type info hid hwords htype hinfo
  exact ⟨f1, f2, f3, f4, rfl⟩

/-- Witness for C17: the READ request header of the repository's test
(`id = 0xFEE`, 5 words), written with `swapbytes = 1` on a little-endian host. -/
theorem ipbus_decode_transaction_header_roundtrip_witness :
    (ipbus_decode_transaction_header true
      (cbuffer_push_back_net true cbuffer_new
        (bswap32 (ipbus_transaction_header 2 0xFEE 5 IPBUS_READ IPBUS_INFO_REQUEST))).2 1).id
      = 0xFEE ∧
    (ipbus_decode_transaction_header true
      (cbuffer_push_back_net true cbuffer_new
        (bswap32 (ipbus_transaction_header 2 0xFEE 5 IPBUS_READ IPBUS_INFO_REQUEST))).2 1).words
      = 5 :=
  have h := ipbus_decode_transaction_header_roundtrip true
    (cbuffer_push_back_net true cbuffer_new
      (bswap32 (ipbus_transaction_header 2 0xFEE 5 IPBUS_READ IPBUS_INFO_REQUEST))).2 1
    0xFEE 5 IPBUS_READ IPBUS_INFO_REQUEST (by decide) (by decide) (by decide) (by decide)
    (by decide)
  ⟨h.1, h.2.1⟩

theorem cbuffer_contents_empty (b : CircularBuffer) (h : cbuffer_size b = 0) :
    cbuffer_contents b = [] := by
  simp [cbuffer_contents, h]

theorem payload_at_lt (p : ipbus_payload_t) (l : List Nat) (h : p.words = some l)
    (h32 : ∀ w ∈ l, w < 4294967296) (i : Nat) : p.at i < 4294967296 := by
  simp only [ipbus_payload_t.at, h, Option.getD_some]
  exact getD_lt_of_forall l i h32

/-- The words `ipbus_encode_transaction` writes for `t`, before the byte-order
steps: header, then `data.size` payload words. -/
theorem ipbus_encode_then_request_word (le : Bool) (ring : CircularBuffer)
    (t : ipbus_transaction_t) (swapbytes : Int) (l : List Nat)
    (hring : cbuffer_wf ring) (hempty : cbuffer_size ring = 0)
    (hfit : 1 + t.data.size ≤ 255)
    (hblock : t.data.words = some l) (h32 : ∀ w ∈ l, w < 4294967296) :
    cbuffer_size (ipbus_encode_transaction le ring t swapbytes) = 1 + t.data.size ∧
    request_word le (ipbus_encode_transaction le ring t swapbytes) swapbytes 0
      = ipbus_transaction_header 2 t.id t.words t.type t.info ∧
    ∀ i, i < t.data.size →
      request_word le (ipbus_encode_transaction le ring t swapbytes) swapbytes (1 + i)
        = t.data.at i := by
  have hf := cbuffer_freespace_eq ring hring
  obtain ⟨_, hc⟩ := ipbus_encode_transaction_contents le ring t swapbytes hring (by omega)
  rw [cbuffer_contents_empty ring hempty, List.nil_append] at hc
  have hlen : (List.map (wire_word le swapbytes)
      (ipbus_transaction_header 2 t.id t.words t.type t.info ::
        List.map t.data.at (List.range t.data.size))).length = 1 + t.data.size := by
    simp only [List.length_map, List.length_cons, List.length_range]; omega
  refine ⟨by rw [← cbuffer_contents_length, hc, hlen], ?_, ?_⟩
  · have hv := cbuffer_contents_getElem _ 0 _ hc (by rw [hlen]; omega)
    simp only [List.map_cons, List.getElem_cons_zero] at hv
    exact (request_word_wire le _ swapbytes 0 _ (ipbus_transaction_header_lt _ _ _ _ _) hv).1
  · intro i hi
    have hb : 1 + i < (List.map (wire_word le swapbytes)
        (ipbus_transaction_header 2 t.id t.words t.type t.info ::
          List.map t.data.at (List.range t.data.size))).length := by rw [hlen]; omega
    have hv := cbuffer_contents_getElem _ (1 + i) _ hc hb
    have e : (List.map (wire_word le swapbytes)
        (ipbus_transaction_header 2 t.id t.words t.type t.info ::
          List.map t.data.at (List.range t.data.size)))[1 + i]
        = wire_word le swapbytes (t.data.at i) := by
      simp [Nat.add_comm 1 i]
    rw [e] at hv
    exact (request_word_wire le _ swapbytes (1 + i) _ (payload_at_lt _ l hblock h32 i) hv).1

/-- C18, as stated, fails. First, a transaction whose `id` (a `uint16_t`) does
not fit the 12 header bits: `id = 0x1ACE`, WRITE, info `SUCCESS`, no payload,
comes back with `id = 0xACE`. Second, a transaction whose `data.size` is not
the payload size of its header: a READ request with `data.size = 0` comes back
with `data.size = 1`, the size the decoder derives from the header. -/
theorem ipbus_encode_decode_counterexample :
    (ipbus_decode_transaction true
      (ipbus_encode_transaction true cbuffer_new
        { id := 0x1ACE, words := 0, type := IPBUS_WRITE, info := IPBUS_INFO_SUCCESS,
          data := { size := 0, words := some [] } } 0) 0).id = 0xACE ∧
    (ipbus_decode_transaction true
      (ipbus_encode_transaction true cbuffer_new
        { id := 1, words := 5, type := IPBUS_READ, info := IPBUS_INFO_REQUEST,
          data := { size := 0, words := some [] } } 0) 0).data.size = 1 := by
  decide

/-- C18, amended. Let `t` be a transaction whose `id`, `words`, `type` and
`info` fit their header fields, whose `data.size` is
`payload_size(words, type, info)`, whose payload block holds that many 32-bit
words, and which fits the ring (`1 + data.size <= 255`). For either `swapbytes`,
`ipbus_encode_transaction(ring, t, swap)` into an empty ring followed by
`ipbus_decode_transaction(ring, swap)` yields `t`: the same `id`, `words`,
`type`, `info`, payload size and payload words. -/
theorem ipbus_encode_decode_roundtrip (le : Bool) (ring : CircularBuffer)
    (t : ipbus_transaction_t) (swapbytes : Int) (l : List Nat)
    (hring : cbuffer_wf ring) (hempty : cbuffer_size ring = 0)
    (hid : t.id < 4096) (hwords : t.words < 256) (htype : t.type < 16) (hinfo : t.info < 16)
    (hsize : t.data.size = ipbus_transaction_payload_size t.words t.type t.info)
    (hfit : 1 + t.data.size ≤ 255)
    (hblock : t.data.words = some l) (hlen : l.length = t.data.size)
    (h32 : ∀ w ∈ l, w < 4294967296) :
    ipbus_decode_transaction le (ipbus_encode_transaction le ring t swapbytes) swapbytes
      = t := by
  obtain ⟨_, h0, hpw⟩ := ipbus_encode_then_request_word le ring t swapbytes l hring hempty
    hfit hblock h32
  obtain ⟨f1, f2, f3, f4⟩ := decode_header_word_header t.id t.words t.type t.info hid hwords
    htype hinfo
  have hdec : ipbus_decode_transaction_header le
      (ipbus_encode_transaction le ring t swapbytes) swapbytes
      = decode_header_word (ipbus_transaction_header 2 t.id t.words t.type t.info) := by
    rw [ipbus_decode_transaction_header_word, h0]
  have hds : (decode_header_word
      (ipbus_transaction_header 2 t.id t.words t.type t.info)).data.size = t.data.size := by
    have e : (decode_header_word
        (ipbus_transaction_header 2 t.id t.words t.type t.info)).data.size
        = ipbus_transaction_payload_size
          (decode_header_word (ipbus_transaction_header 2 t.id t.words t.type t.info)).words
          (decode_header_word (ipbus_transaction_header 2 t.id t.words t.type t.info)).type
          (decode_header_word (ipbus_transaction_header 2 t.id t.words t.type t.info)).info
            % 256 := rfl
    rw [e, f2, f3, f4, ← hsize]
    omega
  have hl : (List.range t.data.size).map
      (fun i => request_word le (ipbus_encode_transaction le ring t swapbytes) swapbytes (1 + i))
      = l := by
    apply List.ext_getElem
    · simp [hlen]
    · intro i h1 h2
      simp only [List.getElem_map, List.getElem_range]
      rw [hpw i (by omega)]
      simp only [ipbus_payload_t.at, hblock, Option.getD_some, List.getD_eq_getElem?_getD]
      rw [List.getElem?_eq_getElem h2]
      rfl
  rw [ipbus_decode_transaction_eq, hdec, hds, hl]
  obtain ⟨id, words, type, info, size, blk⟩ := t
  simp only at f1 f2 f3 f4 hblock
  simp only [f1, f2, f3, f4, hblock]

/-- Witness for C18 (amended): the response to a READ of 3 words, encoded with
`swapbytes = 1` on a little-endian host. -/
theorem ipbus_encode_decode_roundtrip_witness :
    ipbus_decode_transaction true
      (ipbus_encode_transaction true cbuffer_new
        { id := 0xBAD, words := 3, type := IPBUS_READ, info := IPBUS_INFO_SUCCESS,
          data := { size := 3, words := some [0xBEEFCAFE, 2, 0xFFFFFFFF] } } 1) 1
      = { id := 0xBAD, words := 3, type := IPBUS_READ, info := IPBUS_INFO_SUCCESS,
          data := { size := 3, words := some [0xBEEFCAFE, 2, 0xFFFFFFFF] } } :=
  ipbus_encode_decode_roundtrip true cbuffer_new
    { id := 0xBAD, words := 3, type := IPBUS_READ, info := IPBUS_INFO_SUCCESS,
      data := { size := 3, words := some [0xBEEFCAFE, 2, 0xFFFFFFFF] } } 1
    [0xBEEFCAFE, 2, 0xFFFFFFFF]
    (by decide) (by decide) (by decide) (by decide) (by decide) (by decide) (by decide)
    (by decide) rfl (by decide) (by decide)

theorem wire_request_word (le : Bool) (ring : CircularBuffer) (swapbytes : Int) (i : Nat)
    (h : cbuffer_value_at ring i < 4294967296) :
    wire_word le swapbytes (request_word le ring swapbytes i) = cbuffer_value_at ring i := by
  have h1 := network_to_host_lt le _ h
  simp only [wire_word, request_word, cbuffer_value_at_net]
  split
  · rw [bswap32_bswap32 _ h1]
    exact (network_host_inverse le _ h).1
  · exact (network_host_inverse le _ h).1

theorem cbuffer_value_at_mem (ring : CircularBuffer) (i : Nat) (hi : i < cbuffer_size ring) :
    cbuffer_value_at ring i ∈ cbuffer_contents ring := by
  simp only [cbuffer_contents, List.mem_map, List.mem_range]
  exact ⟨i, hi, rfl⟩

theorem ipbus_transaction_header_of_fields (h : Nat) (hver : h / 268435456 = 2) :
    ipbus_transaction_header 2 (h / 65536 % 4096) (h / 256 % 256) (h / 16 % 16) (h % 16)
      = h := by
  rw [ipbus_transaction_header_eq]
  omega

/-- C19. Decoding then re-encoding reproduces the wire words. The ring holds
32-bit words and, from its head, a complete request transaction: the head word,
seen through `swapbytes`, has protocol version 2 and info `REQUEST`, and the
header and its payload are buffered. Encoding `ipbus_decode_transaction(ring,
swap)` with the same `swap` into an empty ring gives a ring of
`1 + payload_size(words, type, REQUEST)` words, and its raw words are the raw
words of the original transaction, in order. -/
theorem ipbus_decode_encode_wire (le : Bool) (ring out : CircularBuffer) (swapbytes : Int)
    (hring : cbuffer_wf ring) (hout : cbuffer_wf out) (hempty : cbuffer_size out = 0)
    (h32 : ∀ w ∈ cbuffer_contents ring, w < 4294967296)
    (hver : request_word le ring swapbytes 0 / 268435456 = 2)
    (hinfo : (ipbus_decode_transaction_header le ring swapbytes).info = IPBUS_INFO_REQUEST)
    (hcomplete :
      1 + ipbus_transaction_payload_size
          (ipbus_decode_transaction_header le ring swapbytes).words
          (ipbus_decode_transaction_header le ring swapbytes).type IPBUS_INFO_REQUEST
        ≤ cbuffer_size ring) :
    cbuffer_size
        (ipbus_encode_transaction le out (ipbus_decode_transaction le ring swapbytes) swapbytes)
      = 1 + ipbus_transaction_payload_size
          (ipbus_decode_transaction_header le ring swapbytes).words
          (ipbus_decode_transaction_header le ring swapbytes).type IPBUS_INFO_REQUEST ∧
    cbuffer_contents
        (ipbus_encode_transaction le out (ipbus_decode_transaction le ring swapbytes) swapbytes)
      = (cbuffer_contents ring).take
        (1 + ipbus_transaction_payload_size
          (ipbus_decode_transaction_header le ring swapbytes).words
          (ipbus_decode_transaction_header le ring swapbytes).type IPBUS_INFO_REQUEST) := by
  have hsz := cbuffer_size_lt ring hring
  simp only [IO_BUFFER_SIZE] at hsz
  have hds : (ipbus_decode_transaction le ring swapbytes).data.size
      = ipbus_transaction_payload_size
          (ipbus_decode_transaction_header le ring swapbytes).words
          (ipbus_decode_transaction_header le ring swapbytes).type IPBUS_INFO_REQUEST := by
    have e : (ipbus_decode_transaction le ring swapbytes).data.size
        = ipbus_transaction_payload_size
          (ipbus_decode_transaction_header le ring swapbytes).words
          (ipbus_decode_transaction_header le ring swapbytes).type
          (ipbus_decode_transaction_header le ring swapbytes).info % 256 := rfl
    rw [e, hinfo]
    omega
  generalize hP : ipbus_transaction_payload_size
      (ipbus_decode_transaction_header le ring swapbytes).words
      (ipbus_decode_transaction_header le ring swapbytes).type IPBUS_INFO_REQUEST = P
    at hds hcomplete ⊢
  have hf := cbuffer_freespace_eq out hout
  obtain ⟨_, hc⟩ := ipbus_encode_transaction_contents le out
    (ipbus_decode_transaction le ring swapbytes) swapbytes hout (by rw [hds]; omega)
  rw [cbuffer_contents_empty out hempty, List.nil_append, hds] at hc
  obtain ⟨g1, g2, g3, g4⟩ := ipbus_decode_transaction_header_fields le ring swapbytes
  have hhdr : ipbus_transaction_header 2 (ipbus_decode_transaction le ring swapbytes).id
      (ipbus_decode_transaction le ring swapbytes).words
      (ipbus_decode_transaction le ring swapbytes).type
      (ipbus_decode_transaction le ring swapbytes).info
      = request_word le ring swapbytes 0 := by
    have e1 : (ipbus_decode_transaction le ring swapbytes).id
        = (ipbus_decode_transaction_header le ring swapbytes).id := rfl
    have e2 : (ipbus_decode_transaction le ring swapbytes).words
        = (ipbus_decode_transaction_header le ring swapbytes).words := rfl
    have e3 : (ipbus_decode_transaction le ring swapbytes).type
        = (ipbus_decode_transaction_header le ring swapbytes).type := rfl
    have e4 : (ipbus_decode_transaction le ring swapbytes).info
        = (ipbus_decode_transaction_header le ring swapbytes).info := rfl
    rw [e1, e2, e3, e4, g1, g2, g3, g4]
    exact ipbus_transaction_header_of_fields _ hver
  have hlist : (ipbus_transaction_header 2 (ipbus_decode_transaction le ring swapbytes).id
        (ipbus_decode_transaction le ring swapbytes).words
        (ipbus_decode_transaction le ring swapbytes).type
        (ipbus_decode_transaction le ring swapbytes).info ::
      List.map (ipbus_decode_transaction le ring swapbytes).data.at (List.range P)).map
        (wire_word le swapbytes)
      = (cbuffer_contents ring).take (1 + P) := by
    apply List.ext_getElem
    · simp only [List.length_map, List.length_cons, List.length_range, List.length_take,
        cbuffer_contents_length]
      omega
    · intro i h1 h2
      simp only [List.length_map, List.length_cons, List.length_range] at h1
      have hval : cbuffer_value_at ring i < 4294967296 :=
        h32 _ (cbuffer_value_at_mem ring i (by omega))
      simp only [List.getElem_take, cbuffer_contents, List.getElem_map, List.getElem_range]
      rw [← wire_request_word le ring swapbytes i hval]
      congr 1
      cases i with
      | zero => simp only [List.getElem_cons_zero]; exact hhdr
      | succ j =>
        simp only [List.getElem_cons_succ, List.getElem_map, List.getElem_range]
        rw [ipbus_decode_transaction_at le ring swapbytes j
          (by have : (ipbus_decode_transaction_header le ring swapbytes).data.size = P := hds
              omega), Nat.add_comm 1 j]
  rw [hlist] at hc
  refine ⟨?_, hc⟩
  rw [← cbuffer_contents_length, hc, List.length_take, cbuffer_contents_length]
  omega

/-- Witness for C19: the WRITE request of the repository's test (5 words: header,
base address, data 0..4), little-endian host, `swapbytes = 0`. -/
theorem ipbus_decode_encode_wire_witness :
    cbuffer_contents
        (ipbus_encode_transaction true cbuffer_new
          (ipbus_decode_transaction true
            (cbuffer_of_net true [0x2ACE051F, 0xBEEFFACE, 0, 1, 2, 3, 4]) 0) 0)
      = cbuffer_contents (cbuffer_of_net true [0x2ACE051F, 0xBEEFFACE, 0, 1, 2, 3, 4]) :=
  (ipbus_decode_encode_wire true (cbuffer_of_net true [0x2ACE051F, 0xBEEFFACE, 0, 1, 2, 3, 4])
    cbuffer_new 0 (by decide) (by decide) (by decide) (by decide) (by decide) (by decide)
    (by decide)).2.trans (by decide)

/-! ## Dispatcher and a full output ring -/

/-- Pushing a list of words, one `cbuffer_push_back` each with the return value
dropped, appends the words there is room for and loses the rest. -/
theorem cbuffer_push_list_overflow (ws : List Nat) :
    ∀ b : CircularBuffer, cbuffer_wf b →
      cbuffer_wf (ws.foldl (fun b w => (cbuffer_push_back b w).2) b) ∧
      cbuffer_contents (ws.foldl (fun b w => (cbuffer_push_back b w).2) b)
        = cbuffer_contents b ++ ws.take (cbuffer_freespace b) := by
  induction ws with
  | nil => intro b h; simp [h]
  | cons w rest ih =>
    intro b h
    simp only [List.foldl_cons]
    by_cases hf : cbuffer_freespace b < 1
    · rw [cbuffer_push_back_full b w hf]
      obtain ⟨i1, i2⟩ := ih b h
      have h0 : cbuffer_freespace b = 0 := by omega
      refine ⟨i1, ?_⟩
      rw [i2, h0]
      simp
    · obtain ⟨h1, h2, h3⟩ := cbuffer_push_back_ok b w h (by omega)
      have e1 := cbuffer_freespace_eq b h
      have e2 := cbuffer_freespace_eq _ h1
      obtain ⟨i1, i2⟩ := ih _ h1
      refine ⟨i1, ?_⟩
      have hfs : cbuffer_freespace b = cbuffer_freespace (cbuffer_push_back b w).2 + 1 := by
        omega
      rw [i2, h3, hfs, List.take_succ_cons, List.append_assoc, List.singleton_append]

/-- What `ipbus_encode_transaction` leaves in the ring, whatever the free space:
the first `cbuffer_freespace` words of the header and payload. -/
theorem ipbus_encode_transaction_overflow (le : Bool) (into : CircularBuffer)
    (t : ipbus_transaction_t) (swapbytes : Int) (h : cbuffer_wf into) :
    cbuffer_contents (ipbus_encode_transaction le into t swapbytes)
      = cbuffer_contents into ++
        ((ipbus_transaction_header 2 t.id t.words t.type t.info ::
          (List.range t.data.size).map t.data.at).map (wire_word le swapbytes)).take
          (cbuffer_freespace into) := by
  have e : ipbus_encode_transaction le into t swapbytes
      = ((ipbus_transaction_header 2 t.id t.words t.type t.info ::
          (List.range t.data.size).map t.data.at).map (wire_word le swapbytes)).foldl
          (fun b w => (cbuffer_push_back b w).2) into := by
    simp only [ipbus_encode_transaction, cbuffer_push_back_net, List.map_cons, List.foldl_cons,
      List.foldl_map, wire_word]
  rw [e]
  exact (cbuffer_push_list_overflow _ into h).2

/-- C20 fails on the code: a READ request for 255 words (`2000FF0F`, then the
address) at the head of the input ring, and an empty output ring.
`ipbus_stream_state` answers `FULL_TRANS` and `handle_transaction_stream`
consumes the two request words, but the response is 256 words and the ring
holds at most 255: `cbuffer_push_back_net` returns -1 for the last payload word,
`ipbus_encode_transaction` drops that return value, and the output ring ends
with the first 255 words of the response only. -/
theorem handle_transaction_stream_truncated_response :
    (ipbus_stream_state true (cbuffer_of_net true [0x2000FF0F, 0xBEEFCAFE]) 0).1
      = IPBUS_ISTREAM_FULL_TRANS ∧
    (handle_transaction_stream dummyHandlers true
      (cbuffer_of_net true [0x2000FF0F, 0xBEEFCAFE]) 0 cbuffer_new ()).1 = 2 ∧
    cbuffer_size (handle_transaction_stream dummyHandlers true
      (cbuffer_of_net true [0x2000FF0F, 0xBEEFCAFE]) 0 cbuffer_new ()).2.1 = 0 ∧
    cbuffer_contents (handle_transaction_stream dummyHandlers true
      (cbuffer_of_net true [0x2000FF0F, 0xBEEFCAFE]) 0 cbuffer_new ()).2.2.1
      = ((ipbus_transaction_header 2 0 255 IPBUS_READ IPBUS_INFO_SUCCESS ::
          (List.range 255).map (fun i => i + 1)).map (wire_word true 0)).take 255 ∧
    cbuffer_size (handle_transaction_stream dummyHandlers true
      (cbuffer_of_net true [0x2000FF0F, 0xBEEFCAFE]) 0 cbuffer_new ()).2.2.1 = 255 ∧
    1 + ipbus_transaction_payload_size 255 IPBUS_READ IPBUS_INFO_SUCCESS = 256 := by
  have hw : (ipbus_decode_transaction true
      (cbuffer_of_net true [0x2000FF0F, 0xBEEFCAFE]) 0).words = 255 := by decide
  have ht : (ipbus_decode_transaction true
      (cbuffer_of_net true [0x2000FF0F, 0xBEEFCAFE]) 0).type = IPBUS_READ := by decide
  have hi : (ipbus_decode_transaction true
      (cbuffer_of_net true [0x2000FF0F, 0xBEEFCAFE]) 0).id = 0 := by decide
  obtain ⟨p1, p2, p3, p4, p5, p6⟩ := ipbus_process_transaction_request Unit dummyHandlers
    (ipbus_decode_transaction true (cbuffer_of_net true [0x2000FF0F, 0xBEEFCAFE]) 0)
    (ipbus_decode_transaction true (cbuffer_of_net true [0x2000FF0F, 0xBEEFCAFE]) 0).data.at
    () dummy_reads_return_nwords (by rw [hw]; decide) (Or.inl ht) (fun i _ => rfl)
  have hpay : spec_response_payload dummyHandlers
      (ipbus_decode_transaction true (cbuffer_of_net true [0x2000FF0F, 0xBEEFCAFE]) 0).type
      (ipbus_decode_transaction true (cbuffer_of_net true [0x2000FF0F, 0xBEEFCAFE]) 0).words
      (ipbus_decode_transaction true (cbuffer_of_net true [0x2000FF0F, 0xBEEFCAFE]) 0).data.at
      () = (List.range 255).map (fun i => i + 1) := by
    rw [ht, hw]
    simp [spec_response_payload, dummyHandlers, dummy_handle_IPBUS_READ]
  have hc : cbuffer_contents (handle_transaction_stream dummyHandlers true
      (cbuffer_of_net true [0x2000FF0F, 0xBEEFCAFE]) 0 cbuffer_new ()).2.2.1
      = ((ipbus_transaction_header 2 0 255 IPBUS_READ IPBUS_INFO_SUCCESS ::
          (List.range 255).map (fun i => i + 1)).map (wire_word true 0)).take 255 := by
    simp only [handle_transaction_stream]
    rw [ipbus_encode_transaction_overflow true cbuffer_new _ 0 cbuffer_new_wf,
      cbuffer_new_contents, List.nil_append, p1, p2, p3, p4, p6, hpay, hi, hw, ht]
    rfl
  refine ⟨by decide, by decide, by decide, hc, ?_, by decide⟩
  rw [← cbuffer_contents_length, hc]
  simp

/-! ## Ring invariants -/

theorem cbuffer_append_wf (b : CircularBuffer) (data : List Nat) (n : Nat)
    (h : cbuffer_wf b) : cbuffer_wf (cbuffer_append b data n).2 := by
  by_cases hn : n ≤ cbuffer_freespace b
  · exact (cbuffer_append_ok b data n h hn).2.1
  · simp only [cbuffer_append, if_pos (Nat.lt_of_not_le hn)]
    exact h

theorem cbuffer_transfer_data_wf (src dst : CircularBuffer) (hs : cbuffer_wf src)
    (hd : cbuffer_wf dst) :
    cbuffer_wf (cbuffer_transfer_data src dst).2.1 ∧
      cbuffer_wf (cbuffer_transfer_data src dst).2.2 := by
  constructor
  · simp only [cbuffer_transfer_data, cbuffer_pop]
    exact (cbuffer_deletefront_wf _ _).2 hs.2
  · simp only [cbuffer_transfer_data]
    exact cbuffer_append_wf _ _ _ hd

theorem cbuffer_reachable_wf (b : CircularBuffer) (h : cbuffer_reachable b) : cbuffer_wf b := by
  induction h with
  | new => exact cbuffer_new_wf
  | append b data n _ ih => exact cbuffer_append_wf b data n ih
  | push_back b w _ ih => exact cbuffer_push_back_wf b w ih
  | push_back_net le b w _ ih => exact cbuffer_push_back_wf b _ ih
  | deletefront b n _ ih => exact (cbuffer_deletefront_wf b n).2 ih.2
  | pop b n _ ih => exact (cbuffer_deletefront_wf b n).2 ih.2
  | pop_front b _ ih =>
    simp only [cbuffer_pop_front]
    split
    · exact ih
    · exact (cbuffer_deletefront_wf b 1).2 ih.2
  | transfer_source s d _ _ ihs ihd => exact (cbuffer_transfer_data_wf s d ihs ihd).1
  | transfer_destination s d _ _ ihs ihd => exact (cbuffer_transfer_data_wf s d ihs ihd).2

theorem cbuffer_size_eq_mod (b : CircularBuffer) (h : cbuffer_wf b) :
    (cbuffer_size b : Int) = ((b.tail : Int) - (b.pos : Int)) % (IO_BUFFER_SIZE : Int) := by
  obtain ⟨hp, ht⟩ := h
  simp only [IO_BUFFER_SIZE] at hp ht
  simp only [cbuffer_size, IO_BUFFER_SIZE]
  split <;> omega

/-- C22. Every ring reachable from `cbuffer_new()` by `cbuffer_append`,
`cbuffer_push_back`, `cbuffer_push_back_net`, `cbuffer_deletefront`,
`cbuffer_pop`, `cbuffer_pop_front` and `cbuffer_transfer_data` has `pos` and
`tail` below `IO_BUFFER_SIZE`, has `cbuffer_size` equal to `(tail - pos) mod
IO_BUFFER_SIZE`, has `cbuffer_size + cbuffer_freespace = IO_BUFFER_SIZE - 1`, and
so stores at most `IO_BUFFER_SIZE - 1` words; the ring `cbuffer_new()` returns
has size 0 and freespace `IO_BUFFER_SIZE - 1`. -/
theorem cbuffer_reachable_invariant (buf : CircularBuffer) (h : cbuffer_reachable buf) :
    (buf.pos < IO_BUFFER_SIZE ∧ buf.tail < IO_BUFFER_SIZE) ∧
    (cbuffer_size buf : Int)
      = ((buf.tail : Int) - (buf.pos : Int)) % (IO_BUFFER_SIZE : Int) ∧
    cbuffer_size buf + cbuffer_freespace buf = IO_BUFFER_SIZE - 1 ∧
    cbuffer_size buf ≤ IO_BUFFER_SIZE - 1 ∧
    (cbuffer_contents buf).length ≤ IO_BUFFER_SIZE - 1 ∧
    cbuffer_size cbuffer_new = 0 ∧
    cbuffer_freespace cbuffer_new = IO_BUFFER_SIZE - 1 := by
  have hwf := cbuffer_reachable_wf buf h
  have hf := cbuffer_freespace_eq buf hwf
  have hl := cbuffer_contents_length buf
  refine ⟨hwf, cbuffer_size_eq_mod buf hwf, ?_, ?_, ?_, by decide, by decide⟩ <;>
    simp only [IO_BUFFER_SIZE] <;> omega

/-- Witness for C22: the ring left by appending three words to a new ring,
deleting one and pushing one. -/
theorem cbuffer_reachable_invariant_witness :
    cbuffer_reachable
      (cbuffer_push_back (cbuffer_deletefront (cbuffer_append cbuffer_new [7, 8, 9] 3).2 1).2
        10).2 ∧
    cbuffer_size
      (cbuffer_push_back (cbuffer_deletefront (cbuffer_append cbuffer_new [7, 8, 9] 3).2 1).2
        10).2 = 3 ∧
    cbuffer_size
        (cbuffer_push_back (cbuffer_deletefront (cbuffer_append cbuffer_new [7, 8, 9] 3).2 1).2
          10).2
      + cbuffer_freespace
        (cbuffer_push_back (cbuffer_deletefront (cbuffer_append cbuffer_new [7, 8, 9] 3).2 1).2
          10).2 = IO_BUFFER_SIZE - 1 :=
  ⟨.push_back _ _ (.deletefront _ _ (.append _ _ _ .new)), by decide,
    (cbuffer_reachable_invariant _
      (.push_back _ _ (.deletefront _ _ (.append _ _ _ .new)))).2.2.1⟩

/-! ## Ring reads and removals -/

theorem cbuffer_contents_getD (b : CircularBuffer) (i : Nat) (hi : i < cbuffer_size b) :
    (cbuffer_contents b).getD i 0 = cbuffer_value_at b i := by
  have hl : i < (cbuffer_contents b).length := by rw [cbuffer_contents_length]; exact hi
  rw [List.getD_eq_getElem _ _ hl]
  exact (cbuffer_contents_getElem b i _ rfl hl).symm

theorem cbuffer_pop_eq (b : CircularBuffer) (n : Nat) (h : cbuffer_wf b) :
    cbuffer_pop b n = ((cbuffer_contents b).take n, (cbuffer_deletefront b n).2) := by
  simp only [cbuffer_pop, cbuffer_read_eq b n h, List.take_take]
  congr 1
  by_cases hn : n ≤ cbuffer_size b
  · rw [Nat.min_eq_left hn, Nat.min_self]
  · have h2 : (cbuffer_contents b).length ≤ n := by
      rw [cbuffer_contents_length]; omega
    rw [Nat.min_eq_right (Nat.le_of_lt (Nat.lt_of_not_le hn)),
      Nat.min_eq_left (Nat.le_of_lt (Nat.lt_of_not_le hn)),
      List.take_of_length_le (by rw [cbuffer_contents_length]),
      List.take_of_length_le h2]

/-- C23. On a ring whose cursors index the storage, `cbuffer_read(buf, dest, n)`
returns `k = min(n, cbuffer_size(buf))` and writes exactly `k` words, `dest[i]`
being `cbuffer_value_at(buf, i)` for every `i < k`, whether or not the stored
region wraps past the end of the storage. The ring is a `const` argument: the
function yields the count and the destination words only. -/
theorem cbuffer_read_spec (buf : CircularBuffer) (n : Nat) (h : cbuffer_wf buf) :
    (cbuffer_read buf n).1 = min n (cbuffer_size buf) ∧
    (cbuffer_read buf n).2.length = min n (cbuffer_size buf) ∧
    ∀ i, i < min n (cbuffer_size buf) →
      (cbuffer_read buf n).2.getD i 0 = cbuffer_value_at buf i := by
  rw [cbuffer_read_eq buf n h]
  refine ⟨rfl, ?_, ?_⟩
  · simp only [List.length_take, cbuffer_contents_length]
  · intro i hi
    have hl : i < ((cbuffer_contents buf).take n).length := by
      simp only [List.length_take, cbuffer_contents_length]; exact hi
    rw [List.getD_eq_getElem _ _ hl, List.getElem_take]
    have hl2 : i < (cbuffer_contents buf).length := by
      rw [cbuffer_contents_length]; omega
    exact (cbuffer_contents_getElem buf i _ rfl hl2).symm

/-- Witness for C23: the wrapped ring of the repository's test (both cursors at
`IO_BUFFER_SIZE - 5`, then 11 words appended), read for 8 words. -/
theorem cbuffer_read_spec_witness :
    cbuffer_wf (cbuffer_append { data := fun _ => 0, tail := 251, pos := 251 }
      [0, 1, 2, 3, 4, 5, 6, 7, 8, 9, 10] 11).2 ∧
    (cbuffer_read (cbuffer_append { data := fun _ => 0, tail := 251, pos := 251 }
      [0, 1, 2, 3, 4, 5, 6, 7, 8, 9, 10] 11).2 8).2 = [0, 1, 2, 3, 4, 5, 6, 7] ∧
    (cbuffer_read (cbuffer_append { data := fun _ => 0, tail := 251, pos := 251 }
      [0, 1, 2, 3, 4, 5, 6, 7, 8, 9, 10] 11).2 8).2.length
      = min 8 (cbuffer_size (cbuffer_append { data := fun _ => 0, tail := 251, pos := 251 }
          [0, 1, 2, 3, 4, 5, 6, 7, 8, 9, 10] 11).2) :=
  ⟨by decide, by decide,
    (cbuffer_read_spec (cbuffer_append { data := fun _ => 0, tail := 251, pos := 251 }
      [0, 1, 2, 3, 4, 5, 6, 7, 8, 9, 10] 11).2 8 (by decide)).2.1⟩

/-- C24. On a ring whose cursors index the storage, `cbuffer_deletefront(buf, n)`
returns `k = min(n, cbuffer_size(buf))`; afterwards the size is smaller by
exactly `k`, `cbuffer_value_at(buf, i)` is the previous
`cbuffer_value_at(buf, i + k)` for every `i` below the new size, and `tail` and
the storage are the previous ones. -/
theorem cbuffer_deletefront_spec (buf : CircularBuffer) (n : Nat) (h : cbuffer_wf buf) :
    (cbuffer_deletefront buf n).1 = min n (cbuffer_size buf) ∧
    cbuffer_size (cbuffer_deletefront buf n).2 + min n (cbuffer_size buf)
      = cbuffer_size buf ∧
    (∀ i, i < cbuffer_size (cbuffer_deletefront buf n).2 →
      cbuffer_value_at (cbuffer_deletefront buf n).2 i
        = cbuffer_value_at buf (i + min n (cbuffer_size buf))) ∧
    (cbuffer_deletefront buf n).2.tail = buf.tail ∧
    (cbuffer_deletefront buf n).2.data = buf.data := by
  refine ⟨rfl, ?_, ?_, rfl, rfl⟩
  · rw [cbuffer_deletefront_size buf n h]; omega
  · intro i _
    simp only [cbuffer_value_at, cbuffer_deletefront, IO_BUFFER_SIZE]
    congr 1
    omega

/-- Witness for C24: the wrapped ring of the repository's test, 7 words deleted
so that `pos` wraps to 2. -/
theorem cbuffer_deletefront_spec_witness :
    cbuffer_wf (cbuffer_append { data := fun _ => 0, tail := 251, pos := 251 }
      [0, 1, 2, 3, 4, 5, 6, 7, 8, 9, 10] 11).2 ∧
    (cbuffer_deletefront (cbuffer_append { data := fun _ => 0, tail := 251, pos := 251 }
      [0, 1, 2, 3, 4, 5, 6, 7, 8, 9, 10] 11).2 7).2.pos = 2 ∧
    cbuffer_size (cbuffer_deletefront
        (cbuffer_append { data := fun _ => 0, tail := 251, pos := 251 }
          [0, 1, 2, 3, 4, 5, 6, 7, 8, 9, 10] 11).2 7).2
      + min 7 (cbuffer_size (cbuffer_append { data := fun _ => 0, tail := 251, pos := 251 }
          [0, 1, 2, 3, 4, 5, 6, 7, 8, 9, 10] 11).2)
      = cbuffer_size (cbuffer_append { data := fun _ => 0, tail := 251, pos := 251 }
          [0, 1, 2, 3, 4, 5, 6, 7, 8, 9, 10] 11).2 :=
  ⟨by decide, by decide,
    (cbuffer_deletefront_spec (cbuffer_append { data := fun _ => 0, tail := 251, pos := 251 }
      [0, 1, 2, 3, 4, 5, 6, 7, 8, 9, 10] 11).2 7 (by decide)).2.1⟩

/-- C25. On a ring whose cursors index the storage, `cbuffer_pop(buf, n)` is
`cbuffer_read` followed by `cbuffer_deletefront`: the linear buffer it returns
has exactly `min(n, cbuffer_size(buf))` words, they are the words
`cbuffer_read(buf, ., n)` writes, and the ring is left as
`cbuffer_deletefront(buf, n)` leaves it, so that the words returned followed by
the words still stored are the words stored before; popping from an empty ring
returns a buffer of size 0. -/
theorem cbuffer_pop_spec (buf : CircularBuffer) (n : Nat) (h : cbuffer_wf buf) :
    (cbuffer_pop buf n).1.length = min n (cbuffer_size buf) ∧
    (cbuffer_pop buf n).1 = (cbuffer_read buf n).2 ∧
    (cbuffer_pop buf n).2 = (cbuffer_deletefront buf n).2 ∧
    (cbuffer_pop buf n).1 ++ cbuffer_contents (cbuffer_pop buf n).2 = cbuffer_contents buf ∧
    (cbuffer_size buf = 0 → (cbuffer_pop buf n).1.length = 0) := by
  rw [cbuffer_pop_eq buf n h, cbuffer_read_eq buf n h]
  refine ⟨?_, rfl, rfl, ?_, ?_⟩
  · simp only [List.length_take, cbuffer_contents_length]
  · simp only [cbuffer_deletefront_contents buf n h, List.take_append_drop]
  · intro h0
    simp only [List.length_take, cbuffer_contents_length, h0, Nat.min_zero]

/-- Witness for C25: the wrapped ring of the repository's test, popped for 5
words. -/
theorem cbuffer_pop_spec_witness :
    cbuffer_wf (cbuffer_append { data := fun _ => 0, tail := 251, pos := 251 }
      [0, 1, 2, 3, 4, 5, 6, 7, 8, 9, 10] 11).2 ∧
    (cbuffer_pop (cbuffer_append { data := fun _ => 0, tail := 251, pos := 251 }
      [0, 1, 2, 3, 4, 5, 6, 7, 8, 9, 10] 11).2 5).1 = [0, 1, 2, 3, 4] ∧
    (cbuffer_pop (cbuffer_append { data := fun _ => 0, tail := 251, pos := 251 }
      [0, 1, 2, 3, 4, 5, 6, 7, 8, 9, 10] 11).2 5).1.length
      = min 5 (cbuffer_size (cbuffer_append { data := fun _ => 0, tail := 251, pos := 251 }
          [0, 1, 2, 3, 4, 5, 6, 7, 8, 9, 10] 11).2) :=
  ⟨by decide, by decide,
    (cbuffer_pop_spec (cbuffer_append { data := fun _ => 0, tail := 251, pos := 251 }
      [0, 1, 2, 3, 4, 5, 6, 7, 8, 9, 10] 11).2 5 (by decide)).1⟩

/-! ## Ring pops and transfers -/

theorem cbuffer_pop_front_wf (b : CircularBuffer) (h : cbuffer_wf b) :
    cbuffer_wf (cbuffer_pop_front b).2 := by
  simp only [cbuffer_pop_front]
  split
  · exact h
  · exact (cbuffer_deletefront_wf b 1).2 h.2

theorem cbuffer_pop_front_nonempty (b : CircularBuffer) (h : cbuffer_wf b)
    (hne : cbuffer_size b ≠ 0) :
    (cbuffer_contents b).take 1 = [(cbuffer_pop_front b).1] ∧
      cbuffer_contents (cbuffer_pop_front b).2 = (cbuffer_contents b).drop 1 := by
  simp only [cbuffer_pop_front, if_neg hne, cbuffer_deletefront_contents b 1 h]
  refine ⟨?_, trivial⟩
  have hl : 0 < (cbuffer_contents b).length := by
    rw [cbuffer_contents_length]; omega
  rw [← cbuffer_contents_getD b 0 (by omega)]
  cases hc : cbuffer_contents b with
  | nil => rw [hc] at hl; simp at hl
  | cons x xs => simp

theorem cbuffer_pop_front_n_eq (k : Nat) :
    ∀ b : CircularBuffer, cbuffer_wf b → k ≤ cbuffer_size b →
      (cbuffer_pop_front_n k b).1 = (cbuffer_contents b).take k ∧
      cbuffer_wf (cbuffer_pop_front_n k b).2 ∧
      cbuffer_contents (cbuffer_pop_front_n k b).2 = (cbuffer_contents b).drop k := by
  induction k with
  | zero =>
    intro b h _
    simp only [cbuffer_pop_front_n, List.take_zero, List.drop_zero]
    exact ⟨trivial, h, trivial⟩
  | succ k ih =>
    intro b h hk
    have hne : cbuffer_size b ≠ 0 := by omega
    obtain ⟨h1, h2⟩ := cbuffer_pop_front_nonempty b h hne
    have hsz : cbuffer_size (cbuffer_pop_front b).2 = cbuffer_size b - 1 := by
      rw [← cbuffer_contents_length, h2, List.length_drop, cbuffer_contents_length]
    obtain ⟨i1, i2, i3⟩ := ih (cbuffer_pop_front b).2 (cbuffer_pop_front_wf b h) (by omega)
    simp only [cbuffer_pop_front_n]
    refine ⟨?_, i2, ?_⟩
    · rw [i1, h2, ← List.take_append_drop 1 (List.take (k + 1) (cbuffer_contents b))]
      simp only [List.take_take, List.drop_take, Nat.add_sub_cancel]
      rw [Nat.min_eq_left (by omega), h1]
      rfl
    · rw [i3, h2, List.drop_drop]
      congr 1
      omega

/-- C26. On a ring whose cursors index the storage: `cbuffer_pop_front` on an
empty ring returns `0xDEADBEEF` and leaves the ring as it was; on a non-empty
ring it returns `cbuffer_value_at(buf, 0)` and advances `pos` by one word modulo
`IO_BUFFER_SIZE`, `tail` and storage being kept, so that the size drops by one;
and `k` successive calls, `k` at most the size, return the first `k` stored
words in FIFO order and leave the remaining ones. -/
theorem cbuffer_pop_front_spec (buf : CircularBuffer) (h : cbuffer_wf buf) :
    (cbuffer_size buf = 0 → cbuffer_pop_front buf = (0xDEADBEEF, buf)) ∧
    (cbuffer_size buf ≠ 0 →
      (cbuffer_pop_front buf).1 = cbuffer_value_at buf 0 ∧
      (cbuffer_pop_front buf).2.pos = (buf.pos + 1) % IO_BUFFER_SIZE ∧
      (cbuffer_pop_front buf).2.tail = buf.tail ∧
      (cbuffer_pop_front buf).2.data = buf.data ∧
      cbuffer_size (cbuffer_pop_front buf).2 + 1 = cbuffer_size buf) ∧
    (∀ k, k ≤ cbuffer_size buf →
      (cbuffer_pop_front_n k buf).1 = (cbuffer_contents buf).take k ∧
      cbuffer_contents (cbuffer_pop_front_n k buf).2 = (cbuffer_contents buf).drop k) := by
  refine ⟨?_, ?_, ?_⟩
  · intro h0
    simp only [cbuffer_pop_front, if_pos h0]
  · intro hne
    have hmin : min 1 (cbuffer_size buf) = 1 := by omega
    refine ⟨?_, ?_, ?_, ?_, ?_⟩
    · simp only [cbuffer_pop_front, if_neg hne]
    · simp only [cbuffer_pop_front, if_neg hne, cbuffer_deletefront, hmin]
    · simp only [cbuffer_pop_front, if_neg hne, cbuffer_deletefront]
    · simp only [cbuffer_pop_front, if_neg hne, cbuffer_deletefront]
    · simp only [cbuffer_pop_front, if_neg hne, cbuffer_deletefront_size buf 1 h, hmin]
      omega
  · intro k hk
    obtain ⟨h1, _, h3⟩ := cbuffer_pop_front_n_eq k buf h hk
    exact ⟨h1, h3⟩

/-- Witness for C26: the wrapped ring of the repository's test; eleven calls
return 0 to 10 in order. -/
theorem cbuffer_pop_front_spec_witness :
    cbuffer_wf (cbuffer_append { data := fun _ => 0, tail := 251, pos := 251 }
      [0, 1, 2, 3, 4, 5, 6, 7, 8, 9, 10] 11).2 ∧
    (cbuffer_pop_front_n 11 (cbuffer_append { data := fun _ => 0, tail := 251, pos := 251 }
      [0, 1, 2, 3, 4, 5, 6, 7, 8, 9, 10] 11).2).1 = [0, 1, 2, 3, 4, 5, 6, 7, 8, 9, 10] ∧
    (cbuffer_pop_front_n 11 (cbuffer_append { data := fun _ => 0, tail := 251, pos := 251 }
      [0, 1, 2, 3, 4, 5, 6, 7, 8, 9, 10] 11).2).1
      = (cbuffer_contents (cbuffer_append { data := fun _ => 0, tail := 251, pos := 251 }
          [0, 1, 2, 3, 4, 5, 6, 7, 8, 9, 10] 11).2).take 11 :=
  ⟨by decide, by decide,
    ((cbuffer_pop_front_spec (cbuffer_append { data := fun _ => 0, tail := 251, pos := 251 }
      [0, 1, 2, 3, 4, 5, 6, 7, 8, 9, 10] 11).2 (by decide)).2.2 11 (by decide)).1⟩

/-- C27. For two distinct rings whose cursors index their storage,
`cbuffer_transfer_data(src, dst)` returns
`k = min(cbuffer_size(src), cbuffer_freespace(dst))`; afterwards `dst` holds its
previous words followed by the first `k` words of `src` in order, and `src`
holds its previous words without those first `k`. -/
theorem cbuffer_transfer_data_spec (src dst : CircularBuffer) (hs : cbuffer_wf src)
    (hd : cbuffer_wf dst) :
    (cbuffer_transfer_data src dst).1 = min (cbuffer_size src) (cbuffer_freespace dst) ∧
    cbuffer_contents (cbuffer_transfer_data src dst).2.2
      = cbuffer_contents dst
        ++ (cbuffer_contents src).take (min (cbuffer_size src) (cbuffer_freespace dst)) ∧
    cbuffer_contents (cbuffer_transfer_data src dst).2.1
      = (cbuffer_contents src).drop (min (cbuffer_size src) (cbuffer_freespace dst)) := by
  simp only [cbuffer_transfer_data, cbuffer_pop_eq src _ hs]
  refine ⟨trivial, ?_, ?_⟩
  · apply cbuffer_append_contents _ _ _ hd (Nat.min_le_right _ _)
    simp only [List.length_take, cbuffer_contents_length]
    omega
  · exact cbuffer_deletefront_contents src _ hs

/-- Witness for C27: a source of five words and a destination with room for
three. -/
theorem cbuffer_transfer_data_spec_witness :
    cbuffer_wf (cbuffer_append cbuffer_new [1, 2, 3, 4, 5] 5).2 ∧
    cbuffer_wf ({ data := fun i => i, tail := 252, pos := 0 } : CircularBuffer) ∧
    (cbuffer_transfer_data (cbuffer_append cbuffer_new [1, 2, 3, 4, 5] 5).2
      { data := fun i => i, tail := 252, pos := 0 }).1 = 3 ∧
    cbuffer_contents (cbuffer_transfer_data (cbuffer_append cbuffer_new [1, 2, 3, 4, 5] 5).2
      { data := fun i => i, tail := 252, pos := 0 }).2.1 = [4, 5] ∧
    (cbuffer_transfer_data (cbuffer_append cbuffer_new [1, 2, 3, 4, 5] 5).2
        { data := fun i => i, tail := 252, pos := 0 }).1
      = min (cbuffer_size (cbuffer_append cbuffer_new [1, 2, 3, 4, 5] 5).2)
          (cbuffer_freespace ({ data := fun i => i, tail := 252, pos := 0 } : CircularBuffer)) :=
  ⟨by decide, by decide, by decide, by decide,
    (cbuffer_transfer_data_spec (cbuffer_append cbuffer_new [1, 2, 3, 4, 5] 5).2
      { data := fun i => i, tail := 252, pos := 0 } (by decide) (by decide)).1⟩

/-! ## Head words of no defined transaction type -/

theorem ipbus_transaction_payload_size_unknown (words type info : Nat) (h : 5 < type) :
    ipbus_transaction_payload_size words type info = 0 := by
  simp only [ipbus_transaction_payload_size, IPBUS_READ, IPBUS_NIREAD, IPBUS_WRITE,
    IPBUS_NIWRITE, IPBUS_RMW, IPBUS_RMWSUM]
  split
  · rfl
  · rw [if_neg (by omega), if_neg (by omega), if_neg (by omega), if_neg (by omega)]

theorem ipbus_process_transaction_unknown (σ : Type) (H : Handlers σ)
    (t : ipbus_transaction_t) (s : σ) (h : 5 < t.type) :
    ipbus_process_transaction H t s =
      ({ id := t.id, words := t.words, type := t.type, info := IPBUS_INFO_SUCCESS,
         data := { size := 0, words := none } }, s) := by
  simp only [ipbus_process_transaction, IPBUS_READ, IPBUS_NIREAD, IPBUS_WRITE,
    IPBUS_NIWRITE, IPBUS_RMW, IPBUS_RMWSUM]
  rw [if_neg (by omega), if_neg (by omega), if_neg (by omega), if_neg (by omega),
    if_neg (by omega), if_neg (by omega)]

theorem process_step_unknown_type (σ : Type) (H : Handlers σ) (le : Bool) (c : Client) (s : σ)
    (hne : cbuffer_size c.inputstream ≠ 0)
    (hpkt : ipbus_detect_packet_header (cbuffer_value_at_net le c.inputstream 0) = 0)
    (htype : 5 < (ipbus_decode_transaction_header le c.inputstream c.swapbytes).type) :
    ipbus_stream_state le c.inputstream c.swapbytes = (IPBUS_ISTREAM_FULL_TRANS, c.swapbytes) ∧
    process_step H le c s =
      (true, 1,
        { inputstream := (cbuffer_deletefront c.inputstream 1).2,
          outputstream :=
            (cbuffer_push_back_net le c.outputstream
              (if c.swapbytes ≠ 0 then
                bswap32 (ipbus_transaction_header 2
                  (ipbus_decode_transaction_header le c.inputstream c.swapbytes).id
                  (ipbus_decode_transaction_header le c.inputstream c.swapbytes).words
                  (ipbus_decode_transaction_header le c.inputstream c.swapbytes).type
                  IPBUS_INFO_SUCCESS)
              else
                ipbus_transaction_header 2
                  (ipbus_decode_transaction_header le c.inputstream c.swapbytes).id
                  (ipbus_decode_transaction_header le c.inputstream c.swapbytes).words
                  (ipbus_decode_transaction_header le c.inputstream c.swapbytes).type
                  IPBUS_INFO_SUCCESS)).2,
          swapbytes := c.swapbytes }, s) := by
  have hps := ipbus_transaction_payload_size_unknown
    (ipbus_decode_transaction_header le c.inputstream c.swapbytes).words
    (ipbus_decode_transaction_header le c.inputstream c.swapbytes).type
    (ipbus_decode_transaction_header le c.inputstream c.swapbytes).info htype
  have hsz : (ipbus_decode_transaction_header le c.inputstream c.swapbytes).data.size = 0 := by
    have e : (ipbus_decode_transaction_header le c.inputstream c.swapbytes).data.size
        = ipbus_transaction_payload_size
            (ipbus_decode_transaction_header le c.inputstream c.swapbytes).words
            (ipbus_decode_transaction_header le c.inputstream c.swapbytes).type
            (ipbus_decode_transaction_header le c.inputstream c.swapbytes).info % 256 := rfl
    rw [e, hps]
  have hge : cbuffer_size c.inputstream
      ≥ (ipbus_decode_transaction_header le c.inputstream c.swapbytes).data.size + 1 := by
    rw [hsz]; omega
  constructor
  · simp only [ipbus_stream_state, if_neg hne, hpkt, ne_eq, not_true_eq_false, if_false,
      if_pos hge]
  · rw [process_step_transaction σ H le c s hne hpkt, if_pos hge]
    have hdec : ipbus_decode_transaction le c.inputstream c.swapbytes
        = { ipbus_decode_transaction_header le c.inputstream c.swapbytes with
            data := { size := 0, words := some [] } } := by
      simp only [ipbus_decode_transaction, hsz, List.range_zero, List.map_nil]
    have hh : handle_transaction_stream H le c.inputstream c.swapbytes c.outputstream s
        = (1, (cbuffer_deletefront c.inputstream 1).2,
            ipbus_encode_transaction le c.outputstream
              { id := (ipbus_decode_transaction_header le c.inputstream c.swapbytes).id,
                words := (ipbus_decode_transaction_header le c.inputstream c.swapbytes).words,
                type := (ipbus_decode_transaction_header le c.inputstream c.swapbytes).type,
                info := IPBUS_INFO_SUCCESS,
                data := { size := 0, words := none } } c.swapbytes, s) := by
      simp only [handle_transaction_stream, hdec, ipbus_transaction_endocded_size, hps]
      rw [ipbus_process_transaction_unknown σ H
        { id := (ipbus_decode_transaction_header le c.inputstream c.swapbytes).id,
          words := (ipbus_decode_transaction_header le c.inputstream c.swapbytes).words,
          type := (ipbus_decode_transaction_header le c.inputstream c.swapbytes).type,
          info := (ipbus_decode_transaction_header le c.inputstream c.swapbytes).info,
          data := { size := 0, words := some [] } } s htype]
    rw [hh]
    simp only [ipbus_encode_transaction, List.range_zero, List.foldl_nil]

theorem process_fuel_step (σ : Type) (H : Handlers σ) (le : Bool) (c c2 : Client) (s s2 : σ)
    (n : Nat) (hin : cbuffer_wf c.inputstream)
    (hstep : process_step H le c s = (true, n, c2, s2))
    (hsz : cbuffer_size c2.inputstream + 1 ≤ cbuffer_size c.inputstream) :
    ipbus_process_input_stream H le c s
      = (ipbus_process_input_stream H le c2 s2).map (fun r => (n + r.1, r.2.1, r.2.2)) := by
  have hrem := process_step_removes σ H le c s hin (by rw [hstep])
  rw [hstep] at hrem
  obtain ⟨r, hr, _⟩ := process_fuel_enough σ H le (cbuffer_size c2.inputstream + 1) c2 s2
    hrem.1 (Nat.lt_succ_self _)
  have hr2 := process_fuel_mono σ H le _ c2 s2 r hr (cbuffer_size c.inputstream) hsz
  have e1 : ipbus_process_input_stream H le c2 s2 = some r := hr
  rw [e1]
  show ipbus_process_input_stream_fuel H le (cbuffer_size c.inputstream + 1) c s = _
  rw [ipbus_process_input_stream_fuel]
  simp only [hstep, hr2, Bool.true_eq_false, if_false, Option.map_some']

/-- C21, as stated, fails: the ring holds the one word `2000006F`, which is no
packet header in either byte order and whose type nibble, 6, is none of the six
defined types. `ipbus_stream_state` answers `FULL_TRANS`, not `PARTIAL_TRANS`,
and `ipbus_process_input_stream` returns 1, leaves the input ring empty and
puts the response header `20000060` on the output ring. -/
theorem ipbus_stream_state_unknown_type_counterexample :
    cbuffer_size (cbuffer_of_net true [0x2000006F]) = 1 ∧
    cbuffer_value_at_net true (cbuffer_of_net true [0x2000006F]) 0 = 0x2000006F ∧
    ipbus_detect_packet_header 0x2000006F = 0 ∧
    ipbus_detect_packet_header (bswap32 0x2000006F) = 0 ∧
    (ipbus_decode_transaction_header true (cbuffer_of_net true [0x2000006F]) 0).type = 6 ∧
    (ipbus_stream_state true (cbuffer_of_net true [0x2000006F]) 0).1
      = IPBUS_ISTREAM_FULL_TRANS ∧
    (ipbus_stream_state true (cbuffer_of_net true [0x2000006F]) 0).1
      ≠ IPBUS_ISTREAM_PARTIAL_TRANS ∧
    (ipbus_process_input_stream dummyHandlers true
      { inputstream := cbuffer_of_net true [0x2000006F], outputstream := cbuffer_new,
        swapbytes := 0 } ()).map
        (fun r => (r.1, cbuffer_size r.2.1.inputstream,
          (cbuffer_contents r.2.1.outputstream).map (network_to_host true)))
      = some (1, 0, [0x20000060]) := by
  decide

/-- C21, amended. The input ring is non-empty, its head word is no packet header
in either byte order, and the type nibble of the head word, decoded under the
current `swapbytes`, is none of the six defined types. Then `ipbus_stream_state`
returns `FULL_TRANS` and leaves `swapbytes` as it was, and
`ipbus_process_input_stream`, given an output ring with room for a word, treats
the head word as a transaction without payload: it removes that one word from
the input ring, calls no handler, appends to the output ring the one header word
that echoes id, words and type with info `SUCCESS`, and goes on with the ring so
left, returning 1 plus the count of that continuation; so it consumes at least
one word. -/
theorem ipbus_process_input_stream_unknown_type (σ : Type) (H : Handlers σ) (le : Bool)
    (client : Client) (s : σ)
    (hin : cbuffer_wf client.inputstream) (hout : cbuffer_wf client.outputstream)
    (hne : cbuffer_size client.inputstream ≠ 0)
    (hpkt : ipbus_detect_packet_header (cbuffer_value_at_net le client.inputstream 0) = 0)
    (htype : 5 < (ipbus_decode_transaction_header le client.inputstream client.swapbytes).type)
    (hfree : 1 ≤ cbuffer_freespace client.outputstream) :
    ipbus_stream_state le client.inputstream client.swapbytes
      = (IPBUS_ISTREAM_FULL_TRANS, client.swapbytes) ∧
    ∃ next : Client,
      next.swapbytes = client.swapbytes ∧
      cbuffer_contents next.inputstream = (cbuffer_contents client.inputstream).drop 1 ∧
      cbuffer_contents next.outputstream
        = cbuffer_contents client.outputstream ++
          [wire_word le client.swapbytes (ipbus_transaction_header 2
            (ipbus_decode_transaction_header le client.inputstream client.swapbytes).id
            (ipbus_decode_transaction_header le client.inputstream client.swapbytes).words
            (ipbus_decode_transaction_header le client.inputstream client.swapbytes).type
            IPBUS_INFO_SUCCESS)] ∧
      ipbus_process_input_stream H le client s
        = (ipbus_process_input_stream H le next s).map (fun r => (1 + r.1, r.2.1, r.2.2)) ∧
      ∃ r, ipbus_process_input_stream H le client s = some r ∧ 1 ≤ r.1 := by
  obtain ⟨hst, hstep⟩ := process_step_unknown_type σ H le client s hne hpkt htype
  have hsz : cbuffer_size (cbuffer_deletefront client.inputstream 1).2 + 1
      ≤ cbuffer_size client.inputstream := by
    rw [cbuffer_deletefront_size _ _ hin]; omega
  have hmap := process_fuel_step σ H le client _ s s 1 hin hstep hsz
  have hwf2 : cbuffer_wf (cbuffer_deletefront client.inputstream 1).2 :=
    (cbuffer_deletefront_wf _ _).2 hin.2
  refine ⟨hst, (process_step H le client s).2.2.1, ?_, ?_, ?_, ?_, ?_⟩
  · rw [hstep]
  · rw [hstep]
    exact cbuffer_deletefront_contents _ 1 hin
  · rw [hstep]
    simp only [cbuffer_push_back_net, wire_word]
    exact (cbuffer_push_back_ok _ _ hout hfree).2.2
  · rw [hstep]
    exact hmap
  · obtain ⟨r2, hr2, _⟩ := process_fuel_enough σ H le _
      { inputstream := (cbuffer_deletefront client.inputstream 1).2,
        outputstream := (process_step H le client s).2.2.1.outputstream,
        swapbytes := client.swapbytes } s hwf2 (Nat.lt_succ_self _)
    rw [hstep] at hr2
    rw [hmap, show ipbus_process_input_stream H le _ s = some r2 from hr2]
    exact ⟨_, rfl, Nat.le_add_right 1 r2.1⟩

/-- Witness for C21, amended: the head word `2000006F` (type nibble 6) followed
by the header of a WRITE request. -/
theorem ipbus_process_input_stream_unknown_type_witness :
    cbuffer_size (cbuffer_of_net true [0x2000006F, 0x2EEF081F]) ≠ 0 ∧
    ipbus_detect_packet_header
      (cbuffer_value_at_net true (cbuffer_of_net true [0x2000006F, 0x2EEF081F]) 0) = 0 ∧
    5 < (ipbus_decode_transaction_header true
      (cbuffer_of_net true [0x2000006F, 0x2EEF081F]) 0).type ∧
    ipbus_stream_state true (cbuffer_of_net true [0x2000006F, 0x2EEF081F]) 0
      = (IPBUS_ISTREAM_FULL_TRANS, 0) :=
  ⟨by decide, by decide, by decide,
    (ipbus_process_input_stream_unknown_type Unit dummyHandlers true
      { inputstream := cbuffer_of_net true [0x2000006F, 0x2EEF081F],
        outputstream := cbuffer_new, swapbytes := 0 } ()
      (by decide) (by decide) (by decide) (by decide) (by decide) (by decide)).1⟩

/-! ## The RMW reply of the dummy handlers -/

/-- C28, as stated, fails: the word `dummyhandlers.c` returns for the RMW request
(addr `BEEFCAFE`, AND `DEAFBEEF`, OR `FACEBEEF`) is
`(BEEFCAFE & DEAFBEEF) | FACEBEEF`, and that value is `FEEFBEEF`, not
`FEEFFEEF`; the response `ipbus_process_input_stream` puts on the output ring
carries `FEEFBEEF` as its one payload word. -/
theorem dummy_handle_IPBUS_RMW_value_counterexample :
    dummy_handle_IPBUS_RMW 0xBEEFCAFE 0xDEAFBEEF 0xFACEBEEF
      = (0xBEEFCAFE &&& 0xDEAFBEEF) ||| 0xFACEBEEF ∧
    dummy_handle_IPBUS_RMW 0xBEEFCAFE 0xDEAFBEEF 0xFACEBEEF ≠ 0xFEEFFEEF ∧
    (ipbus_process_input_stream dummyHandlers true
      { inputstream :=
          cbuffer_of_net true [ipbus_transaction_header 2 0xCAB 1 IPBUS_RMW IPBUS_INFO_REQUEST,
            0xBEEFCAFE, 0xDEAFBEEF, 0xFACEBEEF],
        outputstream := cbuffer_new, swapbytes := 0 } ()).map
        (fun r => cbuffer_value_at_net true r.2.1.outputstream 1)
      = some 0xFEEFBEEF := by
  decide

/-- C28, amended. On a host of either byte order, `ipbus_process_input_stream`
with the handlers of `dummyhandlers.c`, given the RMW request (id `CAB`,
addr `BEEFCAFE`, AND `DEAFBEEF`, OR `FACEBEEF`) on the input ring and an empty
output ring, returns 4, empties the input ring and leaves two words on the
output ring: the response header `2CAB0140` and a single payload word equal to
`(BEEFCAFE & DEAFBEEF) | FACEBEEF`; that value is `FEEFBEEF`. -/
theorem ipbus_process_input_stream_rmw_reply (le : Bool) :
    ipbus_transaction_header 2 0xCAB 1 IPBUS_RMW IPBUS_INFO_REQUEST = 0x2CAB014F ∧
    (ipbus_process_input_stream dummyHandlers le
      { inputstream := cbuffer_of_net le [0x2CAB014F, 0xBEEFCAFE, 0xDEAFBEEF, 0xFACEBEEF],
        outputstream := cbuffer_new, swapbytes := 0 } ()).map
        (fun r => (r.1, cbuffer_size r.2.1.inputstream,
          (cbuffer_contents r.2.1.outputstream).map (network_to_host le)))
      = some (4, 0, [0x2CAB0140, (0xBEEFCAFE &&& 0xDEAFBEEF) ||| 0xFACEBEEF]) ∧
    (0xBEEFCAFE &&& 0xDEAFBEEF) ||| 0xFACEBEEF = 0xFEEFBEEF := by
  cases le <;> decide

/-! ## Memory handlers -/

theorem mem_load32_lt (le : Bool) (mem : Memory) (addr : Nat) :
    mem_load32 le mem addr < 4294967296 := by
  have h0 := (mem addr).isLt
  have h1 := (mem (addr + 1)).isLt
  have h2 := (mem (addr + 2)).isLt
  have h3 := (mem (addr + 3)).isLt
  cases le <;> simp only [mem_load32, byte_index] <;> norm_num <;> omega

theorem mem_load32_of_bytes (le : Bool) (mem : Memory) (addr v : Nat) (hv : v < 4294967296)
    (h : ∀ k, k < 4 → mem (addr + k) = word_byte v (byte_index le k)) :
    mem_load32 le mem addr = v := by
  have h0 := h 0 (by omega)
  have h1 := h 1 (by omega)
  have h2 := h 2 (by omega)
  have h3 := h 3 (by omega)
  rw [Nat.add_zero] at h0
  simp only [mem_load32, h0, h1, h2, h3, word_byte]
  cases le <;> simp only [byte_index] <;> norm_num <;> omega

theorem mem_store32_other (le : Bool) (mem : Memory) (addr v a : Nat)
    (h : a < addr ∨ addr + 4 ≤ a) : mem_store32 le mem addr v a = mem a := by
  simp only [mem_store32]
  rw [if_neg (by omega)]

theorem mem_load32_store32 (le : Bool) (mem : Memory) (addr v : Nat) (hv : v < 4294967296) :
    mem_load32 le (mem_store32 le mem addr v) addr = v := by
  apply mem_load32_of_bytes le _ addr v hv
  intro k hk
  simp only [mem_store32]
  rw [if_pos (by omega), Nat.add_sub_cancel_left]

theorem and_or_lt (x y z : Nat) (hx : x < 4294967296) (hz : z < 4294967296) :
    (x &&& y) ||| z < 4294967296 := by
  have h32 : (4294967296 : Nat) = 2 ^ 32 := by norm_num
  rw [h32] at hx hz ⊢
  exact Nat.or_lt_two_pow (Nat.lt_of_le_of_lt Nat.and_le_left hx) hz

/-- C29. For the handlers of `handlers.c`, on a host of either byte order and at
every offset `addr` from `membase`: `handle_IPBUS_RMW(addr, and, or)` returns
the 32-bit word held at `addr` before the call and leaves `(old & and) | or`
there; `handle_IPBUS_RMWSUM(addr, addend)` returns the word held before the call
and leaves `(old + addend) mod 2^32` there; both leave every byte outside the
four bytes from `addr` on as it was. -/
theorem handle_IPBUS_RMW_spec (le : Bool) (mem : Memory) (addr andterm orterm addend : Nat)
    (hor : orterm < 4294967296) :
    (handle_IPBUS_RMW le addr andterm orterm mem).1 = mem_load32 le mem addr ∧
    mem_load32 le (handle_IPBUS_RMW le addr andterm orterm mem).2 addr
      = (mem_load32 le mem addr &&& andterm) ||| orterm ∧
    (∀ a, a < addr ∨ addr + 4 ≤ a →
      (handle_IPBUS_RMW le addr andterm orterm mem).2 a = mem a) ∧
    (handle_IPBUS_RMWSUM le addr addend mem).1 = mem_load32 le mem addr ∧
    mem_load32 le (handle_IPBUS_RMWSUM le addr addend mem).2 addr
      = (mem_load32 le mem addr + addend) % 4294967296 ∧
    (∀ a, a < addr ∨ addr + 4 ≤ a →
      (handle_IPBUS_RMWSUM le addr addend mem).2 a = mem a) := by
  refine ⟨rfl, ?_, ?_, rfl, ?_, ?_⟩
  · exact mem_load32_store32 le mem addr _ (and_or_lt _ _ _ (mem_load32_lt le mem addr) hor)
  · intro a ha
    exact mem_store32_other le mem addr _ a ha
  · exact mem_load32_store32 le mem addr _ (Nat.mod_lt _ (by norm_num))
  · intro a ha
    exact mem_store32_other le mem addr _ a ha

/-- Witness for C29: the memory of `testmembase.c` (every byte `EF`), the RMW
terms of the repository's test at offset 6, on a little-endian host. -/
theorem handle_IPBUS_RMW_spec_witness :
    (0xFACEBEEF : Nat) < 4294967296 ∧
    (handle_IPBUS_RMW true 6 0xDEAFBEEF 0xFACEBEEF (fun _ => 0xEF)).1 = 0xEFEFEFEF ∧
    mem_load32 true (handle_IPBUS_RMW true 6 0xDEAFBEEF 0xFACEBEEF (fun _ => 0xEF)).2 6
      = (mem_load32 true (fun _ => 0xEF) 6 &&& 0xDEAFBEEF) ||| 0xFACEBEEF :=
  ⟨by decide, by decide,
    (handle_IPBUS_RMW_spec true (fun _ => 0xEF) 6 0xDEAFBEEF 0xFACEBEEF 1 (by decide)).2.1⟩

theorem handle_IPBUS_WRITE_other (le : Bool) (n : Nat) (data : ipbus_payload_t) (mem : Memory)
    (a : Nat) (h : a < data.at 0 ∨ data.at 0 + 4 * n ≤ a) :
    (handle_IPBUS_WRITE le n data mem).2 a = mem a := by
  simp only [handle_IPBUS_WRITE]
  rw [if_neg (by omega)]

theorem handle_IPBUS_WRITE_load (le : Bool) (n : Nat) (data : ipbus_payload_t) (mem : Memory)
    (i : Nat) (hi : i < n) (hw : data.at (1 + i) < 4294967296) :
    mem_load32 le (handle_IPBUS_WRITE le n data mem).2 (data.at 0 + 4 * i)
      = data.at (1 + i) := by
  apply mem_load32_of_bytes le _ _ _ hw
  intro k hk
  simp only [handle_IPBUS_WRITE]
  rw [if_pos (by omega)]
  have e1 : (data.at 0 + 4 * i + k - data.at 0) / 4 = i := by omega
  have e2 : (data.at 0 + 4 * i + k - data.at 0) % 4 = k := by omega
  rw [e1, e2]

/-- C30. Write/read round trip of the handlers of `handlers.c`, on a host of
either byte order: for every word count `n` (a `uint8_t`, so in 0..255; the
proof needs no bound on it), every offset `base` and all 32-bit words
`d1 .. dn`, `handle_IPBUS_WRITE(n, [base, d1, .., dn])` returns 0, the following
`handle_IPBUS_READ(n, base)` returns a payload of size `n` whose words are
`d1 .. dn`, and the write leaves every byte outside the `4n` bytes from `base`
on as it was. -/
theorem handle_IPBUS_WRITE_READ_roundtrip (le : Bool) (mem : Memory) (n base size : Nat)
    (d : List Nat) (hlen : d.length = n) (hd : ∀ w ∈ d, w < 4294967296) :
    (handle_IPBUS_WRITE le n { size := size, words := some (base :: d) } mem).1 = 0 ∧
    handle_IPBUS_READ le n base
        (handle_IPBUS_WRITE le n { size := size, words := some (base :: d) } mem).2
      = { size := n, words := some d } ∧
    (∀ a, a < base ∨ base + 4 * n ≤ a →
      (handle_IPBUS_WRITE le n { size := size, words := some (base :: d) } mem).2 a
        = mem a) := by
  have h0 : ipbus_payload_t.at { size := size, words := some (base :: d) } 0 = base := rfl
  refine ⟨rfl, ?_, ?_⟩
  · simp only [handle_IPBUS_READ, ipbus_payload_t.mk.injEq, Option.some.injEq, true_and]
    apply List.ext_getElem
    · simp only [List.length_map, List.length_range, hlen]
    · intro i h1 h2
      simp only [List.length_map, List.length_range] at h1
      have hat : ipbus_payload_t.at { size := size, words := some (base :: d) } (1 + i)
          = d[i] := by
        simp only [ipbus_payload_t.at, Option.getD_some, Nat.add_comm 1 i, List.getD_cons_succ]
        exact List.getD_eq_getElem _ _ h2
      have hload := handle_IPBUS_WRITE_load le n
        { size := size, words := some (base :: d) } mem i h1
        (by rw [hat]; exact hd _ (List.getElem_mem h2))
      rw [h0, hat] at hload
      simp only [List.getElem_map, List.getElem_range]
      exact hload
  · intro a ha
    exact handle_IPBUS_WRITE_other le n _ mem a (by rw [h0]; exact ha)

/-- Witness for C30: the five words 0 to 4 of the repository's WRITE test,
written at offset 8 of a memory holding `EF` everywhere, on a big-endian
host. -/
theorem handle_IPBUS_WRITE_READ_roundtrip_witness :
    [0, 1, 2, 3, 4].length = 5 ∧
    (∀ w ∈ [0, 1, 2, 3, 4], w < 4294967296) ∧
    handle_IPBUS_READ false 5 8
        (handle_IPBUS_WRITE false 5 { size := 6, words := some (8 :: [0, 1, 2, 3, 4]) }
          (fun _ => 0xEF)).2
      = { size := 5, words := some [0, 1, 2, 3, 4] } :=
  ⟨by decide, by decide,
    (handle_IPBUS_WRITE_READ_roundtrip false (fun _ => 0xEF) 5 8 6 [0, 1, 2, 3, 4]
      (by decide) (by decide)).2.1⟩

/-! ## Byte buffer -/

theorem to_int_of_range (x : Int) (h0 : -2147483648 ≤ x) (h1 : x < 2147483648) :
    to_int x = x := by
  simp only [to_int]
  omega

theorem memcpy_bytes_eq (p : List (Fin 256)) (at_ : Nat) (src : List (Fin 256)) (n : Nat)
    (hp : at_ + n ≤ p.length) (hs : n ≤ src.length) :
    memcpy_bytes p at_ src n = p.take at_ ++ src.take n ++ p.drop (at_ + n) := by
  apply List.ext_getElem
  · simp only [memcpy_bytes, List.length_map, List.length_range, List.length_append,
      List.length_take, List.length_drop]
    omega
  · intro i h1 h2
    simp only [memcpy_bytes, List.length_map, List.length_range] at h1
    simp only [memcpy_bytes, List.getElem_map, List.getElem_range]
    by_cases ha : i < at_
    · rw [if_neg (by omega), List.getD_eq_getElem _ _ h1]
      rw [List.getElem_append_left (by simp only [List.length_append, List.length_take]; omega),
        List.getElem_append_left (by simp only [List.length_take]; omega), List.getElem_take]
    · by_cases hb : i < at_ + n
      · rw [if_pos ⟨by omega, hb⟩, List.getD_eq_getElem _ _ (by omega)]
        rw [List.getElem_append_left (by simp only [List.length_append, List.length_take]; omega),
          List.getElem_append_right (by simp only [List.length_take]; omega)]
        simp only [List.getElem_take, List.length_take]
        congr 1
        omega
      · rw [if_neg (by omega), List.getD_eq_getElem _ _ h1]
        rw [List.getElem_append_right
          (by simp only [List.length_append, List.length_take]; omega)]
        simp only [List.getElem_drop, List.length_append, List.length_take]
        congr 1
        omega

theorem realloc_bytes_bytes (p : Option (List (Fin 256))) (size : Nat) :
    (realloc_bytes p size).getD [] = (p.getD [] ++ List.replicate size 0).take size := rfl

theorem bytebuffer_free_wf : bytebuffer_wf { bufsize := 0, buf := none } :=
  ⟨Int.le_refl 0, by norm_num, rfl⟩

theorem bytebuffer_del_back_spec (b : ByteBuffer) (n : Nat) (h : bytebuffer_wf b)
    (hn : n < 2147483648) :
    (bytebuffer_del_back b n).bytes = b.bytes.take (b.bytes.length - n) ∧
    bytebuffer_wf (bytebuffer_del_back b n) ∧
    ((b.bytes.length : Int) ≤ n → bytebuffer_del_back b n = { bufsize := 0, buf := none }) := by
  obtain ⟨h0, h1, h2⟩ := h
  have hcast : to_int n = n := to_int_of_range _ (by omega) (by omega)
  simp only [bytebuffer_del_back, hcast]
  by_cases hc : (n : Int) ≥ b.bufsize
  · rw [if_pos hc]
    have e : b.bytes.length - n = 0 := by omega
    refine ⟨?_, bytebuffer_free_wf, fun _ => rfl⟩
    rw [e]; rfl
  · rw [if_neg hc]
    have hsub : to_int (b.bufsize - n) = b.bufsize - n := to_int_of_range _ (by omega) (by omega)
    have hnat : (b.bufsize - (n : Int)).toNat = b.bytes.length - n := by omega
    rw [hsub, hnat]
    refine ⟨?_, ?_, fun hle => absurd hle (by omega)⟩
    · simp only [ByteBuffer.bytes, realloc_bytes_bytes]
      rw [List.take_append_of_le_length (by simp only [ByteBuffer.bytes] at h2 ⊢; omega)]
    · refine ⟨?_, ?_, ?_⟩
      · show 0 ≤ b.bufsize - (n : Int)
        omega
      · show b.bufsize - (n : Int) < 2147483648
        omega
      · simp only [ByteBuffer.bytes, realloc_bytes_bytes, List.length_take, List.length_append,
          List.length_replicate]
        simp only [ByteBuffer.bytes] at h2
        omega

theorem bytebuffer_del_front_spec (b : ByteBuffer) (n : Nat) (h : bytebuffer_wf b)
    (hn : n < 2147483648) :
    (bytebuffer_del_front b n).bytes = b.bytes.drop n ∧
    bytebuffer_wf (bytebuffer_del_front b n) ∧
    ((b.bytes.length : Int) ≤ n → bytebuffer_del_front b n = { bufsize := 0, buf := none }) := by
  have hcast : to_int n = n := to_int_of_range _ (by omega) (by omega)
  obtain ⟨h0, h1, h2⟩ := h
  simp only [bytebuffer_del_front, hcast]
  by_cases hc : (n : Int) ≥ b.bufsize
  · rw [if_pos hc]
    refine ⟨?_, bytebuffer_free_wf, fun _ => rfl⟩
    rw [List.drop_of_length_le (by omega)]
    rfl
  · rw [if_neg hc]
    have hnat : (b.bufsize - (n : Int)).toNat = b.bytes.length - n := by omega
    have hmoved : memcpy_bytes b.bytes 0 (b.bytes.drop n) (b.bufsize - (n : Int)).toNat
        = b.bytes.drop n ++ b.bytes.drop (b.bytes.length - n) := by
      rw [hnat, memcpy_bytes_eq _ _ _ _ (by omega) (by simp only [List.length_drop]; omega)]
      simp only [List.take_zero, List.nil_append, Nat.zero_add]
      rw [List.take_of_length_le (by simp only [List.length_drop]; omega)]
    rw [hmoved]
    have hwf2 : bytebuffer_wf
        { bufsize := b.bufsize,
          buf := some (b.bytes.drop n ++ b.bytes.drop (b.bytes.length - n)) } := by
      refine ⟨h0, h1, ?_⟩
      simp only [ByteBuffer.bytes, Option.getD_some, List.length_append, List.length_drop]
      simp only [ByteBuffer.bytes] at h2
      omega
    obtain ⟨d1, d2, _⟩ := bytebuffer_del_back_spec _ n hwf2 hn
    refine ⟨?_, d2, fun hle => absurd hle (by omega)⟩
    rw [d1]
    have e : ByteBuffer.bytes
        { bufsize := b.bufsize,
          buf := some (b.bytes.drop n ++ b.bytes.drop (b.bytes.length - n)) }
        = b.bytes.drop n ++ b.bytes.drop (b.bytes.length - n) := rfl
    rw [e]
    simp only [List.length_append, List.length_drop]
    rw [List.take_append_of_le_length (by simp only [List.length_drop]; omega),
      List.take_of_length_le (by simp only [List.length_drop]; omega)]

/-! ## Promotion of the byte shim -/

theorem word_byte_mem_load32 (le : Bool) (mem : Memory) (addr k : Nat) (hk : k < 4) :
    word_byte (mem_load32 le mem addr) (byte_index le k) = mem (addr + k) := by
  have h0 := (mem addr).isLt
  have h1 := (mem (addr + 1)).isLt
  have h2 := (mem (addr + 2)).isLt
  have h3 := (mem (addr + 3)).isLt
  apply Fin.ext
  cases le <;> interval_cases k <;>
    simp only [word_byte, mem_load32, byte_index, Nat.add_zero] <;> norm_num <;> omega

theorem bytes_as_words_length (le : Bool) (bytes : List (Fin 256)) (nwords : Nat) :
    (bytes_as_words le bytes nwords).length = nwords := by
  simp only [bytes_as_words, List.length_map, List.length_range]

theorem bytes_as_words_byte (le : Bool) (bytes : List (Fin 256)) (nwords i k : Nat)
    (hi : i < nwords) (hk : k < 4) :
    word_byte ((bytes_as_words le bytes nwords).getD i 0) (byte_index le k)
      = bytes.getD (4 * i + k) 0 := by
  have hl : i < (bytes_as_words le bytes nwords).length := by
    rw [bytes_as_words_length]; exact hi
  rw [List.getD_eq_getElem _ _ hl]
  simp only [bytes_as_words, List.getElem_map, List.getElem_range]
  exact word_byte_mem_load32 le _ (4 * i) k hk

/-- C31. Promotion of the byte shim in the drive step of `serve-tcp.c` and
`serve-serial.c`, for an input ring whose cursors index the storage and a shim
of `L` bytes that satisfies its invariant, with `nwords = floor(L / 4)`. If
`nwords` words fit the ring, `cbuffer_append` returns 0, the ring gains exactly
`nwords` words after the ones it held, word `i` being made of the shim bytes
`4i .. 4i + 3` in the byte order of the host, and the shim keeps exactly its
last `L mod 4` bytes. If they do not fit, `cbuffer_append` returns -1 and both
the ring and the shim are as they were. -/
theorem main_promote_byte2word_spec (le : Bool) (clibuf : CircularBuffer)
    (byte2word : ByteBuffer) (hring : cbuffer_wf clibuf) (hshim : bytebuffer_wf byte2word) :
    (byte2word.bytes.length / 4 ≤ cbuffer_freespace clibuf →
      (main_promote_byte2word le clibuf byte2word).1 = 0 ∧
      cbuffer_contents (main_promote_byte2word le clibuf byte2word).2.1
        = cbuffer_contents clibuf
          ++ bytes_as_words le byte2word.bytes (byte2word.bytes.length / 4) ∧
      cbuffer_size (main_promote_byte2word le clibuf byte2word).2.1
        = cbuffer_size clibuf + byte2word.bytes.length / 4 ∧
      (∀ i k, i < byte2word.bytes.length / 4 → k < 4 →
        word_byte
            ((bytes_as_words le byte2word.bytes (byte2word.bytes.length / 4)).getD i 0)
            (byte_index le k)
          = byte2word.bytes.getD (4 * i + k) 0) ∧
      (main_promote_byte2word le clibuf byte2word).2.2.bytes
        = byte2word.bytes.drop (4 * (byte2word.bytes.length / 4)) ∧
      (main_promote_byte2word le clibuf byte2word).2.2.bytes.length
        = byte2word.bytes.length % 4 ∧
      bytebuffer_wf (main_promote_byte2word le clibuf byte2word).2.2) ∧
    (cbuffer_freespace clibuf < byte2word.bytes.length / 4 →
      (main_promote_byte2word le clibuf byte2word).1 = -1 ∧
      (main_promote_byte2word le clibuf byte2word).2.1 = clibuf ∧
      (main_promote_byte2word le clibuf byte2word).2.2 = byte2word) := by
  obtain ⟨h0, h1, h2⟩ := hshim
  have hn : (byte2word.bufsize / 4).toNat = byte2word.bytes.length / 4 := by omega
  constructor
  · intro hfit
    obtain ⟨a1, a2, a3⟩ := cbuffer_append_ok clibuf
      (bytes_as_words le byte2word.bytes (byte2word.bytes.length / 4))
      (byte2word.bytes.length / 4) hring hfit
    have a4 := cbuffer_append_contents clibuf
      (bytes_as_words le byte2word.bytes (byte2word.bytes.length / 4))
      (byte2word.bytes.length / 4) hring hfit (bytes_as_words_length le _ _)
    obtain ⟨d1, d2, _⟩ := bytebuffer_del_front_spec byte2word
      (byte2word.bytes.length / 4 * 4) ⟨h0, h1, h2⟩ (by omega)
    simp only [main_promote_byte2word, hn, a1, if_true]
    refine ⟨trivial, a4, a3, fun i k hi hk => bytes_as_words_byte le _ _ i k hi hk, ?_, ?_, d2⟩
    · rw [d1, Nat.mul_comm]
    · rw [d1, List.length_drop]
      omega
  · intro hfull
    have hret : cbuffer_append clibuf
        (bytes_as_words le byte2word.bytes (byte2word.bytes.length / 4))
        (byte2word.bytes.length / 4) = (-1, clibuf) := by
      simp only [cbuffer_append, if_pos hfull]
    have hne : ¬ ((-1 : Int) = 0) := by decide
    simp only [main_promote_byte2word, hn, hret, if_neg hne]
    exact ⟨trivial, trivial, trivial⟩

/-- Witness for C31: a shim of six bytes and an empty ring on a little-endian
host; one word is promoted and two bytes stay. -/
theorem main_promote_byte2word_spec_witness :
    cbuffer_wf cbuffer_new ∧
    bytebuffer_wf (bytebuffer_ctor (some [0xF0, 0xEF, 0xBE, 0x20, 0x0F, 0x05]) 6) ∧
    (bytebuffer_ctor (some [0xF0, 0xEF, 0xBE, 0x20, 0x0F, 0x05]) 6).bytes.length / 4
      ≤ cbuffer_freespace cbuffer_new ∧
    cbuffer_contents (main_promote_byte2word true cbuffer_new
      (bytebuffer_ctor (some [0xF0, 0xEF, 0xBE, 0x20, 0x0F, 0x05]) 6)).2.1 = [0x20BEEFF0] ∧
    (main_promote_byte2word true cbuffer_new
      (bytebuffer_ctor (some [0xF0, 0xEF, 0xBE, 0x20, 0x0F, 0x05]) 6)).2.2.bytes = [0x0F, 0x05] ∧
    (main_promote_byte2word true cbuffer_new
      (bytebuffer_ctor (some [0xF0, 0xEF, 0xBE, 0x20, 0x0F, 0x05]) 6)).2.2.bytes.length
      = (bytebuffer_ctor (some [0xF0, 0xEF, 0xBE, 0x20, 0x0F, 0x05]) 6).bytes.length % 4 :=
  ⟨by decide, by decide, by decide, by decide, by decide,
    ((main_promote_byte2word_spec true cbuffer_new
      (bytebuffer_ctor (some [0xF0, 0xEF, 0xBE, 0x20, 0x0F, 0x05]) 6)
      (by decide) (by decide)).1 (by decide)).2.2.2.2.2.1⟩

/-! ## Byte buffer pop and read -/

theorem bytebuffer_pop_in_range (buf : ByteBuffer) (n : Nat) (h : bytebuffer_wf buf)
    (hn : n < 2147483648) :
    ∃ out rest, bytebuffer_pop buf n = some (out, rest) ∧
      out.bytes = buf.bytes.take n ∧
      out.bufsize = min (n : Int) buf.bufsize ∧
      rest.bytes = buf.bytes.drop n ∧
      bytebuffer_wf rest ∧
      (buf.bufsize ≤ n → rest = { bufsize := 0, buf := none }) := by
  have hcast : to_int n = n := to_int_of_range _ (by omega) (by omega)
  obtain ⟨h0, h1, h2⟩ := h
  simp only [bytebuffer_pop, hcast]
  by_cases hc : (n : Int) ≥ buf.bufsize
  · rw [if_pos hc]
    have hl : buf.bytes.length ≤ n := by omega
    refine ⟨_, _, rfl, ?_, ?_, ?_, bytebuffer_free_wf, fun _ => rfl⟩
    · show List.take buf.bufsize.toNat buf.bytes = List.take n buf.bytes
      rw [List.take_of_length_le (by omega), List.take_of_length_le hl]
    · show buf.bufsize = min (n : Int) buf.bufsize
      omega
    · show ([] : List (Fin 256)) = List.drop n buf.bytes
      rw [List.drop_of_length_le hl]
  · rw [if_neg hc, if_neg (by omega)]
    obtain ⟨d1, d2, _⟩ := bytebuffer_del_front_spec buf n ⟨h0, h1, h2⟩ hn
    refine ⟨_, _, rfl, ?_, ?_, d1, d2, fun hle => absurd hle (by omega)⟩
    · simp only [ByteBuffer.bytes, Option.getD_some]
    · show (n : Int) = min (n : Int) buf.bufsize
      omega

/-- C32 fails on the code: a buffer of the three bytes 1, 2, 3 and
`n = 4294967295`. `bytebuffer_pop` compares `(int)n`, which is -1, with
`bufsize`, so it does not take the pop-everything branch although `n` exceeds
the length; the branch it takes asks `memcpy` for `n` bytes of the 3-byte block,
and the call yields no result: neither the three bytes nor an emptied
`*buffer`. -/
theorem bytebuffer_pop_int_cast :
    bytebuffer_wf (bytebuffer_ctor (some [1, 2, 3]) 3) ∧
    (bytebuffer_ctor (some [1, 2, 3]) 3).bytes = [1, 2, 3] ∧
    to_int 4294967295 = -1 ∧
    ¬ (to_int 4294967295 ≥ (bytebuffer_ctor (some [1, 2, 3]) 3).bufsize) ∧
    (bytebuffer_ctor (some [1, 2, 3]) 3).bytes.length < 4294967295 ∧
    bytebuffer_pop (bytebuffer_ctor (some [1, 2, 3]) 3) 4294967295 = none := by
  have h1 : ¬ (to_int 4294967295 ≥ (bytebuffer_ctor (some [1, 2, 3]) 3).bufsize) := by decide
  have h2 : (bytebuffer_ctor (some [1, 2, 3]) 3).bytes.length < 4294967295 := by decide
  refine ⟨by decide, by decide, by decide, h1, h2, ?_⟩
  unfold bytebuffer_pop
  rw [if_neg (by decide), if_pos h2]

/-- C33. `bytebuffer_read_fd(buf, fd, n)` on a buffer that satisfies its
invariant, with `bufsize + n` within `int`, for every outcome of its one `read`
(the bytes asked for, fewer, none at end of file, or -1 on error): it returns
what `read` returned and leaves `buf` holding its previous bytes followed by
exactly the bytes delivered, so the new `bufsize` is the old one plus
`max(bytes_read, 0)`, it is the length of the block again, and none of the `n`
bytes reserved stays exposed. -/
theorem bytebuffer_read_fd_spec (buf : ByteBuffer) (r : ReadOutcome) (n : Nat)
    (h : bytebuffer_wf buf) (hn : buf.bufsize + n < 2147483648) (hr : r.valid n) :
    (bytebuffer_read_fd buf r n).1 = r.ret ∧
    (bytebuffer_read_fd buf r n).2.bytes = buf.bytes ++ r.delivered ∧
    (bytebuffer_read_fd buf r n).2.bufsize = buf.bufsize + max r.ret 0 ∧
    bytebuffer_wf (bytebuffer_read_fd buf r n).2 := by
  obtain ⟨h0, h1, h2⟩ := h
  obtain ⟨hr1, hr2⟩ := hr
  have hL : buf.bufsize.toNat = buf.bytes.length := by omega
  have hsum : to_int (buf.bufsize + n) = buf.bufsize + n := to_int_of_range _ (by omega) (by omega)
  have hnat : (buf.bufsize + (n : Int)).toNat = buf.bytes.length + n := by omega
  have hres : (bytebuffer_reserve_back buf n).bytes = buf.bytes ++ List.replicate n 0 := by
    simp only [bytebuffer_reserve_back, hnat, ByteBuffer.bytes, realloc_bytes_bytes]
    rw [List.take_append_eq_append_take]
    simp only [ByteBuffer.bytes] at h2 ⊢
    rw [List.take_of_length_le (by omega)]
    congr 1
    rw [List.take_replicate]
    congr 1
    omega
  have hstored : memcpy_bytes (bytebuffer_reserve_back buf n).bytes buf.bufsize.toNat r.data
      r.data.length = buf.bytes ++ r.data ++ List.replicate (n - r.data.length) 0 := by
    rw [hres, hL, memcpy_bytes_eq _ _ _ _
      (by simp only [List.length_append, List.length_replicate]; omega) (Nat.le_refl _)]
    rw [List.take_left', List.take_of_length_le (Nat.le_refl _)]
    · congr 1
      rw [List.drop_append_eq_append_drop]
      simp only [List.drop_replicate, List.length_append]
      rw [List.drop_of_length_le (by omega)]
      simp only [List.nil_append]
      congr 1
      omega
    · rfl
  simp only [bytebuffer_read_fd]
  have hwf2 : bytebuffer_wf
      { bufsize := (bytebuffer_reserve_back buf n).bufsize,
        buf := some (memcpy_bytes (bytebuffer_reserve_back buf n).bytes buf.bufsize.toNat r.data
          r.data.length) } := by
    rw [hstored]
    refine ⟨?_, ?_, ?_⟩
    · show 0 ≤ to_int (buf.bufsize + n)
      omega
    · show to_int (buf.bufsize + n) < 2147483648
      omega
    · show ((buf.bytes ++ r.data ++ List.replicate (n - r.data.length) 0).length : Int)
        = to_int (buf.bufsize + n)
      simp only [List.length_append, List.length_replicate]
      omega
  have hde : (if r.ret > 0 then n - r.ret.toNat else n) < 2147483648 := by
    split <;> omega
  obtain ⟨d1, d2, _⟩ := bytebuffer_del_back_spec _ _ hwf2 hde
  have hbytes : (bytebuffer_del_back
      { bufsize := (bytebuffer_reserve_back buf n).bufsize,
        buf := some (memcpy_bytes (bytebuffer_reserve_back buf n).bytes buf.bufsize.toNat r.data
          r.data.length) } (if r.ret > 0 then n - r.ret.toNat else n)).bytes
      = buf.bytes ++ r.delivered := by
    rw [d1]
    have e : ByteBuffer.bytes
        { bufsize := (bytebuffer_reserve_back buf n).bufsize,
          buf := some (memcpy_bytes (bytebuffer_reserve_back buf n).bytes buf.bufsize.toNat
            r.data r.data.length) }
        = buf.bytes ++ r.data ++ List.replicate (n - r.data.length) 0 := by
      rw [← hstored]; rfl
    rw [e]
    simp only [List.length_append, List.length_replicate, ReadOutcome.delivered]
    by_cases hpos : r.ret > 0
    · have hlen : r.ret = (r.data.length : Int) := by omega
      rw [if_pos hpos, if_pos hpos]
      have e2 : buf.bytes.length + r.data.length + (n - r.data.length) - (n - r.ret.toNat)
          = (buf.bytes ++ r.data).length := by
        simp only [List.length_append]; omega
      rw [e2, List.take_left']
      rfl
    · rw [if_neg hpos, if_neg hpos]
      have e2 : buf.bytes.length + r.data.length + (n - r.data.length) - n
          = buf.bytes.length := by omega
      rw [e2, List.append_assoc, List.take_left', List.append_nil]
      rfl
  refine ⟨trivial, hbytes, ?_, d2⟩
  have hlen := d2.2.2
  rw [hbytes] at hlen
  rw [← hlen]
  simp only [List.length_append, ReadOutcome.delivered]
  split
  · omega
  · simp only [List.length_nil]
    omega

/-- Witness for C33: a buffer of three bytes, a `read` asked for 10 bytes that
delivers two. -/
theorem bytebuffer_read_fd_spec_witness :
    bytebuffer_wf (bytebuffer_ctor (some [1, 2, 3]) 3) ∧
    (bytebuffer_ctor (some [1, 2, 3]) 3).bufsize + (10 : Nat) < 2147483648 ∧
    ReadOutcome.valid { ret := 2, data := [7, 8] } 10 ∧
    (bytebuffer_read_fd (bytebuffer_ctor (some [1, 2, 3]) 3) { ret := 2, data := [7, 8] } 10).2.bytes
      = [1, 2, 3, 7, 8] ∧
    (bytebuffer_read_fd (bytebuffer_ctor (some [1, 2, 3]) 3) { ret := 2, data := [7, 8] } 10).2.bytes
      = (bytebuffer_ctor (some [1, 2, 3]) 3).bytes
        ++ ReadOutcome.delivered { ret := 2, data := [7, 8] } :=
  ⟨by decide, by decide, by decide, by decide,
    (bytebuffer_read_fd_spec (bytebuffer_ctor (some [1, 2, 3]) 3) { ret := 2, data := [7, 8] } 10
      (by decide) (by decide) (by decide)).2.1⟩

/-! ## Ring file descriptor I/O -/

/-- C34 fails on the code: a ring holding the words 1, 2, 3 and a call
`cbuffer_read_fd(buf, fd, 1)` whose first `read` fails with -1 and whose second
returns 0. `read(...) / sizeof(uint32_t)` is an unsigned division, so the -1
becomes `words_read = 2^62 - 1` on an LP64 host (`2^30 - 1` on an ILP32 one);
`tail` moves by that count modulo `IO_BUFFER_SIZE`, that is one slot back, so the
buffered word 3 is lost, and the function returns `words_read`, although no word
was read. -/
theorem cbuffer_read_fd_error :
    cbuffer_contents (cbuffer_append cbuffer_new [1, 2, 3] 3).2 = [1, 2, 3] ∧
    (cbuffer_append cbuffer_new [1, 2, 3] 3).2.tail = 3 ∧
    ssize_div_sizeof true (-1) = 4611686018427387903 ∧
    (cbuffer_read_fd true true [{ ret := -1, data := [] }, { ret := 0, data := [] }]
      (cbuffer_append cbuffer_new [1, 2, 3] 3).2 1).map
        (fun q => (q.1, q.2.tail, cbuffer_contents q.2))
      = some (4611686018427387903, 2, [1, 2]) ∧
    (cbuffer_read_fd false true [{ ret := -1, data := [] }, { ret := 0, data := [] }]
      (cbuffer_append cbuffer_new [1, 2, 3] 3).2 1).map
        (fun q => (q.1, q.2.tail, cbuffer_contents q.2))
      = some (1073741823, 2, [1, 2]) := by
  refine ⟨by decide, by decide, by decide, by decide, by decide⟩

/-- C35 fails on the code: a ring holding the words 1, 2, 3 and a call
`cbuffer_write_fd(buf, fd, 3)` whose first `write` fails with -1 and whose
second returns 0. `write(...) / sizeof(uint32_t)` is an unsigned division, so
the -1 becomes `written = 2^62 - 1` on an LP64 host (`2^30 - 1` on an ILP32
one); `cbuffer_deletefront(buffer, written)` then removes all three words
although the transport accepted none, and the function returns `written`. -/
theorem cbuffer_write_fd_error :
    cbuffer_contents (cbuffer_append cbuffer_new [1, 2, 3] 3).2 = [1, 2, 3] ∧
    ssize_div_sizeof true (-1) = 4611686018427387903 ∧
    (cbuffer_write_fd true [fun _ => -1, fun _ => 0]
      (cbuffer_append cbuffer_new [1, 2, 3] 3).2 3).map
        (fun q => (q.1, cbuffer_size q.2, cbuffer_contents q.2))
      = some (4611686018427387903, 0, []) ∧
    (cbuffer_write_fd false [fun _ => -1, fun _ => 0]
      (cbuffer_append cbuffer_new [1, 2, 3] 3).2 3).map
        (fun q => (q.1, cbuffer_size q.2, cbuffer_contents q.2))
      = some (1073741823, 0, []) := by
  refine ⟨by decide, by decide, by decide, by decide⟩

/-! ## Packet headers and transaction headers -/

theorem ipbus_packet_header_eq (packet_id type : Nat) :
    ipbus_packet_header packet_id type
      = 536871152 + (packet_id % 65536) * 256 + type % 16 := by
  have h1 : (0xffff &&& packet_id) = packet_id % 65536 := by
    rw [Nat.and_comm]
    exact Nat.and_pow_two_sub_one_eq_mod packet_id 16
  have h2 : (0xf &&& type) = type % 16 := by
    rw [Nat.and_comm]
    exact Nat.and_pow_two_sub_one_eq_mod type 4
  simp only [ipbus_packet_header, h1, h2, Nat.shiftLeft_eq]
  have hp : packet_id % 65536 < 65536 := Nat.mod_lt _ (by norm_num)
  have ht : type % 16 < 16 := Nat.mod_lt _ (by norm_num)
  generalize packet_id % 65536 = p at hp
  generalize type % 16 = t at ht
  have e0 : (0x200000f0 : Nat) = 0x20000000 ||| 0xf0 := by decide
  rw [e0, Nat.or_assoc 0x20000000 0xf0, Nat.or_comm 0xf0 (p * 2 ^ 8),
    or_eq_add_of_lt (p * 2 ^ 8) 0xf0 8 (by omega) (by omega),
    or_eq_add_of_lt 0x20000000 (p * 2 ^ 8 + 0xf0) 28 (by omega) (by omega),
    or_eq_add_of_lt _ t 4 (by omega) (by omega)]
  omega

theorem ipbus_packet_header_lt (packet_id type : Nat) :
    ipbus_packet_header packet_id type < 4294967296 := by
  rw [ipbus_packet_header_eq]
  omega

/-- C36. For every `packet_id` and `type`, `ipbus_detect_packet_header` returns
`IPBUS_ISTREAM_PACKET` for `ipbus_packet_header(packet_id, type)` and
`IPBUS_ISTREAM_PACKET_SWP_ORD` for its byte-swap. -/
theorem ipbus_detect_packet_header_packet_header (packet_id type : Nat) :
    ipbus_detect_packet_header (ipbus_packet_header packet_id type) = IPBUS_ISTREAM_PACKET ∧
    ipbus_detect_packet_header (bswap32 (ipbus_packet_header packet_id type))
      = IPBUS_ISTREAM_PACKET_SWP_ORD := by
  have h1 : ipbus_detect_packet_header (ipbus_packet_header packet_id type) = 1 := by
    rw [ipbus_detect_packet_header_eq, ipbus_packet_header_eq]
    rw [if_neg (by omega), if_neg (by omega)]
  refine ⟨h1, ?_⟩
  rw [ipbus_detect_packet_header_bswap32 _ (ipbus_packet_header_lt packet_id type), h1]
  rfl

/-- C37. A transaction header is never taken for a packet header: for every id,
words and info and every type among the six defined ones (0 to 5),
`ipbus_detect_packet_header` returns 0 for
`ipbus_transaction_header(2, id, words, type, info)` and for its byte-swap; so a
non-empty ring whose head word, read in network order, is either of the two is
classified by `ipbus_stream_state` as a transaction, complete or partial, and
`swapbytes` is left as it was. -/
theorem ipbus_transaction_header_not_packet (id words type info : Nat) (ht : type ≤ 5) :
    ipbus_detect_packet_header (ipbus_transaction_header 2 id words type info) = 0 ∧
    ipbus_detect_packet_header (bswap32 (ipbus_transaction_header 2 id words type info))
      = 0 ∧
    ∀ (le : Bool) (ring : CircularBuffer) (swapbytes : Int),
      cbuffer_size ring ≠ 0 →
      (cbuffer_value_at_net le ring 0 = ipbus_transaction_header 2 id words type info ∨
        cbuffer_value_at_net le ring 0
          = bswap32 (ipbus_transaction_header 2 id words type info)) →
      ((ipbus_stream_state le ring swapbytes).1 = IPBUS_ISTREAM_FULL_TRANS ∨
        (ipbus_stream_state le ring swapbytes).1 = IPBUS_ISTREAM_PARTIAL_TRANS) ∧
      (ipbus_stream_state le ring swapbytes).2 = swapbytes := by
  obtain ⟨h1, h2⟩ := ipbus_detect_packet_header_transaction id words type info ht
  refine ⟨h1, h2, ?_⟩
  intro le ring swapbytes hne hhead
  have hdet : ipbus_detect_packet_header (cbuffer_value_at_net le ring 0) = 0 := by
    rcases hhead with h | h <;> rw [h] <;> assumption
  simp only [ipbus_stream_state, if_neg hne, hdet, ne_eq, not_true_eq_false, if_false]
  split
  · exact ⟨Or.inl rfl, rfl⟩
  · exact ⟨Or.inr rfl, rfl⟩

/-- Witness for C37: the RMW request header of the repository's test,
`2CAB014F`. -/
theorem ipbus_transaction_header_not_packet_witness :
    IPBUS_RMW ≤ 5 ∧
    ipbus_detect_packet_header
      (ipbus_transaction_header 2 0xCAB 1 IPBUS_RMW IPBUS_INFO_REQUEST) = 0 ∧
    ipbus_detect_packet_header
      (bswap32 (ipbus_transaction_header 2 0xCAB 1 IPBUS_RMW IPBUS_INFO_REQUEST)) = 0 :=
  ⟨by decide,
    (ipbus_transaction_header_not_packet 0xCAB 1 IPBUS_RMW IPBUS_INFO_REQUEST (by decide)).1,
    (ipbus_transaction_header_not_packet 0xCAB 1 IPBUS_RMW IPBUS_INFO_REQUEST (by decide)).2.1⟩

/-! ## Non-incrementing write -/

theorem mem_store32_fold_other (le : Bool) (base : Nat) (f : Nat → Nat) (k : Nat) (mem : Memory)
    (a : Nat) (h : a < base ∨ base + 4 ≤ a) :
    ((List.range k).foldl (fun m i => mem_store32 le m base (f i)) mem) a = mem a := by
  induction k with
  | zero => rfl
  | succ k ih =>
    rw [List.range_succ, List.foldl_append]
    simp only [List.foldl_cons, List.foldl_nil]
    rw [mem_store32_other le _ base _ a h, ih]

theorem mem_store32_fold_load (le : Bool) (base : Nat) (f : Nat → Nat) (k : Nat) (mem : Memory)
    (hf : f k < 4294967296) :
    mem_load32 le ((List.range (k + 1)).foldl (fun m i => mem_store32 le m base (f i)) mem) base
      = f k := by
  rw [List.range_succ, List.foldl_append]
  simp only [List.foldl_cons, List.foldl_nil]
  exact mem_load32_store32 le _ base _ hf

/-- C38. Non-incrementing write of `handlers.c`, on a host of either byte order:
for a payload `[base, d1, .., dn]` of 32-bit words whose `size` field is `n + 1`,
`handle_IPBUS_NIWRITE` returns 0 and stores only into the four bytes at offset
`base`: with `n >= 1` the word there is `dn` afterwards, every byte outside those
four is as it was, and with `n = 0` the memory is unchanged. -/
theorem handle_IPBUS_NIWRITE_spec (le : Bool) (mem : Memory) (writesize n base : Nat)
    (d : List Nat) (hlen : d.length = n) (hd : ∀ w ∈ d, w < 4294967296) :
    (handle_IPBUS_NIWRITE le writesize { size := n + 1, words := some (base :: d) } mem).1 = 0 ∧
    (1 ≤ n →
      mem_load32 le
          (handle_IPBUS_NIWRITE le writesize { size := n + 1, words := some (base :: d) } mem).2
          base
        = d.getD (n - 1) 0) ∧
    (∀ a, a < base ∨ base + 4 ≤ a →
      (handle_IPBUS_NIWRITE le writesize { size := n + 1, words := some (base :: d) } mem).2 a
        = mem a) ∧
    (n = 0 →
      (handle_IPBUS_NIWRITE le writesize { size := n + 1, words := some (base :: d) } mem).2
        = mem) := by
  have h0 : ipbus_payload_t.at { size := n + 1, words := some (base :: d) } 0 = base := rfl
  refine ⟨rfl, ?_, ?_, ?_⟩
  · intro hn
    obtain ⟨k, rfl⟩ : ∃ k, n = k + 1 := ⟨n - 1, by omega⟩
    simp only [handle_IPBUS_NIWRITE, h0, Nat.add_sub_cancel]
    have hk : k < d.length := by omega
    have hat : ipbus_payload_t.at { size := k + 1 + 1, words := some (base :: d) } (1 + k)
        = d.getD k 0 := by
      simp only [ipbus_payload_t.at, Option.getD_some, Nat.add_comm 1 k, List.getD_cons_succ]
    rw [← hat]
    apply mem_store32_fold_load le base
      (fun i => ipbus_payload_t.at { size := k + 1 + 1, words := some (base :: d) } (1 + i)) k mem
    rw [hat, List.getD_eq_getElem _ _ hk]
    exact hd _ (List.getElem_mem hk)
  · intro a ha
    simp only [handle_IPBUS_NIWRITE, h0]
    exact mem_store32_fold_other le base _ _ mem a ha
  · intro hn
    subst hn
    rfl

/-- Witness for C38: three data words written at offset 8 of a memory holding
`EF` everywhere, on a little-endian host; the word there ends as the last one. -/
theorem handle_IPBUS_NIWRITE_spec_witness :
    [0x11111111, 0x22222222, 0x33333333].length = 3 ∧
    (∀ w ∈ [0x11111111, 0x22222222, 0x33333333], w < 4294967296) ∧
    mem_load32 true
        (handle_IPBUS_NIWRITE true 3
          { size := 3 + 1, words := some (8 :: [0x11111111, 0x22222222, 0x33333333]) }
          (fun _ => 0xEF)).2 8
      = 0x33333333 :=
  ⟨by decide, by decide,
    (handle_IPBUS_NIWRITE_spec true (fun _ => 0xEF) 3 3 8 [0x11111111, 0x22222222, 0x33333333]
      (by decide) (by decide)).2.1 (by decide)⟩

/-! ## Payload reads of the dispatcher -/

/-- C39 fails on the code: the ring holds `20000040` (an RMW header whose info
nibble is `SUCCESS`) and one more word. `ipbus_stream_state` sizes the payload
with the info nibble, 1 word, and answers `FULL_TRANS`; `ipbus_decode_transaction`
allocates a block of that one word; `ipbus_process_transaction` dispatches on
the type alone and evaluates `words[0]`, `words[1]` and `words[2]`, two of them
outside the block. A ring holding only `2000FF1F` (WRITE, words = 255) is
`FULL_TRANS` with an empty block, of which the WRITE handler reads 256 entries. -/
theorem ipbus_process_transaction_reads_out_of_block :
    (ipbus_stream_state true (cbuffer_of_net true [0x20000040, 0xBEEFCAFE]) 0).1
      = IPBUS_ISTREAM_FULL_TRANS ∧
    (ipbus_decode_transaction true (cbuffer_of_net true [0x20000040, 0xBEEFCAFE]) 0).type
      = IPBUS_RMW ∧
    (ipbus_decode_transaction true (cbuffer_of_net true [0x20000040, 0xBEEFCAFE]) 0).data.words
      = some [0xBEEFCAFE] ∧
    ipbus_process_transaction_reads
      (ipbus_decode_transaction true (cbuffer_of_net true [0x20000040, 0xBEEFCAFE]) 0)
      = [0, 1, 2] ∧
    (ipbus_stream_state true (cbuffer_of_net true [0x2000FF1F]) 0).1
      = IPBUS_ISTREAM_FULL_TRANS ∧
    (ipbus_decode_transaction true (cbuffer_of_net true [0x2000FF1F]) 0).data.words
      = some [] ∧
    (ipbus_process_transaction_reads
      (ipbus_decode_transaction true (cbuffer_of_net true [0x2000FF1F]) 0)).length = 256 := by
  refine ⟨by decide, by decide, by decide, by decide, by decide, by decide, ?_⟩
  have e : ipbus_process_transaction_reads
      (ipbus_decode_transaction true (cbuffer_of_net true [0x2000FF1F]) 0)
      = List.range (1 + 255) := by
    have ht : (ipbus_decode_transaction true (cbuffer_of_net true [0x2000FF1F]) 0).type
        = IPBUS_WRITE := by decide
    have hw : (ipbus_decode_transaction true (cbuffer_of_net true [0x2000FF1F]) 0).words
        = 255 := by decide
    simp only [ipbus_process_transaction_reads, ht, hw]
    rw [if_neg (by decide), if_pos trivial]
  rw [e, List.length_range]

/-! ## Requests that cannot fit the ring -/

theorem nibbles_of_word (v : Nat) :
    v / 16 % 16 = v % 256 / 16 ∧ v / 268435456 % 16 = v / 16777216 % 256 / 16 := by
  constructor <;> omega

theorem ipbus_detect_packet_header_of_request_word (le : Bool) (ring : CircularBuffer)
    (swapbytes : Int) (id words type info : Nat) (ht : type ≤ 5)
    (hhead : request_word le ring swapbytes 0
      = ipbus_transaction_header 2 id words type info) :
    ipbus_detect_packet_header (cbuffer_value_at_net le ring 0) = 0 := by
  obtain ⟨h1, _⟩ := ipbus_detect_packet_header_transaction id words type info ht
  simp only [request_word] at hhead
  by_cases hs : swapbytes = 0
  · rw [if_neg (by simpa using hs)] at hhead
    rw [hhead]; exact h1
  · rw [if_pos hs] at hhead
    rw [ipbus_transaction_header_eq] at hhead
    rw [ipbus_detect_packet_header_eq]
    generalize cbuffer_value_at_net le ring 0 = v at hhead
    simp only [bswap32] at hhead
    have hid : id % 4096 < 4096 := Nat.mod_lt _ (by norm_num)
    have hw : words % 256 < 256 := Nat.mod_lt _ (by norm_num)
    have hi : info % 16 < 16 := Nat.mod_lt _ (by norm_num)
    have htt : type % 16 = type := Nat.mod_eq_of_lt (by omega)
    rw [htt] at hhead
    generalize id % 4096 = a at hhead hid
    generalize words % 256 = b at hhead hw
    generalize info % 16 = c at hhead hi
    rw [(nibbles_of_word v).1, (nibbles_of_word v).2]
    have b0 : v % 256 < 256 := Nat.mod_lt _ (by norm_num)
    have b1 : v / 256 % 256 < 256 := Nat.mod_lt _ (by norm_num)
    have b2 : v / 65536 % 256 < 256 := Nat.mod_lt _ (by norm_num)
    have b3 : v / 16777216 % 256 < 256 := Nat.mod_lt _ (by norm_num)
    generalize v % 256 = x0 at hhead b0
    generalize v / 256 % 256 = x1 at hhead b1
    generalize v / 65536 % 256 = x2 at hhead b2
    generalize v / 16777216 % 256 = x3 at hhead b3
    rw [if_neg (by omega), if_pos (by omega)]

/-- C40. A WRITE or NIWRITE request header with words = 254 is never dispatched.
The input ring has its cursors in range and is non-empty, and its head word,
seen through the current `swapbytes`, is
`ipbus_transaction_header(2, id, 254, type, REQUEST)` with `type` WRITE or
NIWRITE. The request needs `1 + 255 = 256` buffered words and the ring holds at
most `IO_BUFFER_SIZE - 1 = 255`, so `ipbus_stream_state` returns
`PARTIAL_TRANS` and `ipbus_process_input_stream` returns 0 and leaves the
client and the handler state as they were. -/
theorem ipbus_write_254_never_dispatched (σ : Type) (H : Handlers σ) (le : Bool)
    (client : Client) (s : σ) (id type : Nat)
    (hwf : cbuffer_wf client.inputstream)
    (hne : cbuffer_size client.inputstream ≠ 0)
    (htype : type = IPBUS_WRITE ∨ type = IPBUS_NIWRITE)
    (hhead : request_word le client.inputstream client.swapbytes 0
      = ipbus_transaction_header 2 id 254 type IPBUS_INFO_REQUEST) :
    ipbus_transaction_payload_size 254 type IPBUS_INFO_REQUEST + 1 = 256 ∧
    cbuffer_size client.inputstream ≤ IO_BUFFER_SIZE - 1 ∧
    ipbus_stream_state le client.inputstream client.swapbytes
      = (IPBUS_ISTREAM_PARTIAL_TRANS, client.swapbytes) ∧
    ipbus_process_input_stream H le client s = some (0, client, s) := by
  have ht5 : type ≤ 5 := by
    rcases htype with h | h <;> rw [h] <;> decide
  have hps : ipbus_transaction_payload_size 254 type IPBUS_INFO_REQUEST = 255 := by
    rcases htype with h | h <;> rw [h] <;> decide
  have hdet := ipbus_detect_packet_header_of_request_word le client.inputstream
    client.swapbytes id 254 type IPBUS_INFO_REQUEST ht5 hhead
  have hlt := cbuffer_size_lt client.inputstream hwf
  simp only [IO_BUFFER_SIZE] at hlt
  have hhdr : ipbus_transaction_header 2 id 254 type IPBUS_INFO_REQUEST
      = ipbus_transaction_header 2 (id % 4096) 254 type IPBUS_INFO_REQUEST := by
    rw [ipbus_transaction_header_eq, ipbus_transaction_header_eq, Nat.mod_mod]
  have hf := decode_header_word_header (id % 4096) 254 type IPBUS_INFO_REQUEST
    (Nat.mod_lt _ (by norm_num)) (by norm_num) (by omega) (by decide)
  have hsz : (ipbus_decode_transaction_header le client.inputstream client.swapbytes).data.size
      = 255 := by
    have e : (ipbus_decode_transaction_header le client.inputstream client.swapbytes).data.size
        = ipbus_transaction_payload_size
            (ipbus_decode_transaction_header le client.inputstream client.swapbytes).words
            (ipbus_decode_transaction_header le client.inputstream client.swapbytes).type
            (ipbus_decode_transaction_header le client.inputstream client.swapbytes).info
            % 256 := rfl
    rw [e, ipbus_decode_transaction_header_word, hhead, hhdr, hf.2.1, hf.2.2.1, hf.2.2.2, hps]
  have hlt2 : ¬ cbuffer_size client.inputstream
      ≥ (ipbus_decode_transaction_header le client.inputstream client.swapbytes).data.size
        + 1 := by
    rw [hsz]; omega
  have hstep := process_step_transaction σ H le client s hne hdet
  rw [if_neg hlt2] at hstep
  refine ⟨by rw [hps], by simp only [IO_BUFFER_SIZE]; omega, ?_, ?_⟩
  · simp only [ipbus_stream_state, if_neg hne, hdet, ne_eq, not_true_eq_false, if_false,
      if_neg hlt2]
  · simp only [ipbus_process_input_stream, ipbus_process_input_stream_fuel, hstep, if_true]

/-- Witness for C40: a ring holding the NIWRITE request header `2000FE3F`
followed by two payload words, processed with the dummy handlers. -/
theorem ipbus_write_254_never_dispatched_witness :
    cbuffer_wf (cbuffer_of_net true [0x2000FE3F, 1, 2]) ∧
    request_word true (cbuffer_of_net true [0x2000FE3F, 1, 2]) 0 0
      = ipbus_transaction_header 2 0 254 IPBUS_NIWRITE IPBUS_INFO_REQUEST ∧
    ipbus_process_input_stream dummyHandlers true
        { inputstream := cbuffer_of_net true [0x2000FE3F, 1, 2], outputstream := cbuffer_new,
          swapbytes := 0 } ()
      = some (0, { inputstream := cbuffer_of_net true [0x2000FE3F, 1, 2],
                   outputstream := cbuffer_new, swapbytes := 0 }, ()) :=
  ⟨by decide, by decide,
    (ipbus_write_254_never_dispatched Unit dummyHandlers true
      { inputstream := cbuffer_of_net true [0x2000FE3F, 1, 2], outputstream := cbuffer_new,
        swapbytes := 0 } () 0 IPBUS_NIWRITE (by decide) (by decide) (Or.inr rfl)
      (by decide)).2.2.2⟩

end SoftIPbus
